import Mathlib

set_option maxHeartbeats 1000000

/-!
# Verification of the `dom-unoverride` core

A shallow embedding of the override-detection and transient-substitution
engine (`src/common.js`, `src/HTMLFormElement.js`, `src/Document.js`,
`src/generic-operations.js`, `src/index.js`) over a model of the host tree
collaborator (node trees, the named-item exposure algorithm, live
collections, structural `replaceWith`).

Host-interface modelling notes (the host DOM is an external collaborator,
specified only at its interface):
* node identity is a natural-number id; kind probes
  (`String(x) === "[object HTMLFormElement]"`, `constructor.name`) are
  modelled by the un-overridable `Kind` tag carried by each node;
* live collections (`HTMLFormControlsCollection`, `RadioNodeList`,
  `HTMLCollection`) are modelled by values that carry the query, membership
  being recomputed against the current tree on every access;
* property access `x[k]` is modelled by `domGet`: own expandos first, then
  the platform named-item algorithm (which, under `LegacyOverrideBuiltIns`,
  takes precedence over prototype built-ins), then built-ins
  (`elements`, `name`, `id`, and per-node `fields`).
-/

namespace DomU

/-- Runtime kind tag of a node (generic / form control / image / embed /
object / iframe / form / document). -/
inductive Kind where
  | generic
  | control
  | image
  | embed
  | objectEl
  | iframe
  | form
  | doc
  deriving DecidableEq, Repr

/-- Observable values: primitives, nodes (by id), the live collection types
of the platform, iframe window proxies, and key lists (for `ownKeys`). -/
inductive Value where
  | undef
  | vnull
  | str (s : String)
  | bool (b : Bool)
  | node (nid : Nat)
  | controlsCollection (formNat : Nat)
  | formNamedGroup (formNat : Nat) (key : String)
  | docNamedGroup (docNat : Nat) (key : String)
  | window (frameNat : Nat)
  | strList (ks : List String)
  deriving DecidableEq, Repr

/-- Per-node data: kind tag, `name` / `id` attributes, the `form` foreign-key
attribute (external control association), built-in prototype properties
(`fields`) and caller-defined own properties (`expandos`). -/
structure NodeData where
  kind : Kind
  nameAttr : String
  idAttr : String
  formAttr : String
  fields : List (String × Value)
  expandos : List (String × Value)
  deriving DecidableEq, Repr

/-- The host tree: ordered children, stable identity (`nid`). -/
inductive Tree where
  | node (nid : Nat) (data : NodeData) (children : List Tree)
  deriving Repr

abbrev World := Tree

/-- Data of an inert placeholder node (`<div style="display:none">`):
generic kind, no attributes, no own properties. -/
def placeholderData : NodeData :=
  { kind := .generic, nameAttr := "", idAttr := "", formAttr := ""
    fields := [], expandos := [] }

def Tree.rootNat : Tree → Nat
  | .node n _ _ => n

def Tree.rootData : Tree → NodeData
  | .node _ d _ => d

mutual

/-- All node ids of a tree, in tree (preorder) order. -/
def nidsOfT : Tree → List Nat
  | .node n _ cs => n :: nidsOfF cs

def nidsOfF : List Tree → List Nat
  | [] => []
  | t :: ts => nidsOfT t ++ nidsOfF ts

end

mutual

/-- Data of the node with the given id, if present. -/
def findDataT : Tree → Nat → Option NodeData
  | .node n d cs, target => if n = target then some d else findDataF cs target

def findDataF : List Tree → Nat → Option NodeData
  | [], _ => none
  | t :: ts, target =>
    match findDataT t target with
    | some d => some d
    | none => findDataF ts target

end

mutual

/-- The full subtree rooted at the node with the given id, if present. -/
def subtreeT : Tree → Nat → Option Tree
  | .node n d cs, target =>
    if n = target then some (.node n d cs) else subtreeF cs target

def subtreeF : List Tree → Nat → Option Tree
  | [], _ => none
  | t :: ts, target =>
    match subtreeT t target with
    | some s => some s
    | none => subtreeF ts target

end

mutual

/-- `replaceWith`: replace the subtree rooted at `target` by `r`.  The root
of a tree has no parent, so (as in the DOM) it is never replaced; a missing
`target` makes this a no-op, matching `replaceWith` on a detached node. -/
def replaceT : Tree → Nat → Tree → Tree
  | .node n d cs, target, r => .node n d (replaceF cs target r)

def replaceF : List Tree → Nat → Tree → List Tree
  | [], _, _ => []
  | .node n d cs :: ts, target, r =>
    if n = target then r :: replaceF ts target r
    else .node n d (replaceF cs target r) :: replaceF ts target r

end

mutual

/-- Update the data of the node with the given id (models mutating a node's
own properties in place). -/
def mapDataT : Tree → Nat → (NodeData → NodeData) → Tree
  | .node n d cs, target, f =>
    .node n (if n = target then f d else d) (mapDataF cs target f)

def mapDataF : List Tree → Nat → (NodeData → NodeData) → List Tree
  | [], _, _ => []
  | t :: ts, target, f => mapDataT t target f :: mapDataF ts target f

end

/-- Erase the mutable own-property tables of a node, keeping identity,
kind and attributes. -/
def scrubData (d : NodeData) : NodeData := { d with fields := [], expandos := [] }

mutual

/-- The "structural contents" of the tree: child lists, order, identity,
kind and attributes of every node — everything except the mutable
property tables. -/
def stripT : Tree → Tree
  | .node n d cs => .node n (scrubData d) (stripF cs)

def stripF : List Tree → List Tree
  | [] => []
  | t :: ts => stripT t :: stripF ts

end

mutual

/-- Generic environment-carrying preorder walk: `emit` produces entries per
node from the environment (ancestor information) and the node's data; `upd`
pushes the environment down to children. -/
def gwalkT {E α : Type} (upd : E → Nat → NodeData → E)
    (emit : E → Nat → NodeData → List α) : E → Tree → List α :=
  fun e t =>
    match t with
    | .node n d cs => emit e n d ++ gwalkF upd emit (upd e n d) cs

/-- Forest version of `gwalkT`. -/
def gwalkF {E α : Type} (upd : E → Nat → NodeData → E)
    (emit : E → Nat → NodeData → List α) : E → List Tree → List α :=
  fun e l =>
    match l with
    | [] => []
    | t :: ts => gwalkT upd emit e t ++ gwalkF upd emit e ts

end

/-- Environment-carrying preorder walk collecting the ids of nodes
satisfying `pick`. -/
def walkT {E : Type} (upd : E → Nat → NodeData → E)
    (pick : E → Nat → NodeData → Bool) : E → Tree → List Nat :=
  gwalkT upd (fun e n d => if pick e n d then [n] else [])

/-- Forest version of `walkT`. -/
def walkF {E : Type} (upd : E → Nat → NodeData → E)
    (pick : E → Nat → NodeData → Bool) : E → List Tree → List Nat :=
  gwalkF upd (fun e n d => if pick e n d then [n] else [])

/-- Pre-order walk emitting every node id paired with its pick verdict
(used to track the positions of picked nodes inside the full walk). -/
def pwalkT {E : Type} (upd : E → Nat → NodeData → E)
    (pick : E → Nat → NodeData → Bool) : E → Tree → List (Nat × Bool) :=
  gwalkT upd (fun e n d => [(n, pick e n d)])

/-- Forest version of `pwalkT`. -/
def pwalkF {E : Type} (upd : E → Nat → NodeData → E)
    (pick : E → Nat → NodeData → Bool) : E → List Tree → List (Nat × Bool) :=
  gwalkF upd (fun e n d => [(n, pick e n d)])

/-- The picked ids of a paired walk, in walk order. -/
def picksOf (l : List (Nat × Bool)) : List Nat :=
  (l.filter (fun x => x.2)).map Prod.fst

/-! ## Host collaborator interface: collections, named-item algorithm, raw
property operations -/

/-- Association-list lookup (own-property tables). -/
def lookupAssoc : List (String × Value) → String → Option Value
  | [], _ => none
  | (k, v) :: rest, key => if k = key then some v else lookupAssoc rest key

/-- JS assignment semantics on a plain own-property table: update in place
if present, append otherwise. -/
def setAssoc : List (String × Value) → String → Value → List (String × Value)
  | [], key, v => [(key, v)]
  | (k, w0) :: rest, key, v =>
    if k = key then (k, v) :: rest else (k, w0) :: setAssoc rest key v

/-- `delete` semantics on a plain own-property table. -/
def removeAssoc : List (String × Value) → String → List (String × Value)
  | [], _ => []
  | (k, v) :: rest, key =>
    if k = key then removeAssoc rest key else (k, v) :: removeAssoc rest key

def dedupKeysAux : List String → List String → List String
  | _, [] => []
  | seen, s :: rest =>
    if s ∈ seen then dedupKeysAux seen rest
    else s :: dedupKeysAux (s :: seen) rest

/-- Remove duplicates, keeping first occurrences (own-key enumeration). -/
def dedupKeys (l : List String) : List String := dedupKeysAux [] l

/-- The `/^\d+$/` test of `isIndiceProperty`. -/
def isDigits (s : String) : Bool := s ≠ "" && s.toList.all Char.isDigit

/-- Value of a numeric-string key. -/
def toNatKey (s : String) : Nat :=
  s.toList.foldl (fun n c => n * 10 + (c.toNat - 48)) 0

/-- WebIDL `unsigned long` coercion used by `HTMLCollection.item`: a
non-numeric string coerces through `NaN` to index `0`. -/
def toIdxLoose (s : String) : Nat := if isDigits s then toNatKey s else 0

/-- A string is an array-index key (a supported property index of a legacy
platform object) iff it is the canonical decimal form of its numeric value:
`"5"` is, `"05"` is not. -/
def isCanonIndex (s : String) : Bool :=
  isDigits s && toString (toNatKey s) == s

/-- Environment update tracking the nearest `form` ancestor. -/
def nearestFormUpd : Option Nat → Nat → NodeData → Option Nat :=
  fun nearest n d => if d.kind == .form then some n else nearest

/-- A node is a listed control of form `f` iff it is control-kind and either
has no `form` attribute and its nearest form ancestor is `f`, or its `form`
attribute equals `f`'s non-empty `id`. -/
def controlPick (f : Nat) (fIdAttr : String) : Option Nat → Nat → NodeData → Bool :=
  fun nearest _ d =>
    d.kind == .control &&
      (if d.formAttr == "" then nearest == some f
       else fIdAttr != "" && d.formAttr == fIdAttr)

/-- The live `form.elements` membership (`HTMLFormControlsCollection`),
recomputed from current tree structure on every access. -/
def elementsOf (w : World) (f : Nat) : List Nat :=
  match findDataT w f with
  | some d =>
    if d.kind == .form then walkT nearestFormUpd (controlPick f d.idAttr) none w
    else []
  | none => []

/-- Environment update: are we strictly inside the subtree of `root`? -/
def insideUpd (root : Nat) : Bool → Nat → NodeData → Bool :=
  fun e n _ => e || n == root

/-- Image descendants of a form, in tree order. -/
def imagesOf (w : World) (f : Nat) : List Nat :=
  walkT (insideUpd f) (fun e _ d => e && d.kind == .image) false w

/-- Does this node data match `key` by `name` or `id`? -/
def nameOrIdMatches (d : NodeData) (key : String) : Bool :=
  key != "" && (d.nameAttr == key || d.idAttr == key)

/-- Listed controls of `f` whose `name` or `id` equals `key` (tree order). -/
def namedControls (w : World) (f : Nat) (key : String) : List Nat :=
  (elementsOf w f).filter (fun c =>
    match findDataT w c with
    | some d => nameOrIdMatches d key
    | none => false)

/-- Image descendants of `f` whose `name` or `id` equals `key`. -/
def namedImages (w : World) (f : Nat) (key : String) : List Nat :=
  (imagesOf w f).filter (fun c =>
    match findDataT w c with
    | some d => nameOrIdMatches d key
    | none => false)

/-- Live membership of the `RadioNodeList` produced by the form named-item
algorithm: matching listed controls, or, when there are none, matching image
descendants. -/
def formGroupMembers (w : World) (f : Nat) (key : String) : List Nat :=
  match namedControls w f key with
  | [] => namedImages w f key
  | cs => cs

/-- The form named-item algorithm (HTML `dom-form-nameditem`): matching
listed controls first, else matching image descendants; one match is
returned directly, several as a live `RadioNodeList`. -/
def formNamedValue (w : World) (f : Nat) (key : String) : Option Value :=
  match namedControls w f key with
  | [] =>
    match namedImages w f key with
    | [] => none
    | [i] => some (.node i)
    | _ => some (.formNamedGroup f key)
  | [c] => some (.node c)
  | _ => some (.formNamedGroup f key)

def kindOf (w : World) (n : Nat) : Option Kind := (findDataT w n).map (·.kind)

/-- Which names a node contributes to document named access: embed / form /
iframe / object / img by non-empty `name`; object by `id`; img by `id` only
when its `name` is non-empty. -/
def docMatchData (d : NodeData) (key : String) : Bool :=
  key != "" &&
    (((d.kind == .embed || d.kind == .form || d.kind == .iframe ||
       d.kind == .objectEl || d.kind == .image) && d.nameAttr == key) ||
     (d.kind == .objectEl && d.idAttr == key) ||
     (d.kind == .image && d.idAttr == key && d.nameAttr != ""))

/-- Descendants of document `dn` matching `key` under the document
named-item algorithm, in tree order. -/
def docNamedMatches (w : World) (dn : Nat) (key : String) : List Nat :=
  walkT (insideUpd dn) (fun e _ d => e && docMatchData d key) false w

/-- The document named-item algorithm: one match is returned directly (an
iframe as its content window), several as a live `HTMLCollection`. -/
def docNamedValue (w : World) (dn : Nat) (key : String) : Option Value :=
  match docNamedMatches w dn key with
  | [] => none
  | [m] => some (if kindOf w m == some .iframe then .window m else .node m)
  | _ => some (.docNamedGroup dn key)

/-- Built-in (prototype) properties of a node, as seen when no own property
and no named item takes precedence: `elements` on forms, the `name` / `id`
reflected attributes on elements, and the modelled per-node `fields`. -/
def builtinGet (n : Nat) (d : NodeData) (key : String) : Option Value :=
  match d.kind with
  | .form =>
    if key = "elements" then some (.controlsCollection n)
    else if key = "name" then some (.str d.nameAttr)
    else if key = "id" then some (.str d.idAttr)
    else lookupAssoc d.fields key
  | .doc => lookupAssoc d.fields key
  | _ =>
    if key = "name" then some (.str d.nameAttr)
    else if key = "id" then some (.str d.idAttr)
    else lookupAssoc d.fields key

/-- `x[key]` on a node: supported index (forms), else own expandos, else the
named-item algorithm (which under `LegacyOverrideBuiltIns` hides prototype
built-ins), else built-ins. -/
def domGet (w : World) (n : Nat) (key : String) : Value :=
  match findDataT w n with
  | none => .undef
  | some d =>
    if d.kind == .form && isCanonIndex key &&
        decide (toNatKey key < (elementsOf w n).length) then
      match (elementsOf w n)[toNatKey key]? with
      | some c => .node c
      | none => .undef
    else
      match lookupAssoc d.expandos key with
      | some v => v
      | none =>
        match d.kind with
        | .form =>
          match formNamedValue w n key with
          | some v => v
          | none => (builtinGet n d key).getD .undef
        | .doc =>
          match docNamedValue w n key with
          | some v => v
          | none => (builtinGet n d key).getD .undef
        | _ => (builtinGet n d key).getD Value.undef

/-- `HTMLFormControlsCollection.namedItem`. -/
def collNamedItem (w : World) (f : Nat) (key : String) : Value :=
  match namedControls w f key with
  | [] => .vnull
  | [c] => .node c
  | _ => .formNamedGroup f key

/-- `HTMLFormControlsCollection.item`, with the WebIDL index coercion. -/
def collItemMethod (w : World) (f : Nat) (key : String) : Value :=
  match (elementsOf w f)[toIdxLoose key]? with
  | some c => .node c
  | none => .vnull

/-- Indexed access `collection[i]`. -/
def collIndex (w : World) (f : Nat) (i : Nat) : Value :=
  match (elementsOf w f)[i]? with
  | some c => .node c
  | none => .undef

def natKeys (len : Nat) : List String := (List.range len).map toString

def nodeNamedKeyList (d : NodeData) : List String :=
  (if d.nameAttr != "" then [d.nameAttr] else []) ++
    (if d.idAttr != "" && d.idAttr != d.nameAttr then [d.idAttr] else [])

/-- Own keys of the live controls collection: supported indices and the
names / ids of the listed controls (images are *not* own properties of the
collection). -/
def collectionOwnKeys (w : World) (f : Nat) : List String :=
  dedupKeys (natKeys (elementsOf w f).length ++
    (elementsOf w f).flatMap (fun c =>
      match findDataT w c with
      | some d => nodeNamedKeyList d
      | none => []))

/-- `Object.prototype.hasOwnProperty.call(collection, key)`. -/
def collectionHasOwn (w : World) (f : Nat) (key : String) : Bool :=
  (collectionOwnKeys w f).contains key

/-- `Reflect.ownKeys(form)`: supported indices, the named-exposure keys
(controls and image descendants), then ordinary own expandos. -/
def formOwnKeysFn (w : World) (f : Nat) : List String :=
  dedupKeys (natKeys (elementsOf w f).length ++
    (elementsOf w f).flatMap (fun c =>
      match findDataT w c with
      | some d => nodeNamedKeyList d
      | none => []) ++
    (imagesOf w f).flatMap (fun c =>
      match findDataT w c with
      | some d => nodeNamedKeyList d
      | none => []) ++
    ((findDataT w f).map (fun d => d.expandos.map Prod.fst)).getD [])

/-- Names a document descendant contributes to `Reflect.ownKeys(doc)`. -/
def docNodeKeyList (d : NodeData) : List String :=
  (if (d.kind == .embed || d.kind == .form || d.kind == .iframe ||
      d.kind == .objectEl || d.kind == .image) && d.nameAttr != "" then
    [d.nameAttr] else []) ++
  (if d.kind == .objectEl && d.idAttr != "" then [d.idAttr] else []) ++
  (if d.kind == .image && d.idAttr != "" && d.nameAttr != "" then
    [d.idAttr] else [])

/-- Descendants of `dn`, in tree order. -/
def docDescendants (w : World) (dn : Nat) : List Nat :=
  walkT (insideUpd dn) (fun e _ _ => e) false w

/-- `Reflect.ownKeys(doc)`: named-exposure keys then own expandos. -/
def docOwnKeysFn (w : World) (dn : Nat) : List String :=
  dedupKeys ((docDescendants w dn).flatMap (fun c =>
      match findDataT w c with
      | some d => docNodeKeyList d
      | none => []) ++
    ((findDataT w dn).map (fun d => d.expandos.map Prod.fst)).getD [])

/-- `Object.prototype.hasOwnProperty.call(document, key)`. -/
def docHasOwn (w : World) (dn : Nat) (key : String) : Bool :=
  (docOwnKeysFn w dn).contains key

/-! ## Value-level host operations (receivers are arbitrary values) -/

/-- Live membership of a platform collection value. -/
def groupMembers (w : World) : Value → List Nat
  | .formNamedGroup f key => formGroupMembers w f key
  | .docNamedGroup dn key => docNamedMatches w dn key
  | _ => []

/-- `x.length` on a live collection value (0 on anything else, matching
`undefined > i` being false). -/
def collLength (w : World) (v : Value) : Nat :=
  match v with
  | .controlsCollection f => (elementsOf w f).length
  | .formNamedGroup _ _ => (groupMembers w v).length
  | .docNamedGroup _ _ => (groupMembers w v).length
  | _ => 0

/-- Indexed access `x[i]` / `x.item(i)` on a live collection value. -/
def collIndexV (w : World) (v : Value) (i : Nat) : Value :=
  match v with
  | .controlsCollection f => collIndex w f i
  | .formNamedGroup _ _ =>
    match (groupMembers w v)[i]? with
    | some m => .node m
    | none => .undef
  | .docNamedGroup _ _ =>
    match (groupMembers w v)[i]? with
    | some m => .node m
    | none => .undef
  | _ => Value.undef

/-- `x[key]` on an arbitrary receiver value. -/
def valGet (w : World) (v : Value) (key : String) : Value :=
  match v with
  | .node n => domGet w n key
  | .controlsCollection f =>
    if isCanonIndex key then collIndex w f (toNatKey key) else .undef
  | .window fr => if key = "frameElement" then .node fr else .undef
  | _ => Value.undef

/-- `x[key] = val`: creates or updates an ordinary own property. -/
def setVal (w : World) (v : Value) (key : String) (val : Value) : World :=
  match v with
  | .node n => mapDataT w n (fun d => { d with expandos := setAssoc d.expandos key val })
  | _ => w

/-- `Object.defineProperty(x, key, desc)`: defines an own property
(descriptors are modelled shallowly by their value). -/
def defineVal (w : World) (v : Value) (key : String) (val : Value) : World :=
  setVal w v key val

/-- `delete x[key]`: removes an ordinary own property. -/
def deleteVal (w : World) (v : Value) (key : String) : World :=
  match v with
  | .node n => mapDataT w n (fun d => { d with expandos := removeAssoc d.expandos key })
  | _ => w

/-- `key in x`: own properties (expandos, supported indices, named items)
or prototype built-ins. -/
def hasVal (w : World) (v : Value) (key : String) : Bool :=
  match v with
  | .node n =>
    match findDataT w n with
    | none => false
    | some d =>
      (lookupAssoc d.expandos key).isSome ||
      (builtinGet n d key).isSome ||
      (match d.kind with
       | .form =>
         (formNamedValue w n key).isSome ||
         (isCanonIndex key && decide (toNatKey key < (elementsOf w n).length))
       | .doc => (docNamedValue w n key).isSome
       | _ => false)
  | _ => false

/-- `Object.getOwnPropertyDescriptor(x, key)`, modelled shallowly by the
descriptor's value: supported indices and named items are own properties of
platform objects, expandos are ordinary own properties; prototype built-ins
are not own. -/
def ownDesc (w : World) (v : Value) (key : String) : Value :=
  match v with
  | .node n =>
    match findDataT w n with
    | none => .undef
    | some d =>
      match d.kind with
      | .form =>
        if isCanonIndex key && decide (toNatKey key < (elementsOf w n).length)
        then
          collIndex w n (toNatKey key)
        else
          match lookupAssoc d.expandos key with
          | some v0 => v0
          | none => (formNamedValue w n key).getD .undef
      | .doc =>
        match lookupAssoc d.expandos key with
        | some v0 => v0
        | none => (docNamedValue w n key).getD .undef
      | _ => (lookupAssoc d.expandos key).getD .undef
  | _ => Value.undef

/-- `Object.prototype.hasOwnProperty.call(x, key)` on a receiver value. -/
def hasOwnPropertyV (w : World) (v : Value) (key : String) : Bool :=
  match v with
  | .controlsCollection f => collectionHasOwn w f key
  | .node n =>
    match findDataT w n with
    | none => false
    | some d =>
      match d.kind with
      | .form => (formOwnKeysFn w n).contains key
      | .doc => (docOwnKeysFn w n).contains key
      | _ => (d.expandos.map Prod.fst).contains key
  | _ => false

/-- `formElements.namedItem(key)` on a receiver value. -/
def namedItemV (w : World) (v : Value) (key : String) : Value :=
  match v with
  | .controlsCollection f => collNamedItem w f key
  | _ => Value.undef

/-- `formElements.item(key)` on a receiver value. -/
def itemMethodV (w : World) (v : Value) (key : String) : Value :=
  match v with
  | .controlsCollection f => collItemMethod w f key
  | _ => Value.undef

/-! ## Kind probes (`common.js`), via the un-overridable kind tag -/

def kindOfV (w : World) : Value → Option Kind
  | .node n => kindOf w n
  | _ => none

/-- `getConstructorName(item) === "HTMLImageElement"`. -/
def isHtmlImageV (w : World) (v : Value) : Bool :=
  kindOfV w v == some .image

/-- `String(item) === "[object HTMLFormElement]"`. -/
def isHtmlFormV (w : World) (v : Value) : Bool :=
  kindOfV w v == some .form

/-- `String(item) === "[object HTMLDocument]"`. -/
def isDocumentV (w : World) (v : Value) : Bool :=
  kindOfV w v == some .doc

/-- `getConstructorName(item) === "RadioNodeList"`. -/
def isRadioNodeListV : Value → Bool
  | .formNamedGroup _ _ => true
  | _ => false

/-- `getConstructorName(item) === "HTMLCollection"`. -/
def isHtmlCollectionV : Value → Bool
  | .docNamedGroup _ _ => true
  | _ => false

/-- `getConstructorName(item) === "HTMLFormControlsCollection"`. -/
def isFormElementsCollectionV : Value → Bool
  | .controlsCollection _ => true
  | _ => false

/-- `getConstructorName(object) === "Window" && object.frameElement`. -/
def isIframeWindowV : Value → Bool
  | .window _ => true
  | _ => false

/-- JS truthiness of a modelled value. -/
def truthy : Value → Bool
  | .undef => false
  | .vnull => false
  | .str s => s != ""
  | .bool b => b
  | _ => true

/-- `HTMLFormElement.prototype.contains.call(f, v)`. -/
def containsN (w : World) (f : Nat) (v : Nat) : Bool :=
  match subtreeT w f with
  | some s => (nidsOfT s).contains v
  | none => false

/-- `Node.prototype.getRootNode.call(n)`: the top of the parent chain (a
node absent from the tree is its own root). -/
def rootOfNode (w : World) (n : Nat) : Nat :=
  if (nidsOfT w).contains n then w.rootNat else n

/-- `getRoot.call(node) === document` (`isRoot` in `Document.js`). -/
def isRootP (w : World) (dn : Nat) (n : Nat) : Bool :=
  rootOfNode w n == dn

/-- `isRoot(document, node)` with value receivers. -/
def isRootV (w : World) (docV : Value) (v : Value) : Bool :=
  match docV, v with
  | .node dn, .node n => isRootP w dn n
  | _, _ => false

/-- `isFormOwnedImage(form, key, value)` (`HTMLFormElement.js`): a single
image-kind node whose `name` or `id` equals `key`, structurally contained
in this form (containment through the prototype `contains`, never a
possibly-overridden method). -/
def isFormOwnedImage (w : World) (formV : Value) (key : String) (value : Value) : Bool :=
  if value == .undef || value == .vnull then false
  else if !isHtmlImageV w value then false
  else if valGet w value "name" != .str key && valGet w value "id" != .str key then false
  else
    match formV, value with
    | .node f, .node i => containsN w f i
    | _, _ => false

/-- `isFormOwnedImageCollection`: a `RadioNodeList` every member of which
is a form-owned image for this key. -/
def isFormOwnedImageCollection (w : World) (formV : Value) (key : String)
    (nodeList : Value) : Bool :=
  if !isRadioNodeListV nodeList then false
  else (groupMembers w nodeList).all (fun i => isFormOwnedImage w formV key (.node i))

/-! ## The substitution engine

State (`St`) is the live tree plus a fresh-id source for placeholders and
an instrumentation trace recording, for specification purposes only, every
eviction, every restoration, and every invocation of a wrapped operation
(the `callback(...)` call sites of the source).  Exceptions are modelled by
`Except`: a JS `throw` propagates, keeping all mutations made so far. -/

abbrev Exn := String

abbrev Res := Except Exn Value

/-- `callback(container, property, thirdArg)`: one of the raw reflective
operations of `generic-operations.js`. -/
abbrev Cb := World → Value → String → Value → Res × World

/-- Trace events: eviction of a node (replaced by placeholder `ph`),
invocation of the wrapped operation, restoration of a node. -/
inductive Ev where
  | evict (nid : Nat) (ph : Nat)
  | invoke (recv : Value) (key : String)
  | restore (ph : Nat) (nid : Nat)
  deriving DecidableEq, Repr

structure St where
  world : World
  fresh : Nat
  trace : List Ev
  deriving Repr

/-- A sanitized method: state, receiver, property, third argument. -/
abbrev Method := St → Value → String → Value → Res × St

def stackOverflowMsg : Exn := "InternalError: too much recursion"

/-! ### The raw operations (`generic-operations.js`) -/

def getProperty : Cb := fun w obj key _ => (.ok (valGet w obj key), w)

def setProperty : Cb := fun w obj key v => (.ok .undef, setVal w obj key v)

def hasProperty : Cb := fun w obj key _ => (.ok (.bool (hasVal w obj key)), w)

def getOwnPropertyDescriptor : Cb :=
  fun w obj key _ => (.ok (ownDesc w obj key), w)

def defineProperty : Cb := fun w obj key v => (.ok obj, defineVal w obj key v)

def deleteProperty : Cb := fun w obj key _ => (.ok .undef, deleteVal w obj key)

/-! ### Eviction / restoration primitives -/

/-- `getPlaceholder()` then `replaceWith(evil, placeholder)`: snapshot the
evicted subtree, substitute a fresh placeholder at its exact structural
position. -/
def evictStep (st : St) (e : Nat) : St × Nat × Tree :=
  let ph := st.fresh
  let sub := (subtreeT st.world e).getD (.node e placeholderData [])
  ({ world := replaceT st.world e (.node ph placeholderData [])
     fresh := ph + 1
     trace := st.trace ++ [.evict e ph] }, ph, sub)

/-- `replaceWith(placeholder, evil)` then `freePlaceholder(placeholder)`. -/
def restoreStep (st : St) (ph : Nat) (e : Nat) (sub : Tree) : St :=
  { st with world := replaceT st.world ph sub
            trace := st.trace ++ [.restore ph e] }

/-- Sequential restoration of a list of (evicted node, placeholder,
snapshot) entries, in list order. -/
def restoreSeq : St → List (Nat × Nat × Tree) → St
  | st, [] => st
  | st, (e, ph, sub) :: rest => restoreSeq (restoreStep st ph e sub) rest

/-- `callback(recv, key, arg)` at a wrapper call site (traced). -/
def invokeCb (cb : Cb) (st : St) (recv : Value) (key : String) (arg : Value) :
    Res × St :=
  let (r, w1) := cb st.world recv key arg
  (r, { st with world := w1, trace := st.trace ++ [.invoke recv key] })

/-- `sanitizeSingle` (`common.js`): evict the one interfering node, re-enter
the sanitized method recursively, restore.  A throw from the method
propagates and skips the restoration, leaving the node evicted. -/
def sanitizeSingle (m : Method) (evil : Value) (st : St) (recv : Value)
    (key : String) (arg : Value) : Res × St :=
  match evil with
  | .node e =>
    let (st1, ph, sub) := evictStep st e
    match m st1 recv key arg with
    | (.error ex, st2) => (.error ex, st2)
    | (.ok v, st2) => (.ok v, restoreStep st2 ph e sub)
  | _ => (.error "TypeError: replaceWith target is not an element", st)

/-- The eviction loop of `sanitizeCollection`: `i` runs downward from the
initial live length; `live[i]` is re-read against the current tree at every
step.  Returns the entries in push order (highest index first). -/
def sanCollEvict (live : Value) : Nat → St →
    Except Exn (List (Nat × Nat × Tree)) × St
  | 0, st => (.ok [], st)
  | i + 1, st =>
    match collIndexV st.world live i with
    | .node e =>
      let (st1, ph, sub) := evictStep st e
      match sanCollEvict live i st1 with
      | (.ok rest, st2) => (.ok ((e, ph, sub) :: rest), st2)
      | (.error ex, st2) => (.error ex, st2)
    | _ => (.error "TypeError: replaceWith target is not an element", st)

/-- `sanitizeCollection` (`common.js`): evict every member of the live
group in reverse structural order, invoke the operation once, restore in
forward structural order (the push list walked from its end). -/
def sanitizeCollection (cb : Cb) (st : St) (recv : Value) (key : String)
    (arg : Value) : Res × St :=
  let evilInputsLive := valGet st.world recv key
  match sanCollEvict evilInputsLive (collLength st.world evilInputsLive) st with
  | (.error ex, st1) => (.error ex, st1)
  | (.ok entries, st1) =>
    match invokeCb cb st1 recv key arg with
    | (.error ex, st2) => (.error ex, st2)
    | (.ok v, st2) => (.ok v, restoreSeq st2 entries.reverse)

/-- The `while (formElements.length > requestedIndex)` eviction loop of
`sanitizeIndices`: re-reads the live length and the live item at
`requestedIndex` every iteration (removal shifts the remaining items
down).  Returns entries in push order. -/
def indicesLoop (formElements : Value) (requestedIndex : Nat) : Nat → St →
    Except Exn (List (Nat × Nat × Tree)) × St
  | 0, st => (.error stackOverflowMsg, st)
  | fuel + 1, st =>
    if collLength st.world formElements > requestedIndex then
      match collIndexV st.world formElements requestedIndex with
      | .node e =>
        let (st1, ph, sub) := evictStep st e
        match indicesLoop formElements requestedIndex fuel st1 with
        | (.ok rest, st2) => (.ok ((e, ph, sub) :: rest), st2)
        | (.error ex, st2) => (.error ex, st2)
      | _ => (.error "TypeError: replaceWith target is not an element", st)
    else (.ok [], st)

/-! ### The mutually recursive pipeline

Fuel models the JS call stack: exhaustion is the stack-overflow exception.
All recursive references decrement it. -/

mutual

/-- The method returned by `sanitizeFormMethod(callback)`
(`HTMLFormElement.js`): numeric properties delegate to `sanitizeIndices`,
everything else to the `makeMethodSanitizer(isOverridden)` method. -/
def formSanitizedMethod : Nat → Cb → St → Value → String → Value → Res × St
  | 0, _, st, _, _, _ => (.error stackOverflowMsg, st)
  | fuel + 1, cb, st, form, property, thirdArg =>
    if isDigits property then sanitizeIndices fuel cb st form property thirdArg
    else formSanitizedInner fuel cb st form property thirdArg

/-- The `sanitizedMethod` closure of `makeMethodSanitizer(isOverridden)`
instantiated with the form detector (`common.js` lines 69-83). -/
def formSanitizedInner : Nat → Cb → St → Value → String → Value → Res × St
  | 0, _, st, _, _, _ => (.error stackOverflowMsg, st)
  | fuel + 1, cb, st, form, property, thirdArg =>
    match formIsOverridden fuel st form property with
    | (.error ex, st1) => (.error ex, st1)
    | (.ok false, st1) => invokeCb cb st1 form property thirdArg
    | (.ok true, st1) =>
      let evilInput := valGet st1.world form property
      if isHtmlCollectionV evilInput || isRadioNodeListV evilInput then
        sanitizeCollection cb st1 form property thirdArg
      else
        sanitizeSingle (formSanitizedInner fuel cb) evilInput st1 form property
          thirdArg

/-- `isOverridden` (`HTMLFormElement.js`): the reserved `elements` gate,
then the controls-collection own-key gate with the `namedItem` / `item`
confirmation, then the form-owned image checks.  The collection itself is
fetched through the sanitized getter, so this is stateful (and can throw on
pathological self-referential shadows). -/
def formIsOverridden : Nat → St → Value → String → Except Exn Bool × St
  | 0, st, _, _ => (.error stackOverflowMsg, st)
  | fuel + 1, st, form, property =>
    if property = "elements" then
      (.ok (!isFormElementsCollectionV (valGet st.world form "elements")), st)
    else
      match formSanitizedMethod fuel getProperty st form "elements" .undef with
      | (.error ex, st1) => (.error ex, st1)
      | (.ok formElements, st1) =>
        match formElements with
        | .controlsCollection _ =>
          if !hasOwnPropertyV st1.world formElements property then
            let value := valGet st1.world form property
            if isFormOwnedImage st1.world form property value then (.ok true, st1)
            else if isFormOwnedImageCollection st1.world form property value then
              (.ok true, st1)
            else (.ok false, st1)
          else
            let propertyValue := valGet st1.world form property
            (.ok (propertyValue == namedItemV st1.world formElements property ||
                  propertyValue == itemMethodV st1.world formElements property),
             st1)
        | _ => (.error "TypeError: formElements is not a collection", st1)

/-- `sanitizeIndices` (`HTMLFormElement.js`): fetch the collection through
the sanitized getter, evict while the live length exceeds the requested
index, invoke the operation once, restore the pushed entries in forward
(push) order. -/
def sanitizeIndices : Nat → Cb → St → Value → String → Value → Res × St
  | 0, _, st, _, _, _ => (.error stackOverflowMsg, st)
  | fuel + 1, cb, st, form, property, thirdArg =>
    let requestedIndex := toNatKey property
    match formSanitizedMethod fuel getProperty st form "elements" .undef with
    | (.error ex, st1) => (.error ex, st1)
    | (.ok formElements, st1) =>
      match indicesLoop formElements requestedIndex (fuel + 1) st1 with
      | (.error ex, st2) => (.error ex, st2)
      | (.ok entries, st2) =>
        match invokeCb cb st2 form property thirdArg with
        | (.error ex, st3) => (.error ex, st3)
        | (.ok v, st3) => (.ok v, restoreSeq st3 entries)

/-- The method returned by `sanitizeDocMethod(callback)` (`Document.js`):
the iframe-window special case first, else the
`makeMethodSanitizer(isOverridden)` method for documents. -/
def docSanitizedMethod : Nat → Cb → St → Value → String → Value → Res × St
  | 0, _, st, _, _, _ => (.error stackOverflowMsg, st)
  | fuel + 1, cb, st, document, property, thirdArg =>
    match valGet st.world document property with
    | .window iframe =>
      match isNamedElementOverride fuel st document property (.node iframe) with
      | (.error ex, st1) => (.error ex, st1)
      | (.ok false, st1) => invokeCb cb st1 document property thirdArg
      | (.ok true, st1) =>
        sanitizeSingle (docSanitizedMethod fuel cb) (.node iframe) st1 document
          property thirdArg
    | _ => docSanitizedInner fuel cb st document property thirdArg

/-- The `sanitizedMethod` closure of `makeMethodSanitizer(isOverridden)`
instantiated with the document detector. -/
def docSanitizedInner : Nat → Cb → St → Value → String → Value → Res × St
  | 0, _, st, _, _, _ => (.error stackOverflowMsg, st)
  | fuel + 1, cb, st, document, property, thirdArg =>
    match docIsOverridden fuel st document property with
    | (.error ex, st1) => (.error ex, st1)
    | (.ok false, st1) => invokeCb cb st1 document property thirdArg
    | (.ok true, st1) =>
      let evilInput := valGet st1.world document property
      if isHtmlCollectionV evilInput || isRadioNodeListV evilInput then
        sanitizeCollection cb st1 document property thirdArg
      else
        sanitizeSingle (docSanitizedInner fuel cb) evilInput st1 document
          property thirdArg

/-- `isNamedElementOverride` (`Document.js`): the element's observable
`name` (read through the safe dispatcher) equals the key, and the element
is rooted at this document. -/
def isNamedElementOverride : Nat → St → Value → String → Value →
    Except Exn Bool × St
  | 0, st, _, _, _ => (.error stackOverflowMsg, st)
  | fuel + 1, st, document, property, value =>
    match safeGetProperty fuel st value "name" with
    | (.error ex, st1) => (.error ex, st1)
    | (.ok nm, st1) =>
      (.ok (nm == .str property && isRootV st1.world document value), st1)

/-- `isOverridden` (`Document.js`): gate on reflectively-own keys, then
branch on the observed value's kind (form / embed by name; object by name
or id; image by name, or by id when the name is non-empty; collection
always; iframe window via its frame element). -/
def docIsOverridden : Nat → St → Value → String → Except Exn Bool × St
  | 0, st, _, _ => (.error stackOverflowMsg, st)
  | fuel + 1, st, document, property =>
    if !hasOwnPropertyV st.world document property then (.ok false, st)
    else
      let value := valGet st.world document property
      if isHtmlFormV st.world value || kindOfV st.world value == some .embed then
        isNamedElementOverride fuel st document property value
      else if kindOfV st.world value == some .objectEl then
        match safeGetProperty fuel st value "name" with
        | (.error ex, st1) => (.error ex, st1)
        | (.ok nm, st1) =>
          if nm == .str property then (.ok (isRootV st1.world document value), st1)
          else
            match safeGetProperty fuel st1 value "id" with
            | (.error ex, st2) => (.error ex, st2)
            | (.ok idv, st2) =>
              (.ok (idv == .str property && isRootV st2.world document value), st2)
      else if kindOfV st.world value == some .image then
        if !isRootV st.world document value then (.ok false, st)
        else
          match safeGetProperty fuel st value "name" with
          | (.error ex, st1) => (.error ex, st1)
          | (.ok nm, st1) =>
            if nm == .str property then (.ok true, st1)
            else if !truthy nm then (.ok false, st1)
            else
              match safeGetProperty fuel st1 value "id" with
              | (.error ex, st2) => (.error ex, st2)
              | (.ok idv, st2) => (.ok (idv == .str property), st2)
      else if isHtmlCollectionV value then (.ok true, st)
      else
        match value with
        | .window frameEl =>
          isNamedElementOverride fuel st document property (.node frameEl)
        | _ => (.ok false, st)

/-- `getProperty` of `index.js`: dispatch on the receiver's kind to the
form facade, the document facade, or the raw operation. -/
def safeGetProperty : Nat → St → Value → String → Res × St
  | 0, st, _, _ => (.error stackOverflowMsg, st)
  | fuel + 1, st, obj, key =>
    if isHtmlFormV st.world obj then
      formSanitizedMethod fuel getProperty st obj key .undef
    else if isDocumentV st.world obj then
      docSanitizedMethod fuel getProperty st obj key .undef
    else (.ok (valGet st.world obj key), st)

end

/-! ### `ownKeys` facades and the dispatcher (`index.js`) -/

/-- `_getFormOwnKeysCallback(form) = Reflect.ownKeys(form)`. -/
def getFormOwnKeysCallback : Cb := fun w obj _ _ =>
  match obj with
  | .node f => (.ok (.strList (formOwnKeysFn w f)), w)
  | _ => (.error "TypeError: Reflect.ownKeys called on non-object", w)

/-- `getFormOwnKeys(form)`: run `sanitizeIndices` with requested index 0 to
remove all controls in one go, then enumerate own keys inside the eviction
window. -/
def getFormOwnKeys (fuel : Nat) (st : St) (form : Value) : Res × St :=
  sanitizeIndices fuel getFormOwnKeysCallback st form "0" Value.undef

/-- The `Reflect.ownKeys(doc).filter(name => !isOverridden(doc, name))`
fold, threading detection state (detection may itself recurse through the
dispatcher). -/
def docOwnKeysFilter : Nat → St → Value → List String →
    Except Exn (List String) × St
  | _, st, _, [] => (.ok [], st)
  | fuel, st, docV, k :: rest =>
    match docIsOverridden fuel st docV k with
    | (.error ex, st1) => (.error ex, st1)
    | (.ok ov, st1) =>
      match docOwnKeysFilter fuel st1 docV rest with
      | (.ok ks, st2) => (.ok (if ov then ks else k :: ks), st2)
      | (.error ex, st2) => (.error ex, st2)

/-- `getDocOwnKeys(doc)` (`Document.js`): enumerate the reflective own keys
and filter out every key the document detector judges shadowed. -/
def getDocOwnKeys (fuel : Nat) (st : St) (docV : Value) : Res × St :=
  match docV with
  | .node dn =>
    match docOwnKeysFilter fuel st docV (docOwnKeysFn st.world dn) with
    | (.ok ks, st1) => (.ok (.strList ks), st1)
    | (.error ex, st1) => (.error ex, st1)
  | _ => (.error "TypeError: Reflect.ownKeys called on non-object", st)

/-- `delegate(callback)` of `index.js` for the six keyed operations: route
to the form facade, the document facade, or the raw operation. -/
def delegateOp (fuel : Nat) (cb : Cb) (st : St) (obj : Value) (key : String)
    (arg : Value) : Res × St :=
  if isHtmlFormV st.world obj then formSanitizedMethod fuel cb st obj key arg
  else if isDocumentV st.world obj then docSanitizedMethod fuel cb st obj key arg
  else
    let (r, w1) := cb st.world obj key arg
    (r, { st with world := w1 })

/-- `delegate('getOwnKeys')`: the generic-operations module exports no
`getOwnKeys`, so the pass-through branch throws, faithfully to
`sanitizer[callback]` being `undefined` there. -/
def delegateOwnKeys (fuel : Nat) (st : St) (obj : Value) : Res × St :=
  if isHtmlFormV st.world obj then getFormOwnKeys fuel st obj
  else if isDocumentV st.world obj then getDocOwnKeys fuel st obj
  else (.error "TypeError: sanitizer[callback] is not a function", st)

/-- The facade's seven operations, as one inductive tag (the proxy traps of
`sanitizeNode`). -/
inductive OpTag where
  | read
  | write
  | has
  | getDesc
  | defineDesc
  | del
  | ownKeys
  deriving DecidableEq, Repr

/-- The raw callback of a keyed operation tag. -/
def opCb : OpTag → Cb
  | .read => getProperty
  | .write => setProperty
  | .has => hasProperty
  | .getDesc => getOwnPropertyDescriptor
  | .defineDesc => defineProperty
  | .del => deleteProperty
  | .ownKeys => getProperty

/-- One facade operation: the view produced by `sanitizeNode` routing every
trap through `delegate`. -/
def facadeOp (op : OpTag) (fuel : Nat) (st : St) (obj : Value) (key : String)
    (arg : Value) : Res × St :=
  match op with
  | .ownKeys => delegateOwnKeys fuel st obj
  | _ => delegateOp fuel (opCb op) st obj key arg

/-- A placeholder tree (one inert node, no children). -/
def leafP (p : Nat) : Tree := .node p placeholderData []

mutual

/-- Real HTML form controls (`input`, …) and images are void elements:
they have no children.  General well-formedness of a modelled host tree. -/
def flatKindsT : Tree → Bool
  | .node _ d cs =>
    (!(d.kind == .control || d.kind == .image) || cs.isEmpty) && flatKindsF cs

def flatKindsF : List Tree → Bool
  | [] => true
  | t :: ts => flatKindsT t && flatKindsF ts

end

/-- Well-formed engine state: distinct node ids, the fresh-id source above
every id in the tree, controls and images childless. -/
def WfSt (st : St) : Prop :=
  (nidsOfT st.world).Nodup ∧ (∀ n ∈ nidsOfT st.world, n < st.fresh) ∧
    flatKindsT st.world = true

/-- A raw operation whose tree effect is invisible at level `g` (for
`g = id`: pure reads; for `g = stripT`: mutates only property tables). -/
def CbWorld (g : World → World) (cb : Cb) : Prop :=
  ∀ w obj key arg, g (cb w obj key arg).2 = g w

/-- A raw operation that never throws. -/
def CbOk (cb : Cb) : Prop :=
  ∀ w obj key arg, ∃ v, (cb w obj key arg).1 = .ok v

/-- The protocol an abstraction `g` of tree states must satisfy for the
frame argument: restoring a fresh placeholder undoes an eviction up to `g`,
and `g` determines node ids and flatness. -/
def GProto (g : World → World) : Prop :=
  (∀ (t t2 : World) (e p : Nat), (nidsOfT t).Nodup → p ∉ nidsOfT t →
    g t2 = g (replaceT t e (leafP p)) →
    g (replaceT t2 p ((subtreeT t e).getD (.node e placeholderData []))) = g t) ∧
  (∀ t t', g t = g t' → nidsOfT t' = nidsOfT t) ∧
  (∀ t t', g t = g t' → flatKindsT t' = flatKindsT t)

/-- Frame property of a sanitized method at abstraction `g`: a normal
return leaves the tree unchanged up to `g`, preserves well-formedness, and
only grows the fresh-id source. -/
def MFrame (g : World → World) (m : Method) : Prop :=
  ∀ st recv key arg v st', WfSt st → m st recv key arg = (.ok v, st') →
    g st'.world = g st.world ∧ WfSt st' ∧ st.fresh ≤ st'.fresh

/-! ### Trace vocabulary -/

/-- Node ids evicted in a trace, in order. -/
def evictedNats (tr : List Ev) : List Nat :=
  tr.filterMap (fun ev => match ev with | .evict n _ => some n | _ => none)

/-- Node ids restored in a trace, in order. -/
def restoredNats (tr : List Ev) : List Nat :=
  tr.filterMap (fun ev => match ev with | .restore _ n => some n | _ => none)

/-- Eviction events of an entry list, in list order. -/
def evictEvsOf (entries : List (Nat × Nat × Tree)) : List Ev :=
  entries.map (fun x => .evict x.1 x.2.1)

/-- Restoration events of an entry list, in list order. -/
def restoreEvsOf (entries : List (Nat × Nat × Tree)) : List Ev :=
  entries.map (fun x => .restore x.2.1 x.1)

/-- Number of invocations of the wrapped operation on `(recv, key)`. -/
def invokesOf (tr : List Ev) (recv : Value) (key : String) : Nat :=
  (tr.filter (fun ev => ev == .invoke recv key)).length

/-- Evictions recorded in a trace, as (node, placeholder) pairs. -/
def trEvicts (tr : List Ev) : List (Nat × Nat) :=
  tr.filterMap (fun ev => match ev with | .evict n p => some (n, p) | _ => none)

/-! ### Claim predicates (the claims as stated, evaluated on one run) -/

/-- Claim C1's description of one `read(form, key)` run with a numeric
`key`: evicts exactly the controls at indices `0 .. k` in ascending index
order, invokes the wrapped operation exactly once, and restores the evicted
controls in the reverse of their eviction order. -/
def C1claimAt (st : St) (fuel : Nat) (f : Nat) (key : String) : Prop :=
  let els := elementsOf st.world f
  let k := toNatKey key
  let run := delegateOp fuel getProperty st (.node f) key .undef
  evictedNats run.2.trace = els.take (k + 1) ∧
  restoredNats run.2.trace = (els.take (k + 1)).reverse ∧
  invokesOf run.2.trace (.node f) key = 1

/-- Claim C7's "computed directly by filtering without any eviction or tree
mutation" on one `ownKeys(document)` run: the run records no eviction. -/
def C7claimAt (st : St) (fuel : Nat) (dn : Nat) : Prop :=
  trEvicts (delegateOwnKeys fuel st (.node dn)).2.trace = []

/-! ### Concrete scenario worlds (witnesses and counterexamples) -/

def mkND (k : Kind) (nm idv fa : String) (flds exps : List (String × Value)) :
    NodeData :=
  { kind := k, nameAttr := nm, idAttr := idv, formAttr := fa
    fields := flds, expandos := exps }

/-- Engine state on a world, placeholder ids from 100. -/
def initSt (w : World) : St := { world := w, fresh := 100, trace := [] }

/-- A form with `class="hello"` and one control named `className`
(the repository's first test). -/
def wCls : World :=
  .node 0 (mkND .doc "" "" "" [] [])
    [.node 1 (mkND .form "location" "" "" [("className", .str "hello")] [])
      [.node 2 (mkND .control "className" "" "" [] []) []]]

/-- A form with two controls sharing the name `className`. -/
def wGrp : World :=
  .node 0 (mkND .doc "" "" "" [] [])
    [.node 1 (mkND .form "location" "" "" [("className", .str "hello")] [])
      [.node 2 (mkND .control "className" "" "" [] []) [],
       .node 3 (mkND .control "className" "" "" [] []) []]]

/-- A form with three controls (indices 0, 1, 2). -/
def wIdx : World :=
  .node 0 (mkND .doc "" "" "" [] [])
    [.node 1 (mkND .form "" "" "" [] [])
      [.node 2 (mkND .control "a" "" "" [] []) [],
       .node 3 (mkND .control "b" "" "" [] []) [],
       .node 4 (mkND .control "c" "" "" [] []) []]]

/-- A form holding both a control and an image named `foo`, and a built-in
`foo` field. -/
def wImg : World :=
  .node 0 (mkND .doc "" "" "" [] [])
    [.node 1 (mkND .form "" "" "" [("foo", .str "bar")] [])
      [.node 2 (mkND .control "foo" "" "" [] []) [],
       .node 3 (mkND .image "foo" "" "" [] []) []]]

/-- A document holding a form named `f` that contains a control named
`name` (document detection must transiently evict the control to read the
form's real name). -/
def wDocF : World :=
  .node 0 (mkND .doc "" "" "" [] [])
    [.node 1 (mkND .form "f" "" "" [] [])
      [.node 2 (mkND .control "name" "" "" [] []) []]]

/-- A document holding an image named `pic`. -/
def wDocImg : World :=
  .node 0 (mkND .doc "" "" "" [] [])
    [.node 1 (mkND .image "pic" "pid" "" [] []) []]

/-- A raw operation that always throws. -/
def throwCb : Cb := fun w _ _ _ => (.error "boom", w)

/-- Pure restoration fold over an entry list (the world component of
`restoreSeq`). -/
def restoreFold (w : World) : List (Nat × Nat × Tree) → World
  | [] => w
  | (_, ph, sub) :: rest => restoreFold (replaceT w ph sub) rest

/-- Pure eviction fold: replace each listed node by its placeholder. -/
def evictList (w : World) : List (Nat × Nat × Tree) → World
  | [] => w
  | (e, ph, _) :: rest => evictList (replaceT w e (leafP ph)) rest

/-- The shape of the eviction sequences produced by the engine's loops:
each entry records one `evictStep` from the then-current state. -/
inductive EvChain : St → List (Nat × Nat × Tree) → St → Prop where
  | nil (st : St) : EvChain st [] st
  | cons (st : St) (e : Nat) (rest : List (Nat × Nat × Tree)) (stEnd : St)
      (h : EvChain (evictStep st e).1 rest stEnd) :
      EvChain st ((e, (evictStep st e).2.1, (evictStep st e).2.2) :: rest) stEnd

/-- The frame relation between the state at a wrapper's entry and at its
normal return: the structural tree (and its `g`-abstraction) is unchanged,
well-formedness holds, and the fresh-id source only grew. -/
def Frames (g : World → World) (st st' : St) : Prop :=
  stripT st'.world = stripT st.world ∧ g st'.world = g st.world ∧
    WfSt st' ∧ st.fresh ≤ st'.fresh

/-- All control- and image-kinded nodes of a world lie below a bound (they
are real page elements, never placeholders). -/
def ctlImgBound (fresh0 : Nat) (w : World) : Prop :=
  ∀ m d, findDataT w m = some d →
    (d.kind = .control ∨ d.kind = .image) → m < fresh0

/-- Invariant of the `sanitizeIndices` loop over a live document named
collection: below any match at list index at least `k` (the only matches
the loop may still evict), every structural snapshot mentions only ids
below `fresh0` — no placeholder.  Ancestors precede descendants in the
pre-order match list, so the loop, which always evicts at index `k` and
never disturbs the first `k` matches, maintains this. -/
def PhClean (fresh0 dn : Nat) (key : String) (k : Nat) (w : World) : Prop :=
  ∀ j y, k ≤ j → (docNamedMatches w dn key)[j]? = some y →
    ∀ suby, subtreeT w y = some suby → ∀ q ∈ nidsOfT suby, q < fresh0

@[simp] theorem nidsOfT_node (n : Nat) (d : NodeData) (cs : List Tree) :
    nidsOfT (.node n d cs) = n :: nidsOfF cs := rfl

@[simp] theorem nidsOfF_nil : nidsOfF [] = [] := rfl

@[simp] theorem nidsOfF_cons (t : Tree) (ts : List Tree) :
    nidsOfF (t :: ts) = nidsOfT t ++ nidsOfF ts := rfl

@[simp] theorem stripT_node (n : Nat) (d : NodeData) (cs : List Tree) :
    stripT (.node n d cs) = .node n (scrubData d) (stripF cs) := rfl

@[simp] theorem stripF_nil : stripF [] = [] := rfl

@[simp] theorem stripF_cons (t : Tree) (ts : List Tree) :
    stripF (t :: ts) = stripT t :: stripF ts := rfl

@[simp] theorem replaceT_node (n : Nat) (d : NodeData) (cs : List Tree)
    (target : Nat) (r : Tree) :
    replaceT (.node n d cs) target r = .node n d (replaceF cs target r) := rfl

@[simp] theorem replaceF_nil (target : Nat) (r : Tree) :
    replaceF [] target r = [] := rfl

theorem replaceF_cons (n : Nat) (d : NodeData) (cs : List Tree)
    (ts : List Tree) (target : Nat) (r : Tree) :
    replaceF (.node n d cs :: ts) target r =
      if n = target then r :: replaceF ts target r
      else .node n d (replaceF cs target r) :: replaceF ts target r := rfl

@[simp] theorem subtreeT_node (n : Nat) (d : NodeData) (cs : List Tree)
    (target : Nat) :
    subtreeT (.node n d cs) target =
      if n = target then some (.node n d cs) else subtreeF cs target := rfl

@[simp] theorem subtreeF_nil (target : Nat) : subtreeF [] target = none := rfl

theorem subtreeF_cons (t : Tree) (ts : List Tree) (target : Nat) :
    subtreeF (t :: ts) target =
      match subtreeT t target with
      | some s => some s
      | none => subtreeF ts target := rfl

mutual

theorem nids_stripT (t : Tree) : nidsOfT (stripT t) = nidsOfT t := by
  cases t with
  | node n d cs => simp [nids_stripF cs]

theorem nids_stripF (l : List Tree) : nidsOfF (stripF l) = nidsOfF l := by
  cases l with
  | nil => rfl
  | cons t ts => simp [nids_stripT t, nids_stripF ts]

end

mutual

theorem replaceT_not_mem (t : Tree) (target : Nat) (r : Tree)
    (h : target ∉ nidsOfT t) : replaceT t target r = t := by
  cases t with
  | node n d cs =>
    simp only [nidsOfT_node, List.mem_cons, not_or] at h
    simp [replaceF_not_mem cs target r h.2]

theorem replaceF_not_mem (l : List Tree) (target : Nat) (r : Tree)
    (h : target ∉ nidsOfF l) : replaceF l target r = l := by
  cases l with
  | nil => rfl
  | cons t ts =>
    cases t with
    | node n d cs =>
      simp only [nidsOfF_cons, nidsOfT_node, List.mem_append, List.mem_cons,
        not_or] at h
      rw [replaceF_cons, if_neg (fun hc => h.1.1 hc.symm),
        replaceF_not_mem cs target r h.1.2, replaceF_not_mem ts target r h.2]

end

@[simp] theorem rootNat_node (n : Nat) (d : NodeData) (cs : List Tree) :
    Tree.rootNat (.node n d cs) = n := rfl

theorem rootNat_mem (t : Tree) : t.rootNat ∈ nidsOfT t := by
  cases t with
  | node n d cs => simp

theorem replaceF_cons' (t : Tree) (ts : List Tree) (target : Nat) (r : Tree) :
    replaceF (t :: ts) target r =
      (if t.rootNat = target then r else replaceT t target r) ::
        replaceF ts target r := by
  cases t with
  | node n d cs =>
    rw [replaceF_cons]
    by_cases h : n = target <;> simp [h]

theorem subtreeF_cons' (t : Tree) (ts : List Tree) (target : Nat) :
    subtreeF (t :: ts) target =
      (subtreeT t target).or (subtreeF ts target) := by
  rw [subtreeF_cons]
  cases subtreeT t target <;> simp [Option.or]

mutual

theorem subtreeT_eq_none (t : Tree) (target : Nat)
    (h : target ∉ nidsOfT t) : subtreeT t target = none := by
  cases t with
  | node n d cs =>
    simp only [nidsOfT_node, List.mem_cons, not_or] at h
    rw [subtreeT_node, if_neg (fun hc => h.1 hc.symm),
      subtreeF_eq_none cs target h.2]

theorem subtreeF_eq_none (l : List Tree) (target : Nat)
    (h : target ∉ nidsOfF l) : subtreeF l target = none := by
  cases l with
  | nil => rfl
  | cons t ts =>
    simp only [nidsOfF_cons, List.mem_append, not_or] at h
    rw [subtreeF_cons', subtreeT_eq_none t target h.1,
      subtreeF_eq_none ts target h.2]
    rfl

end

mutual

theorem subtreeT_facts (t : Tree) (target : Nat) (sub : Tree)
    (h : subtreeT t target = some sub) :
    sub.rootNat = target ∧ target ∈ nidsOfT t ∧
      ∀ x, x ∈ nidsOfT sub → x ∈ nidsOfT t := by
  cases t with
  | node n d cs =>
    rw [subtreeT_node] at h
    by_cases hn : n = target
    · rw [if_pos hn] at h
      cases h
      exact ⟨hn ▸ rfl, by simp [hn], fun x hx => hx⟩
    · rw [if_neg hn] at h
      obtain ⟨h1, h2, h3⟩ := subtreeF_facts cs target sub h
      exact ⟨h1, by simp [h2], fun x hx => by simp [h3 x hx]⟩

theorem subtreeF_facts (l : List Tree) (target : Nat) (sub : Tree)
    (h : subtreeF l target = some sub) :
    sub.rootNat = target ∧ target ∈ nidsOfF l ∧
      ∀ x, x ∈ nidsOfT sub → x ∈ nidsOfF l := by
  cases l with
  | nil => exact absurd h (by simp)
  | cons t ts =>
    rw [subtreeF_cons] at h
    cases hh : subtreeT t target with
    | some s =>
      rw [hh] at h
      cases h
      obtain ⟨h1, h2, h3⟩ := subtreeT_facts t target sub hh
      exact ⟨h1, by simp [h2], fun x hx => by simp [h3 x hx]⟩
    | none =>
      rw [hh] at h
      obtain ⟨h1, h2, h3⟩ := subtreeF_facts ts target sub h
      exact ⟨h1, by simp [h2], fun x hx => by simp [h3 x hx]⟩

end

mutual

theorem subtreeT_isSome (t : Tree) (target : Nat) (h : target ∈ nidsOfT t) :
    (subtreeT t target).isSome := by
  cases t with
  | node n d cs =>
    rw [subtreeT_node]
    by_cases hn : n = target
    · simp [hn]
    · rw [if_neg hn]
      simp only [nidsOfT_node, List.mem_cons] at h
      exact subtreeF_isSome cs target
        (h.resolve_left (fun hc => hn hc.symm))

theorem subtreeF_isSome (l : List Tree) (target : Nat)
    (h : target ∈ nidsOfF l) : (subtreeF l target).isSome := by
  cases l with
  | nil => simp at h
  | cons t ts =>
    rw [subtreeF_cons']
    simp only [nidsOfF_cons, List.mem_append] at h
    cases h with
    | inl h1 =>
      have := subtreeT_isSome t target h1
      cases hs : subtreeT t target with
      | some s => simp [Option.or]
      | none => rw [hs] at this; cases this
    | inr h2 =>
      cases hs : subtreeT t target with
      | some s => simp [Option.or]
      | none => simpa [Option.or, hs] using subtreeF_isSome ts target h2

end

theorem subtreeT_mem_of_none {t : Tree} {target : Nat}
    (h : subtreeT t target = none) : target ∉ nidsOfT t := by
  intro hmem
  have := subtreeT_isSome t target hmem
  rw [h] at this
  cases this

/-! ### Strip commutation -/

@[simp] theorem rootNat_stripT (t : Tree) :
    (stripT t).rootNat = t.rootNat := by
  cases t with
  | node n d cs => rfl

mutual

theorem strip_replaceT (t : Tree) (target : Nat) (r : Tree) :
    stripT (replaceT t target r) = replaceT (stripT t) target (stripT r) := by
  cases t with
  | node n d cs => simp [strip_replaceF cs target r]

theorem strip_replaceF (l : List Tree) (target : Nat) (r : Tree) :
    stripF (replaceF l target r) = replaceF (stripF l) target (stripT r) := by
  cases l with
  | nil => rfl
  | cons t ts =>
    cases t with
    | node n d cs =>
      rw [replaceF_cons]
      by_cases hn : n = target
      · simp [hn, replaceF_cons, strip_replaceF ts target r]
      · simp [replaceF_cons, hn, strip_replaceF cs target r,
          strip_replaceF ts target r]

end

mutual

theorem subtree_stripT (t : Tree) (target : Nat) :
    subtreeT (stripT t) target = (subtreeT t target).map stripT := by
  cases t with
  | node n d cs =>
    by_cases hn : n = target
    · simp [hn]
    · simp [hn, subtree_stripF cs target]

theorem subtree_stripF (l : List Tree) (target : Nat) :
    subtreeF (stripF l) target = (subtreeF l target).map stripT := by
  cases l with
  | nil => rfl
  | cons t ts =>
    rw [stripF_cons, subtreeF_cons', subtreeF_cons', subtree_stripT t target,
      subtree_stripF ts target]
    cases subtreeT t target <;> simp [Option.or]

end

mutual

theorem flat_stripT (t : Tree) : flatKindsT (stripT t) = flatKindsT t := by
  cases t with
  | node n d cs =>
    simp [flatKindsT, scrubData, flat_stripF cs]
    cases cs <;> simp [stripF, flatKindsF]

theorem flat_stripF (l : List Tree) : flatKindsF (stripF l) = flatKindsF l := by
  cases l with
  | nil => rfl
  | cons t ts => simp [flatKindsF, flat_stripT t, flat_stripF ts]

end

mutual

theorem nids_mapDataT (t : Tree) (x : Nat) (g : NodeData → NodeData) :
    nidsOfT (mapDataT t x g) = nidsOfT t := by
  cases t with
  | node n d cs => simp [mapDataT, nids_mapDataF cs x g]

theorem nids_mapDataF (l : List Tree) (x : Nat) (g : NodeData → NodeData) :
    nidsOfF (mapDataF l x g) = nidsOfF l := by
  cases l with
  | nil => rfl
  | cons t ts => simp [mapDataF, nids_mapDataT t x g, nids_mapDataF ts x g]

end

mutual

theorem strip_mapDataT (t : Tree) (x : Nat) (g : NodeData → NodeData)
    (hg : ∀ d, scrubData (g d) = scrubData d) :
    stripT (mapDataT t x g) = stripT t := by
  cases t with
  | node n d cs =>
    simp [mapDataT, strip_mapDataF cs x g hg]
    by_cases hn : n = x <;> simp [hn, hg]

theorem strip_mapDataF (l : List Tree) (x : Nat) (g : NodeData → NodeData)
    (hg : ∀ d, scrubData (g d) = scrubData d) :
    stripF (mapDataF l x g) = stripF l := by
  cases l with
  | nil => rfl
  | cons t ts =>
    simp [mapDataF, strip_mapDataT t x g hg, strip_mapDataF ts x g hg]

end

mutual

theorem findData_mapDataT_ne (t : Tree) (x : Nat) (g : NodeData → NodeData)
    (y : Nat) (hxy : y ≠ x) :
    findDataT (mapDataT t x g) y = findDataT t y := by
  cases t with
  | node n d cs =>
    simp only [mapDataT, findDataT]
    by_cases hn : n = y
    · rw [if_pos hn, if_pos hn, if_neg (hn ▸ hxy)]
    · simp [hn, findData_mapDataF_ne cs x g y hxy]

theorem findData_mapDataF_ne (l : List Tree) (x : Nat)
    (g : NodeData → NodeData) (y : Nat) (hxy : y ≠ x) :
    findDataF (mapDataF l x g) y = findDataF l y := by
  cases l with
  | nil => rfl
  | cons t ts =>
    simp only [mapDataF, findDataF, findData_mapDataT_ne t x g y hxy,
      findData_mapDataF_ne ts x g y hxy]

end

mutual

theorem findData_mapDataT_eq (t : Tree) (x : Nat) (g : NodeData → NodeData) :
    findDataT (mapDataT t x g) x = (findDataT t x).map g := by
  cases t with
  | node n d cs =>
    simp only [mapDataT, findDataT]
    by_cases hn : n = x
    · simp [hn]
    · simp [hn, findData_mapDataF_eq cs x g]

theorem findData_mapDataF_eq (l : List Tree) (x : Nat)
    (g : NodeData → NodeData) :
    findDataF (mapDataF l x g) x = (findDataF l x).map g := by
  cases l with
  | nil => rfl
  | cons t ts =>
    simp only [mapDataF, findDataF, findData_mapDataT_eq t x g]
    cases findDataT t x with
    | some d => simp
    | none => simp [findData_mapDataF_eq ts x g]

end

/-! ### Eviction and restoration undo each other -/

mutual

/-- Replacing the subtree at `a` by a fresh placeholder leaf and then
replacing the placeholder back by the snapshot recovers the original
tree. -/
theorem replace_restoreT (t : Tree) (a p : Nat) (sub : Tree)
    (hnd : (nidsOfT t).Nodup) (hp : p ∉ nidsOfT t)
    (hsub : subtreeT t a = some sub) :
    replaceT (replaceT t a (leafP p)) p sub = t := by
  cases t with
  | node n d cs =>
    simp only [nidsOfT_node, List.nodup_cons] at hnd
    simp only [nidsOfT_node, List.mem_cons, not_or] at hp
    rw [subtreeT_node] at hsub
    by_cases hn : n = a
    · -- the root id is `a`: the root is never replaced, and by uniqueness
      -- `a` occurs nowhere below, so both replacements are no-ops
      rw [if_pos hn] at hsub
      rw [replaceT_node, replaceF_not_mem cs a (leafP p) (hn ▸ hnd.1),
        replaceT_node, replaceF_not_mem cs p sub hp.2]
    · rw [if_neg hn] at hsub
      rw [replaceT_node, replaceT_node,
        replace_restoreF cs a p sub hnd.2 hp.2 hsub]

theorem replace_restoreF (l : List Tree) (a p : Nat) (sub : Tree)
    (hnd : (nidsOfF l).Nodup) (hp : p ∉ nidsOfF l)
    (hsub : subtreeF l a = some sub) :
    replaceF (replaceF l a (leafP p)) p sub = l := by
  cases l with
  | nil => cases hsub
  | cons t ts =>
    simp only [nidsOfF_cons, List.nodup_append] at hnd
    simp only [nidsOfF_cons, List.mem_append, not_or] at hp
    rw [subtreeF_cons] at hsub
    cases hh : subtreeT t a with
    | some s =>
      rw [hh] at hsub
      cases hsub
      obtain ⟨hroot, hmem, hsubset⟩ := subtreeT_facts t a sub hh
      have hats : a ∉ nidsOfF ts := fun hc => hnd.2.2 hmem hc
      by_cases hra : t.rootNat = a
      · -- the evicted node is the head tree itself
        have hteq : t = sub := by
          cases t with
          | node n d cs =>
            rw [subtreeT_node] at hh
            rw [if_pos (by simpa using hra)] at hh
            exact Option.some_inj.mp hh
        rw [replaceF_cons', if_pos hra, replaceF_not_mem ts a (leafP p) hats,
          replaceF_cons', if_pos (by simp [leafP]),
          replaceF_not_mem ts p sub hp.2, hteq]
      · -- the evicted node is inside the head tree
        rw [replaceF_cons', if_neg hra, replaceF_not_mem ts a (leafP p) hats,
          replaceF_cons']
        have hproot : (replaceT t a (leafP p)).rootNat ≠ p := by
          cases t with
          | node n d cs =>
            simp only [replaceT_node, rootNat_node]
            exact fun hc => hp.1 (by simp [hc])
        rw [if_neg hproot, replaceF_not_mem ts p sub hp.2]
        cases t with
        | node n d cs =>
          simp only [nidsOfT_node, List.nodup_cons] at hnd
          simp only [nidsOfT_node, List.mem_cons, not_or] at hp
          rw [subtreeT_node, if_neg (by simpa using hra)] at hh
          rw [replaceT_node, replaceT_node,
            replace_restoreF cs a p sub hnd.1.2 hp.1.2 hh]
    | none =>
      rw [hh] at hsub
      have hat : a ∉ nidsOfT t := subtreeT_mem_of_none hh
      rw [replaceF_cons',
        if_neg (fun hc : t.rootNat = a => hat (hc ▸ rootNat_mem t)),
        replaceT_not_mem t a (leafP p) hat, replaceF_cons',
        if_neg (fun hc : t.rootNat = p => hp.1 (hc ▸ rootNat_mem t)),
        replaceT_not_mem t p sub hp.1,
        replace_restoreF ts a p sub hnd.2.1 hp.2 hsub]

end

/-! ### Disjoint replacements commute -/

mutual

theorem replace_commT (t : Tree) (a b : Nat) (ra rb : Tree) (hab : a ≠ b)
    (hbra : b ∉ nidsOfT ra) (harb : a ∉ nidsOfT rb) :
    replaceT (replaceT t a ra) b rb = replaceT (replaceT t b rb) a ra := by
  cases t with
  | node n d cs =>
    simp only [replaceT_node]
    rw [replace_commF cs a b ra rb hab hbra harb]

theorem replace_commF (l : List Tree) (a b : Nat) (ra rb : Tree) (hab : a ≠ b)
    (hbra : b ∉ nidsOfT ra) (harb : a ∉ nidsOfT rb) :
    replaceF (replaceF l a ra) b rb = replaceF (replaceF l b rb) a ra := by
  cases l with
  | nil => rfl
  | cons t ts =>
    rw [replaceF_cons', replaceF_cons', replaceF_cons', replaceF_cons',
      replace_commF ts a b ra rb hab hbra harb]
    congr 1
    have hroot_a : (replaceT t a ra).rootNat = t.rootNat := by
      cases t with
      | node n d cs => rfl
    have hroot_b : (replaceT t b rb).rootNat = t.rootNat := by
      cases t with
      | node n d cs => rfl
    by_cases hra : t.rootNat = a
    · have hnb : t.rootNat ≠ b := fun hc => hab (hra.symm.trans hc)
      have hrab : ra.rootNat ≠ b := fun hc => hbra (hc ▸ rootNat_mem ra)
      rw [if_pos hra, if_neg hnb, if_neg hrab,
        replaceT_not_mem ra b rb hbra, hroot_b, if_pos hra]
    · by_cases hrb : t.rootNat = b
      · have hrba : rb.rootNat ≠ a := fun hc => harb (hc ▸ rootNat_mem rb)
        rw [if_neg hra, if_pos hrb, hroot_a, if_pos hrb, if_neg hrba,
          replaceT_not_mem rb a ra harb]
      · rw [if_neg hra, if_neg hrb, hroot_a, hroot_b, if_neg hrb, if_neg hra,
          replace_commT t a b ra rb hab hbra harb]

end

/-! ### Data lookup under structural replacement -/

mutual

theorem findData_none_of_not_memT (t : Tree) (x : Nat)
    (h : x ∉ nidsOfT t) : findDataT t x = none := by
  cases t with
  | node n d cs =>
    simp only [nidsOfT_node, List.mem_cons, not_or] at h
    simp only [findDataT, if_neg (fun hc : n = x => h.1 hc.symm)]
    exact findData_none_of_not_memF cs x h.2

theorem findData_none_of_not_memF (l : List Tree) (x : Nat)
    (h : x ∉ nidsOfF l) : findDataF l x = none := by
  cases l with
  | nil => rfl
  | cons t ts =>
    simp only [nidsOfF_cons, List.mem_append, not_or] at h
    simp only [findDataF, findData_none_of_not_memT t x h.1]
    exact findData_none_of_not_memF ts x h.2

end

mutual

/-- A node outside the replaced subtree and outside the replacement keeps
its data. -/
theorem findData_replaceT (t : Tree) (a : Nat) (r sub : Tree) (x : Nat)
    (hnd : (nidsOfT t).Nodup) (hsub : subtreeT t a = some sub)
    (hx1 : x ∉ nidsOfT sub) (hx2 : x ∉ nidsOfT r) :
    findDataT (replaceT t a r) x = findDataT t x := by
  cases t with
  | node n d cs =>
    simp only [nidsOfT_node, List.nodup_cons] at hnd
    rw [subtreeT_node] at hsub
    by_cases hn : n = a
    · rw [replaceT_node, replaceF_not_mem cs a r (hn ▸ hnd.1)]
    · rw [if_neg hn] at hsub
      rw [replaceT_node]
      simp only [findDataT]
      by_cases hx : n = x
      · simp [hx]
      · simp only [if_neg hx]
        exact findData_replaceF cs a r sub x hnd.2 hsub hx1 hx2

theorem findData_replaceF (l : List Tree) (a : Nat) (r sub : Tree) (x : Nat)
    (hnd : (nidsOfF l).Nodup) (hsub : subtreeF l a = some sub)
    (hx1 : x ∉ nidsOfT sub) (hx2 : x ∉ nidsOfT r) :
    findDataF (replaceF l a r) x = findDataF l x := by
  cases l with
  | nil => cases hsub
  | cons t ts =>
    simp only [nidsOfF_cons, List.nodup_append] at hnd
    rw [subtreeF_cons] at hsub
    cases hh : subtreeT t a with
    | some s =>
      rw [hh] at hsub
      cases hsub
      obtain ⟨hroot, hmem, hsubset⟩ := subtreeT_facts t a sub hh
      have hats : a ∉ nidsOfF ts := fun hc => hnd.2.2 hmem hc
      by_cases hra : t.rootNat = a
      · have hteq : t = sub := by
          cases t with
          | node n d cs =>
            rw [subtreeT_node, if_pos (by simpa using hra)] at hh
            exact Option.some_inj.mp hh
        rw [replaceF_cons', if_pos hra, replaceF_not_mem ts a r hats]
        simp only [findDataF, findData_none_of_not_memT r x hx2,
          findData_none_of_not_memT t x (hteq ▸ hx1)]
      · rw [replaceF_cons', if_neg hra, replaceF_not_mem ts a r hats]
        simp only [findDataF,
          findData_replaceT t a r sub x hnd.1 hh hx1 hx2]
    | none =>
      rw [hh] at hsub
      have hat : a ∉ nidsOfT t := subtreeT_mem_of_none hh
      rw [replaceF_cons',
        if_neg (fun hc : t.rootNat = a => hat (hc ▸ rootNat_mem t)),
        replaceT_not_mem t a r hat]
      simp only [findDataF]
      cases findDataT t x with
      | some d => rfl
      | none =>
        exact findData_replaceF ts a r sub x hnd.2.1 hsub hx1 hx2

end

/-! ### The walk segment lemma -/

@[simp] theorem gwalkT_node {E α : Type} (upd : E → Nat → NodeData → E)
    (emit : E → Nat → NodeData → List α) (e : E) (n : Nat) (d : NodeData)
    (cs : List Tree) :
    gwalkT upd emit e (.node n d cs) =
      emit e n d ++ gwalkF upd emit (upd e n d) cs := rfl

@[simp] theorem gwalkF_nil {E α : Type} (upd : E → Nat → NodeData → E)
    (emit : E → Nat → NodeData → List α) (e : E) :
    gwalkF upd emit e [] = [] := rfl

@[simp] theorem gwalkF_cons {E α : Type} (upd : E → Nat → NodeData → E)
    (emit : E → Nat → NodeData → List α) (e : E) (t : Tree) (ts : List Tree) :
    gwalkF upd emit e (t :: ts) =
      gwalkT upd emit e t ++ gwalkF upd emit e ts := rfl

mutual

/-- Master segment lemma: a walk splits around any present subtree, and
replacing that subtree replaces exactly its segment of the walk (the
environment at the hole and the surrounding segments do not depend on the
replacement). -/
theorem gwalk_segT {E α : Type} (upd : E → Nat → NodeData → E)
    (emit : E → Nat → NodeData → List α) (t : Tree) (e : E) (a : Nat)
    (sub : Tree) (hnd : (nidsOfT t).Nodup) (hsub : subtreeT t a = some sub)
    (hroot : t.rootNat ≠ a) :
    ∃ pre post eA,
      gwalkT upd emit e t = pre ++ gwalkT upd emit eA sub ++ post ∧
      ∀ r : Tree, gwalkT upd emit e (replaceT t a r) =
        pre ++ gwalkT upd emit eA r ++ post := by
  cases t with
  | node n d cs =>
    simp only [nidsOfT_node, List.nodup_cons] at hnd
    rw [subtreeT_node, if_neg (by simpa using hroot)] at hsub
    obtain ⟨pre, post, eA, h1, h2⟩ :=
      gwalk_segF upd emit cs (upd e n d) a sub hnd.2 hsub
    refine ⟨emit e n d ++ pre, post, eA, ?_, ?_⟩
    · simp [h1]
    · intro r
      simp [h2 r]

theorem gwalk_segF {E α : Type} (upd : E → Nat → NodeData → E)
    (emit : E → Nat → NodeData → List α) (l : List Tree) (e : E) (a : Nat)
    (sub : Tree) (hnd : (nidsOfF l).Nodup) (hsub : subtreeF l a = some sub) :
    ∃ pre post eA,
      gwalkF upd emit e l = pre ++ gwalkT upd emit eA sub ++ post ∧
      ∀ r : Tree, gwalkF upd emit e (replaceF l a r) =
        pre ++ gwalkT upd emit eA r ++ post := by
  cases l with
  | nil => cases hsub
  | cons t ts =>
    simp only [nidsOfF_cons, List.nodup_append] at hnd
    rw [subtreeF_cons] at hsub
    cases hh : subtreeT t a with
    | some s =>
      rw [hh] at hsub
      cases hsub
      obtain ⟨hroot, hmem, hsubset⟩ := subtreeT_facts t a sub hh
      have hats : a ∉ nidsOfF ts := fun hc => hnd.2.2 hmem hc
      by_cases hra : t.rootNat = a
      · have hteq : t = sub := by
          cases t with
          | node n d cs =>
            rw [subtreeT_node, if_pos (by simpa using hra)] at hh
            exact Option.some_inj.mp hh
        refine ⟨[], gwalkF upd emit e ts, e, by simp [hteq], ?_⟩
        intro r
        rw [replaceF_cons', if_pos hra, replaceF_not_mem ts a r hats]
        simp
      · obtain ⟨pre, post, eA, h1, h2⟩ :=
          gwalk_segT upd emit t e a sub hnd.1 hh hra
        refine ⟨pre, post ++ gwalkF upd emit e ts, eA, by simp [h1], ?_⟩
        intro r
        rw [replaceF_cons', if_neg hra, replaceF_not_mem ts a r hats]
        simp [h2 r]
    | none =>
      rw [hh] at hsub
      have hat : a ∉ nidsOfT t := subtreeT_mem_of_none hh
      obtain ⟨pre, post, eA, h1, h2⟩ :=
        gwalk_segF upd emit ts e a sub hnd.2.1 hsub
      refine ⟨gwalkT upd emit e t ++ pre, post, eA, by simp [h1], ?_⟩
      intro r
      rw [replaceF_cons',
        if_neg (fun hc : t.rootNat = a => hat (hc ▸ rootNat_mem t)),
        replaceT_not_mem t a r hat]
      simp [h2 r]

end

/-! ### Node-id lists as walks; id bookkeeping under eviction -/

mutual

theorem nids_as_gwalkT (t : Tree) :
    nidsOfT t = gwalkT (fun _ _ _ => ()) (fun _ n _ => [n]) () t := by
  cases t with
  | node n d cs => simp [nids_as_gwalkF cs]

theorem nids_as_gwalkF (l : List Tree) :
    nidsOfF l = gwalkF (fun _ _ _ => ()) (fun _ n _ => [n]) () l := by
  cases l with
  | nil => rfl
  | cons t ts => simp [nids_as_gwalkT t, nids_as_gwalkF ts]

end

/-- Splitting the id list of a tree around a present subtree. -/
theorem nids_seg (t : Tree) (a : Nat) (sub : Tree)
    (hnd : (nidsOfT t).Nodup) (hsub : subtreeT t a = some sub)
    (hroot : t.rootNat ≠ a) :
    ∃ pre post, nidsOfT t = pre ++ nidsOfT sub ++ post ∧
      ∀ r : Tree, nidsOfT (replaceT t a r) = pre ++ nidsOfT r ++ post := by
  obtain ⟨pre, post, eA, h1, h2⟩ :=
    gwalk_segT (fun _ _ _ => ()) (fun _ n _ => [n]) t () a sub hnd hsub hroot
  refine ⟨pre, post, ?_, ?_⟩
  · rw [nids_as_gwalkT t, h1, nids_as_gwalkT sub]
  · intro r
    rw [nids_as_gwalkT (replaceT t a r), h2 r, nids_as_gwalkT r]

@[simp] theorem nids_leafP (p : Nat) : nidsOfT (leafP p) = [p] := rfl

@[simp] theorem scrub_placeholderData :
    scrubData placeholderData = placeholderData := rfl

@[simp] theorem strip_leafP (p : Nat) : stripT (leafP p) = leafP p := rfl

mutual

theorem scrub_idem (d : NodeData) : scrubData (scrubData d) = scrubData d := by
  simp [scrubData]

theorem strip_idemT (t : Tree) : stripT (stripT t) = stripT t := by
  cases t with
  | node n d cs => simp [scrub_idem, strip_idemF cs]

theorem strip_idemF (l : List Tree) : stripF (stripF l) = stripF l := by
  cases l with
  | nil => rfl
  | cons t ts => simp [strip_idemT t, strip_idemF ts]

end

/-- Tree ids after evicting a node for a fresh placeholder: the old ids
minus the evicted subtree, plus possibly the placeholder; distinctness is
preserved. -/
theorem nids_evict (t : World) (e p : Nat) (hnd : (nidsOfT t).Nodup)
    (hp : p ∉ nidsOfT t) :
    (nidsOfT (replaceT t e (leafP p))).Nodup ∧
      ∀ x ∈ nidsOfT (replaceT t e (leafP p)), x ∈ nidsOfT t ∨ x = p := by
  cases hs : subtreeT t e with
  | none =>
    rw [replaceT_not_mem t e (leafP p) (subtreeT_mem_of_none hs)]
    exact ⟨hnd, fun x hx => Or.inl hx⟩
  | some sub =>
    by_cases hroot : t.rootNat = e
    · have : replaceT t e (leafP p) = t := by
        cases t with
        | node n d cs =>
          simp only [rootNat_node] at hroot
          simp only [nidsOfT_node, List.nodup_cons] at hnd
          rw [replaceT_node, replaceF_not_mem cs e (leafP p) (hroot ▸ hnd.1)]
      rw [this]
      exact ⟨hnd, fun x hx => Or.inl hx⟩
    · obtain ⟨pre, post, h1, h2⟩ := nids_seg t e sub hnd hs hroot
      rw [h2 (leafP p)]
      rw [h1] at hnd hp
      simp only [nids_leafP]
      constructor
      · have hp' : p ∉ pre ∧ p ∉ post := by
          simp only [List.mem_append] at hp
          exact ⟨fun h => hp (Or.inl (Or.inl h)), fun h => hp (Or.inr h)⟩
        rw [List.append_assoc, List.nodup_append] at hnd
        obtain ⟨hpre, hmidpost, hdisj⟩ := hnd
        rw [List.nodup_append] at hmidpost
        obtain ⟨_, hpost, _⟩ := hmidpost
        rw [List.append_assoc, List.nodup_append]
        refine ⟨hpre, ?_, ?_⟩
        · rw [List.nodup_append]
          exact ⟨List.nodup_singleton p, hpost,
            fun x hx => by
              simp only [List.mem_singleton] at hx
              exact hx ▸ hp'.2⟩
        · intro x hx hc
          rcases List.mem_append.mp hc with h1 | h2
          · exact hp'.1 ((List.mem_singleton.mp h1) ▸ hx)
          · exact hdisj hx (List.mem_append_right _ h2)
      · intro x hx
        simp only [List.mem_append, List.mem_singleton] at hx
        rw [h1]
        simp only [List.mem_append]
        rcases hx with (hx | hx) | hx
        · exact Or.inl (Or.inl (Or.inl hx))
        · exact Or.inr hx
        · exact Or.inl (Or.inr hx)

/-! ### Flatness preservation -/

@[simp] theorem flat_leafP (p : Nat) : flatKindsT (leafP p) = true := rfl

mutual

theorem flat_replaceT (t : Tree) (a : Nat) (r : Tree)
    (ht : flatKindsT t = true) (hr : flatKindsT r = true) :
    flatKindsT (replaceT t a r) = true := by
  cases t with
  | node n d cs =>
    simp only [flatKindsT, Bool.and_eq_true] at ht
    rw [replaceT_node]
    simp only [flatKindsT, Bool.and_eq_true]
    constructor
    · cases hor : (!(d.kind == .control || d.kind == .image)) with
      | true => simp [hor]
      | false =>
        have h1 := ht.1
        rw [hor, Bool.false_or] at h1
        rw [List.isEmpty_iff] at h1
        subst h1
        simp
    · exact flat_replaceF cs a r ht.2 hr

theorem flat_replaceF (l : List Tree) (a : Nat) (r : Tree)
    (hl : flatKindsF l = true) (hr : flatKindsT r = true) :
    flatKindsF (replaceF l a r) = true := by
  cases l with
  | nil => rfl
  | cons t ts =>
    simp only [flatKindsF, Bool.and_eq_true] at hl
    rw [replaceF_cons']
    simp only [flatKindsF, Bool.and_eq_true]
    refine ⟨?_, flat_replaceF ts a r hl.2 hr⟩
    by_cases hra : t.rootNat = a
    · rw [if_pos hra]; exact hr
    · rw [if_neg hra]; exact flat_replaceT t a r hl.1 hr

end

/-! ### Restoration undoes eviction, at both abstraction levels -/

/-- Exact restoration: if the intermediate state is exactly the evicted
tree, replacing the placeholder back by the snapshot recovers the original
world (also when the eviction was a no-op on a detached or root node). -/
theorem restore_exact (t : World) (e p : Nat)
    (hnd : (nidsOfT t).Nodup) (hp : p ∉ nidsOfT t) :
    replaceT (replaceT t e (leafP p)) p
      ((subtreeT t e).getD (.node e placeholderData [])) = t := by
  cases hs : subtreeT t e with
  | none =>
    rw [replaceT_not_mem t e (leafP p) (subtreeT_mem_of_none hs),
      replaceT_not_mem t p _ hp]
  | some sub =>
    simp only [Option.getD_some]
    exact replace_restoreT t e p sub hnd hp hs

/-- Restoration at the strip level: any intermediate state that agrees
with the evicted tree on structural contents restores to the original
structural contents. -/
theorem restore_strip (t t2 : World) (e p : Nat)
    (hnd : (nidsOfT t).Nodup) (hp : p ∉ nidsOfT t)
    (h2 : stripT t2 = stripT (replaceT t e (leafP p))) :
    stripT (replaceT t2 p
      ((subtreeT t e).getD (.node e placeholderData []))) = stripT t := by
  cases hs : subtreeT t e with
  | none =>
    rw [replaceT_not_mem t e (leafP p) (subtreeT_mem_of_none hs)] at h2
    have hnids : nidsOfT t2 = nidsOfT t := by
      rw [← nids_stripT t2, h2, nids_stripT]
    rw [replaceT_not_mem t2 p _ (hnids ▸ hp)]
    exact h2
  | some sub =>
    simp only [Option.getD_some]
    rw [strip_replaceT, h2, strip_replaceT, strip_leafP]
    have hsub' : subtreeT (stripT t) e = some (stripT sub) := by
      rw [subtree_stripT, hs]
      rfl
    exact replace_restoreT (stripT t) e p (stripT sub)
      (by rw [nids_stripT]; exact hnd) (by rw [nids_stripT]; exact hp) hsub'

theorem gproto_strip : GProto stripT := by
  refine ⟨?_, ?_, ?_⟩
  · exact fun t t2 e p hnd hp h2 => restore_strip t t2 e p hnd hp h2
  · intro t t' h
    rw [← nids_stripT t', ← h, nids_stripT]
  · intro t t' h
    rw [← flat_stripT t', ← h, flat_stripT]

theorem gproto_id : GProto id := by
  refine ⟨?_, ?_, ?_⟩
  · intro t t2 e p hnd hp h2
    simp only [id] at h2 ⊢
    rw [h2]
    exact restore_exact t e p hnd hp
  · intro t t' h
    simp only [id] at h
    rw [h]
  · intro t t' h
    simp only [id] at h
    rw [h]

/-- Any `GProto` abstraction is refined by `stripT`: well-formedness of a
state follows from strip-level agreement with a well-formed tree. -/
theorem wf_of_strip (st' : St) (t : World) (fresh0 : Nat)
    (hstrip : stripT st'.world = stripT t) (hnd : (nidsOfT t).Nodup)
    (hbound : ∀ n ∈ nidsOfT t, n < fresh0) (hflat : flatKindsT t = true)
    (hfr : fresh0 ≤ st'.fresh) : WfSt st' := by
  have hnids : nidsOfT st'.world = nidsOfT t := by
    rw [← nids_stripT st'.world, hstrip, nids_stripT]
  refine ⟨hnids ▸ hnd, ?_, ?_⟩
  · intro n hn
    exact lt_of_lt_of_le (hbound n (hnids ▸ hn)) hfr
  · rw [← flat_stripT st'.world, hstrip, flat_stripT]
    exact hflat

/-! ### Walk membership carries node data -/

mutual

theorem walk_mem_nidsT {E : Type} (upd : E → Nat → NodeData → E)
    (pick : E → Nat → NodeData → Bool) (e : E) (t : Tree) (n : Nat)
    (h : n ∈ walkT upd pick e t) : n ∈ nidsOfT t := by
  cases t with
  | node m dm cs =>
    simp only [walkT, gwalkT_node, List.mem_append] at h
    rcases h with h | h
    · simp only [nidsOfT_node, List.mem_cons]
      by_cases hpick : pick e m dm
      · rw [if_pos hpick] at h
        simp only [List.mem_singleton] at h
        exact Or.inl h
      · rw [if_neg hpick] at h
        cases h
    · simp only [nidsOfT_node, List.mem_cons]
      exact Or.inr (walk_mem_nidsF upd pick (upd e m dm) cs n h)

theorem walk_mem_nidsF {E : Type} (upd : E → Nat → NodeData → E)
    (pick : E → Nat → NodeData → Bool) (e : E) (l : List Tree) (n : Nat)
    (h : n ∈ walkF upd pick e l) : n ∈ nidsOfF l := by
  cases l with
  | nil => cases h
  | cons t ts =>
    simp only [walkF, gwalkF_cons, List.mem_append] at h
    simp only [nidsOfF_cons, List.mem_append]
    rcases h with h | h
    · exact Or.inl (walk_mem_nidsT upd pick e t n h)
    · exact Or.inr (walk_mem_nidsF upd pick e ts n h)

end

mutual

/-- A walked node's looked-up data is the data the pick saw. -/
theorem walk_mem_dataT {E : Type} (upd : E → Nat → NodeData → E)
    (pick : E → Nat → NodeData → Bool) (e : E) (t : Tree) (n : Nat)
    (hnd : (nidsOfT t).Nodup) (h : n ∈ walkT upd pick e t) :
    ∃ d e0, findDataT t n = some d ∧ pick e0 n d = true := by
  cases t with
  | node m dm cs =>
    simp only [nidsOfT_node, List.nodup_cons] at hnd
    simp only [walkT, gwalkT_node, List.mem_append] at h
    rcases h with h | h
    · by_cases hpick : pick e m dm
      · rw [if_pos hpick] at h
        simp only [List.mem_singleton] at h
        subst h
        exact ⟨dm, e, by simp [findDataT], hpick⟩
      · rw [if_neg hpick] at h
        cases h
    · have hn : n ∈ nidsOfF cs := walk_mem_nidsF upd pick (upd e m dm) cs n h
      have hmn : m ≠ n := fun hc => hnd.1 (hc ▸ hn)
      obtain ⟨d, e0, h1, h2⟩ :=
        walk_mem_dataF upd pick (upd e m dm) cs n hnd.2 h
      exact ⟨d, e0, by simp [findDataT, hmn, h1], h2⟩

theorem walk_mem_dataF {E : Type} (upd : E → Nat → NodeData → E)
    (pick : E → Nat → NodeData → Bool) (e : E) (l : List Tree) (n : Nat)
    (hnd : (nidsOfF l).Nodup) (h : n ∈ walkF upd pick e l) :
    ∃ d e0, findDataF l n = some d ∧ pick e0 n d = true := by
  cases l with
  | nil => cases h
  | cons t ts =>
    simp only [nidsOfF_cons, List.nodup_append] at hnd
    simp only [walkF, gwalkF_cons, List.mem_append] at h
    rcases h with h | h
    · obtain ⟨d, e0, h1, h2⟩ := walk_mem_dataT upd pick e t n hnd.1 h
      exact ⟨d, e0, by simp [findDataF, h1], h2⟩
    · obtain ⟨d, e0, h1, h2⟩ := walk_mem_dataF upd pick e ts n hnd.2.1 h
      have hnt : n ∉ nidsOfT t := fun hc =>
        hnd.2.2 hc (walk_mem_nidsF upd pick e ts n h)
      refine ⟨d, e0, ?_, h2⟩
      simp only [findDataF, findData_none_of_not_memT t n hnt]
      exact h1

end

mutual

theorem findData_none_not_memT {t : Tree} {n : Nat}
    (h : findDataT t n = none) : n ∉ nidsOfT t := by
  cases t with
  | node m dm cs =>
    simp only [findDataT] at h
    by_cases hm : m = n
    · rw [if_pos hm] at h
      cases h
    · rw [if_neg hm] at h
      simp only [nidsOfT_node, List.mem_cons, not_or]
      exact ⟨fun hc => hm hc.symm, findData_none_not_memF h⟩

theorem findData_none_not_memF {l : List Tree} {n : Nat}
    (h : findDataF l n = none) : n ∉ nidsOfF l := by
  cases l with
  | nil => simp
  | cons t ts =>
    simp only [findDataF] at h
    cases hh : findDataT t n with
    | some d => rw [hh] at h; cases h
    | none =>
      rw [hh] at h
      simp only [nidsOfF_cons, List.mem_append, not_or]
      exact ⟨findData_none_not_memT hh, findData_none_not_memF h⟩

end

/-! ### Flat nodes have leaf subtrees; inserted placeholders look up to
placeholder data -/

mutual

theorem flat_subtree_leafT (t : Tree) (n : Nat) (d : NodeData)
    (hflat : flatKindsT t = true) (hd : findDataT t n = some d)
    (hk : d.kind = .control ∨ d.kind = .image) :
    subtreeT t n = some (.node n d []) := by
  cases t with
  | node m dm cs =>
    simp only [flatKindsT, Bool.and_eq_true] at hflat
    simp only [findDataT] at hd
    by_cases hm : m = n
    · rw [if_pos hm] at hd
      cases hd
      have hempty : cs = [] := by
        rcases Bool.or_eq_true_iff.mp hflat.1 with h | h
        · exfalso
          rcases hk with hk | hk <;> simp [hk] at h
        · exact List.isEmpty_iff.mp h
      subst hempty
      simp [hm]
    · rw [if_neg hm] at hd
      rw [subtreeT_node, if_neg hm]
      exact flat_subtree_leafF cs n d hflat.2 hd hk

theorem flat_subtree_leafF (l : List Tree) (n : Nat) (d : NodeData)
    (hflat : flatKindsF l = true) (hd : findDataF l n = some d)
    (hk : d.kind = .control ∨ d.kind = .image) :
    subtreeF l n = some (.node n d []) := by
  cases l with
  | nil => cases hd
  | cons t ts =>
    simp only [flatKindsF, Bool.and_eq_true] at hflat
    simp only [findDataF] at hd
    rw [subtreeF_cons]
    cases hh : findDataT t n with
    | some d0 =>
      rw [hh] at hd
      cases hd
      rw [flat_subtree_leafT t n d hflat.1 hh hk]
    | none =>
      rw [hh] at hd
      rw [subtreeT_eq_none t n (findData_none_not_memT hh)]
      exact flat_subtree_leafF ts n d hflat.2 hd hk

end

mutual

/-- After inserting a fresh placeholder leaf, its id looks up to the
placeholder data. -/
theorem findData_insertT (t : Tree) (e p : Nat) (sub : Tree)
    (hnd : (nidsOfT t).Nodup) (hp : p ∉ nidsOfT t)
    (hsub : subtreeT t e = some sub) (hroot : t.rootNat ≠ e) :
    findDataT (replaceT t e (leafP p)) p = some placeholderData := by
  cases t with
  | node m dm cs =>
    simp only [nidsOfT_node, List.nodup_cons] at hnd
    simp only [nidsOfT_node, List.mem_cons, not_or] at hp
    rw [subtreeT_node, if_neg (by simpa using hroot)] at hsub
    rw [replaceT_node]
    simp only [findDataT, if_neg (fun hc : m = p => hp.1 hc.symm)]
    exact findData_insertF cs e p sub hnd.2 hp.2 hsub

theorem findData_insertF (l : List Tree) (e p : Nat) (sub : Tree)
    (hnd : (nidsOfF l).Nodup) (hp : p ∉ nidsOfF l)
    (hsub : subtreeF l e = some sub) :
    findDataF (replaceF l e (leafP p)) p = some placeholderData := by
  cases l with
  | nil => cases hsub
  | cons t ts =>
    simp only [nidsOfF_cons, List.nodup_append] at hnd
    simp only [nidsOfF_cons, List.mem_append, not_or] at hp
    rw [subtreeF_cons] at hsub
    cases hh : subtreeT t e with
    | some s =>
      rw [hh] at hsub
      cases hsub
      by_cases hre : t.rootNat = e
      · rw [replaceF_cons', if_pos hre]
        simp [findDataF, leafP, findDataT]
      · rw [replaceF_cons', if_neg hre]
        simp only [findDataF, findData_insertT t e p sub hnd.1 hp.1 hh hre]
    | none =>
      rw [hh] at hsub
      have het : e ∉ nidsOfT t := subtreeT_mem_of_none hh
      rw [replaceF_cons',
        if_neg (fun hc : t.rootNat = e => het (hc ▸ rootNat_mem t)),
        replaceT_not_mem t e (leafP p) het]
      simp only [findDataF, findData_none_of_not_memT t p hp.1]
      exact findData_insertF ts e p sub hnd.2.1 hp.2 hsub

end

/-! ### Engine step bookkeeping -/

theorem evictStep_world (st : St) (e : Nat) :
    (evictStep st e).1.world = replaceT st.world e (leafP st.fresh) := rfl

theorem evictStep_fresh (st : St) (e : Nat) :
    (evictStep st e).1.fresh = st.fresh + 1 := rfl

theorem evictStep_trace (st : St) (e : Nat) :
    (evictStep st e).1.trace = st.trace ++ [.evict e st.fresh] := rfl

theorem evictStep_ph (st : St) (e : Nat) : (evictStep st e).2.1 = st.fresh := rfl

theorem evictStep_sub (st : St) (e : Nat) :
    (evictStep st e).2.2 =
      (subtreeT st.world e).getD (.node e placeholderData []) := rfl

theorem fresh_not_mem (st : St) (h : WfSt st) :
    st.fresh ∉ nidsOfT st.world :=
  fun hc => lt_irrefl _ (h.2.1 _ hc)

theorem evictStep_wf (st : St) (e : Nat) (h : WfSt st) :
    WfSt (evictStep st e).1 := by
  obtain ⟨hnd, hb, hf⟩ := h
  have hp : st.fresh ∉ nidsOfT st.world := fun hc => lt_irrefl _ (hb _ hc)
  obtain ⟨hnd', hsub⟩ := nids_evict st.world e st.fresh hnd hp
  refine ⟨?_, ?_, ?_⟩
  · rw [evictStep_world]; exact hnd'
  · intro n hn
    rw [evictStep_world] at hn
    rw [evictStep_fresh]
    rcases hsub n hn with h1 | h1
    · exact lt_trans (hb n h1) (Nat.lt_succ_self _)
    · rw [h1]; exact Nat.lt_succ_self _
  · rw [evictStep_world]
    exact flat_replaceT _ _ _ hf (flat_leafP st.fresh)

theorem restoreStep_world (st : St) (ph e : Nat) (sub : Tree) :
    (restoreStep st ph e sub).world = replaceT st.world ph sub := rfl

theorem restoreStep_fresh (st : St) (ph e : Nat) (sub : Tree) :
    (restoreStep st ph e sub).fresh = st.fresh := rfl

theorem restoreStep_trace (st : St) (ph e : Nat) (sub : Tree) :
    (restoreStep st ph e sub).trace = st.trace ++ [.restore ph e] := rfl

theorem invokeCb_world (cb : Cb) (st : St) (recv : Value) (key : String)
    (arg : Value) :
    (invokeCb cb st recv key arg).2.world = (cb st.world recv key arg).2 := rfl

theorem invokeCb_fresh (cb : Cb) (st : St) (recv : Value) (key : String)
    (arg : Value) : (invokeCb cb st recv key arg).2.fresh = st.fresh := rfl

theorem invokeCb_trace (cb : Cb) (st : St) (recv : Value) (key : String)
    (arg : Value) :
    (invokeCb cb st recv key arg).2.trace =
      st.trace ++ [.invoke recv key] := rfl

theorem restoreSeq_world : ∀ (l : List (Nat × Nat × Tree)) (st : St),
    (restoreSeq st l).world = restoreFold st.world l
  | [], _ => rfl
  | (e, ph, sub) :: rest, st => by
    simp only [restoreSeq, restoreFold]
    exact restoreSeq_world rest _

theorem restoreSeq_fresh : ∀ (l : List (Nat × Nat × Tree)) (st : St),
    (restoreSeq st l).fresh = st.fresh
  | [], _ => rfl
  | (e, ph, sub) :: rest, st => by
    simp only [restoreSeq]
    rw [restoreSeq_fresh rest, restoreStep_fresh]

theorem restoreSeq_trace : ∀ (l : List (Nat × Nat × Tree)) (st : St),
    (restoreSeq st l).trace = st.trace ++ restoreEvsOf l
  | [], st => by simp [restoreSeq, restoreEvsOf]
  | (e, ph, sub) :: rest, st => by
    simp only [restoreSeq, restoreEvsOf, List.map_cons]
    rw [restoreSeq_trace rest, restoreStep_trace]
    simp [restoreEvsOf]

theorem restoreFold_append : ∀ (l1 l2 : List (Nat × Nat × Tree)) (w : World),
    restoreFold w (l1 ++ l2) = restoreFold (restoreFold w l1) l2
  | [], _, _ => rfl
  | (e, ph, sub) :: rest, l2, w => by
    simp only [List.cons_append, restoreFold]
    exact restoreFold_append rest l2 _

/-! ### Eviction chains and their unwinding -/

theorem evchain_fresh {st : St} {entries : List (Nat × Nat × Tree)} {st1 : St}
    (h : EvChain st entries st1) : st1.fresh = st.fresh + entries.length := by
  induction h with
  | nil st => simp
  | cons st e rest stEnd hrest ih =>
    simp only [List.length_cons]
    rw [ih, evictStep_fresh]
    rw [Nat.add_assoc, Nat.add_comm 1 rest.length]

theorem evchain_wf {st : St} {entries : List (Nat × Nat × Tree)} {st1 : St}
    (h : EvChain st entries st1) (hw : WfSt st) : WfSt st1 := by
  induction h with
  | nil st => exact hw
  | cons st e rest stEnd hrest ih => exact ih (evictStep_wf st e hw)

theorem evchain_trace {st : St} {entries : List (Nat × Nat × Tree)} {st1 : St}
    (h : EvChain st entries st1) :
    st1.trace = st.trace ++ evictEvsOf entries := by
  induction h with
  | nil st => simp [evictEvsOf]
  | cons st e rest stEnd hrest ih =>
    simp only [evictEvsOf, List.map_cons]
    rw [ih]
    simp only [evictStep_trace, evictStep_ph, evictEvsOf]
    simp

theorem evchain_phs {st : St} {entries : List (Nat × Nat × Tree)} {st1 : St}
    (h : EvChain st entries st1) :
    entries.map (fun x => x.2.1) = List.range' st.fresh entries.length := by
  induction h with
  | nil st => simp
  | cons st e rest stEnd hrest ih =>
    simp only [List.map_cons, List.length_cons, evictStep_ph]
    rw [ih, evictStep_fresh, List.range'_succ]

/-- Unwinding an eviction chain by restoring in the reverse of eviction
order, from any state that agrees at level `g`. -/
theorem evchain_unwind (g : World → World) (hg : GProto g) {st : St}
    {entries : List (Nat × Nat × Tree)} {st1 : St}
    (h : EvChain st entries st1) (hw : WfSt st) :
    ∀ w2 : World, g w2 = g st1.world →
      g (restoreFold w2 entries.reverse) = g st.world := by
  induction h with
  | nil st => intro w2 hg2; simpa [restoreFold] using hg2
  | cons st e rest stEnd hrest ih =>
    intro w2 hg2
    rw [List.reverse_cons, restoreFold_append]
    have hstep := ih (evictStep_wf st e hw) w2 hg2
    rw [evictStep_world] at hstep
    simp only [restoreFold, evictStep_ph, evictStep_sub]
    exact hg.1 st.world (restoreFold w2 rest.reverse) e st.fresh hw.1
      (fresh_not_mem st hw) hstep

/-- Pairwise independence of restore entries: distinct placeholders, no
placeholder occurring in another entry's snapshot. -/
def EntryIndep (x y : Nat × Nat × Tree) : Prop :=
  x.2.1 ≠ y.2.1 ∧ x.2.1 ∉ nidsOfT y.2.2 ∧ y.2.1 ∉ nidsOfT x.2.2

theorem restoreFold_comm_single :
    ∀ (l : List (Nat × Nat × Tree)) (w : World) (x : Nat × Nat × Tree),
      (∀ y ∈ l, EntryIndep x y) →
      restoreFold (replaceT w x.2.1 x.2.2) l =
        replaceT (restoreFold w l) x.2.1 x.2.2
  | [], _, _, _ => rfl
  | (e, ph, sub) :: rest, w, x, h => by
    simp only [restoreFold]
    have hy := h (e, ph, sub) (List.mem_cons_self _ _)
    rw [replace_commT w x.2.1 ph x.2.2 sub hy.1 hy.2.2 hy.2.1]
    exact restoreFold_comm_single rest (replaceT w ph sub) x
      (fun y hyy => h y (List.mem_cons_of_mem _ hyy))

theorem restoreFold_reverse :
    ∀ (l : List (Nat × Nat × Tree)) (w : World),
      l.Pairwise EntryIndep → restoreFold w l = restoreFold w l.reverse
  | [], _, _ => rfl
  | x :: rest, w, h => by
    rw [List.pairwise_cons] at h
    simp only [restoreFold, List.reverse_cons]
    rw [restoreFold_comm_single rest w x h.1,
      restoreFold_reverse rest w h.2, restoreFold_append]
    rfl

/-- An eviction chain whose evicted nodes are pre-existing leaves has
pairwise independent entries. -/
theorem evchain_pairwise {st : St} {entries : List (Nat × Nat × Tree)}
    {st1 : St} (h : EvChain st entries st1)
    (hleaf : ∀ x ∈ entries,
      (∃ dd, x.2.2 = Tree.node x.1 dd []) ∧ x.1 < st.fresh) :
    entries.Pairwise EntryIndep := by
  induction h with
  | nil st => exact List.Pairwise.nil
  | cons st e rest stEnd hrest ih =>
    have hphs := evchain_phs hrest
    rw [List.pairwise_cons]
    constructor
    · intro y hy
      have hyph : y.2.1 ∈ List.range' (st.fresh + 1) rest.length := by
        rw [← evictStep_fresh st e, ← hphs]
        exact List.mem_map_of_mem _ hy
      have hyph' : st.fresh + 1 ≤ y.2.1 := (List.mem_range'_1.mp hyph).1
      have hy1 := hleaf y (List.mem_cons_of_mem _ hy)
      have hx1 := hleaf _ (List.mem_cons_self _ _)
      have hy2 : y.1 < st.fresh := hy1.2
      have hex : e < st.fresh := hx1.2
      obtain ⟨ddy, hddy⟩ := hy1.1
      obtain ⟨ddx, hddx⟩ := hx1.1
      have hddx' : (evictStep st e).2.2 = Tree.node e ddx [] := hddx
      refine ⟨?_, ?_, ?_⟩
      · show st.fresh ≠ y.2.1
        omega
      · show st.fresh ∉ nidsOfT y.2.2
        rw [hddy]
        simp only [nidsOfT_node, nidsOfF_nil, List.mem_singleton]
        omega
      · show y.2.1 ∉ nidsOfT (e, (evictStep st e).2.1, (evictStep st e).2.2).2.2
        show y.2.1 ∉ nidsOfT (evictStep st e).2.2
        rw [hddx']
        simp only [nidsOfT_node, nidsOfF_nil, List.mem_singleton]
        omega
    · refine ih ?_
      intro y hy
      have := hleaf y (List.mem_cons_of_mem _ hy)
      exact ⟨this.1, lt_of_lt_of_le this.2 (by rw [evictStep_fresh]; omega)⟩

/-- An eviction chain whose snapshots mention only pre-existing ids (every
id below the starting fresh source) has pairwise independent entries: no
placeholder occurs in any snapshot, and placeholders are distinct. -/
theorem evchain_pairwise_bound {st : St} {entries : List (Nat × Nat × Tree)}
    {st1 : St} (h : EvChain st entries st1)
    (hbd : ∀ x ∈ entries, ∀ q ∈ nidsOfT x.2.2, q < st.fresh) :
    entries.Pairwise EntryIndep := by
  induction h with
  | nil st => exact List.Pairwise.nil
  | cons st e rest stEnd hrest ih =>
    have hphs := evchain_phs hrest
    rw [List.pairwise_cons]
    constructor
    · intro y hy
      have hyph : y.2.1 ∈ List.range' (st.fresh + 1) rest.length := by
        rw [← evictStep_fresh st e, ← hphs]
        exact List.mem_map_of_mem _ hy
      have hyph' : st.fresh + 1 ≤ y.2.1 := (List.mem_range'_1.mp hyph).1
      have hybd := hbd y (List.mem_cons_of_mem _ hy)
      have hxbd := hbd _ (List.mem_cons_self _ _)
      refine ⟨?_, ?_, ?_⟩
      · show st.fresh ≠ y.2.1
        omega
      · show st.fresh ∉ nidsOfT y.2.2
        intro hc
        have := hybd st.fresh hc
        omega
      · show y.2.1 ∉ nidsOfT (evictStep st e).2.2
        intro hc
        have := hxbd y.2.1 hc
        omega
    · refine ih ?_
      intro y hy q hq
      have := hbd y (List.mem_cons_of_mem _ hy) q hq
      rw [evictStep_fresh]
      omega

/-! ### Frame lemmas for the engine primitives -/

theorem cbWorld_getProperty (g : World → World) : CbWorld g getProperty :=
  fun _ _ _ _ => rfl

theorem cbWorld_hasProperty (g : World → World) : CbWorld g hasProperty :=
  fun _ _ _ _ => rfl

theorem cbWorld_getOwnPropertyDescriptor (g : World → World) :
    CbWorld g getOwnPropertyDescriptor :=
  fun _ _ _ _ => rfl

theorem cbWorld_getFormOwnKeysCallback (g : World → World) :
    CbWorld g getFormOwnKeysCallback := by
  intro w obj key arg
  cases obj <;> rfl

theorem scrub_expandos (f : List (String × Value) → List (String × Value)) :
    ∀ d, scrubData { d with expandos := f d.expandos } = scrubData d := by
  intro d
  simp [scrubData]

theorem cbWorld_setProperty : CbWorld stripT setProperty := by
  intro w obj key arg
  simp only [setProperty, setVal]
  cases obj with
  | node n => exact strip_mapDataT w n _ (fun d => by simp [scrubData])
  | _ => rfl

theorem cbWorld_defineProperty : CbWorld stripT defineProperty := by
  intro w obj key arg
  simp only [defineProperty, defineVal, setVal]
  cases obj with
  | node n => exact strip_mapDataT w n _ (fun d => by simp [scrubData])
  | _ => rfl

theorem cbWorld_deleteProperty : CbWorld stripT deleteProperty := by
  intro w obj key arg
  simp only [deleteProperty, deleteVal]
  cases obj with
  | node n => exact strip_mapDataT w n _ (fun d => by simp [scrubData])
  | _ => rfl

/-- `invokeCb` under a frame-respecting raw operation. -/
theorem invokeCb_frame (g : World → World) (cb : Cb)
    (hcbS : CbWorld stripT cb) (hcbG : CbWorld g cb) (st : St) (recv : Value)
    (key : String) (arg : Value) (hwf : WfSt st) :
    stripT (invokeCb cb st recv key arg).2.world = stripT st.world ∧
      g (invokeCb cb st recv key arg).2.world = g st.world ∧
      WfSt (invokeCb cb st recv key arg).2 ∧
      st.fresh ≤ (invokeCb cb st recv key arg).2.fresh := by
  have h1 : stripT (invokeCb cb st recv key arg).2.world = stripT st.world := by
    rw [invokeCb_world]; exact hcbS st.world recv key arg
  refine ⟨h1, by rw [invokeCb_world]; exact hcbG st.world recv key arg, ?_, ?_⟩
  · exact wf_of_strip _ st.world st.fresh h1 hwf.1 hwf.2.1 hwf.2.2
      (by rw [invokeCb_fresh])
  · rw [invokeCb_fresh]

/-- `sanitizeSingle` preserves the frame, given that the re-entered method
does. -/
theorem sanitizeSingle_frameG (g : World → World) (hg : GProto g) (m : Method)
    (evil : Value) (recv : Value) (key : String) (arg : Value)
    (hm : ∀ st v st', WfSt st → m st recv key arg = (.ok v, st') →
      stripT st'.world = stripT st.world ∧ g st'.world = g st.world ∧
        WfSt st' ∧ st.fresh ≤ st'.fresh) :
    ∀ st v st', WfSt st →
      sanitizeSingle m evil st recv key arg = (.ok v, st') →
      stripT st'.world = stripT st.world ∧ g st'.world = g st.world ∧
        WfSt st' ∧ st.fresh ≤ st'.fresh := by
  intro st v st' hwf heq
  cases evil with
  | node e =>
    simp only [sanitizeSingle] at heq
    cases hm1 : m (evictStep st e).1 recv key arg with
    | mk r st2 =>
      rw [hm1] at heq
      cases r with
      | error ex => cases heq
      | ok v2 =>
        cases heq
        have hwf1 := evictStep_wf st e hwf
        obtain ⟨hS, hG, hwf2, hfr⟩ := hm _ _ _ hwf1 hm1
        rw [evictStep_world] at hS hG
        have hphp := fresh_not_mem st hwf
        have hstrip : stripT (restoreStep st2 (evictStep st e).2.1 e
            (evictStep st e).2.2).world = stripT st.world := by
          rw [restoreStep_world, evictStep_ph, evictStep_sub]
          exact (gproto_strip).1 st.world st2.world e st.fresh hwf.1 hphp hS
        have hgg : g (restoreStep st2 (evictStep st e).2.1 e
            (evictStep st e).2.2).world = g st.world := by
          rw [restoreStep_world, evictStep_ph, evictStep_sub]
          exact hg.1 st.world st2.world e st.fresh hwf.1 hphp hG
        refine ⟨hstrip, hgg, ?_, ?_⟩
        · exact wf_of_strip _ st.world st.fresh hstrip hwf.1 hwf.2.1 hwf.2.2
            (by rw [restoreStep_fresh]
                exact le_trans (by rw [evictStep_fresh] at hfr ⊢; omega) hfr)
        · rw [restoreStep_fresh]
          rw [evictStep_fresh] at hfr
          omega
  | undef => cases heq
  | vnull => cases heq
  | str s => cases heq
  | bool b => cases heq
  | controlsCollection f => cases heq
  | formNamedGroup f k => cases heq
  | docNamedGroup dn k => cases heq
  | window fr => cases heq
  | strList ks => cases heq

/-- The eviction loop of `sanitizeCollection` produces an eviction chain. -/
theorem sanCollEvict_chain (live : Value) :
    ∀ (n : Nat) (st : St) (entries : List (Nat × Nat × Tree)) (st1 : St),
      sanCollEvict live n st = (.ok entries, st1) → EvChain st entries st1
  | 0, st, entries, st1, h => by
    simp only [sanCollEvict] at h
    cases h
    exact EvChain.nil st
  | n + 1, st, entries, st1, h => by
    simp only [sanCollEvict] at h
    split at h
    · rename_i e hv
      split at h
      · rename_i rest st2 hrec
        cases h
        exact EvChain.cons st e rest st1 (sanCollEvict_chain live n _ rest st1 hrec)
      · simp at h
    · simp at h

/-- `sanitizeCollection` preserves the frame: evict all members, invoke
once, restore in the reverse of eviction order. -/
theorem sanitizeCollection_frameG (g : World → World) (hg : GProto g)
    (cb : Cb) (hcbS : CbWorld stripT cb) (hcbG : CbWorld g cb) (st : St)
    (recv : Value) (key : String) (arg : Value) (v : Value) (st' : St)
    (hwf : WfSt st)
    (heq : sanitizeCollection cb st recv key arg = (.ok v, st')) :
    stripT st'.world = stripT st.world ∧ g st'.world = g st.world ∧
      WfSt st' ∧ st.fresh ≤ st'.fresh := by
  simp only [sanitizeCollection] at heq
  split at heq
  · simp at heq
  · rename_i entries st1 hev
    split at heq
    · simp at heq
    · rename_i v2 st2 hinv
      cases heq
      have hchain := sanCollEvict_chain _ _ _ _ _ hev
      have hwf1 := evchain_wf hchain hwf
      obtain ⟨hS2, hG2, hwf2, hfr2⟩ :=
        invokeCb_frame g cb hcbS hcbG st1 recv key arg hwf1
      rw [hinv] at hS2 hG2 hwf2 hfr2
      have hSfin : stripT (restoreSeq st2 entries.reverse).world =
          stripT st.world := by
        rw [restoreSeq_world]
        exact evchain_unwind stripT gproto_strip hchain hwf st2.world hS2
      have hGfin : g (restoreSeq st2 entries.reverse).world =
          g st.world := by
        rw [restoreSeq_world]
        exact evchain_unwind g hg hchain hwf st2.world hG2
      have hfr1 := evchain_fresh hchain
      have hfr2' : st1.fresh ≤ st2.fresh := hfr2
      refine ⟨hSfin, hGfin, ?_, ?_⟩
      · exact wf_of_strip _ st.world st.fresh hSfin hwf.1 hwf.2.1 hwf.2.2
          (by rw [restoreSeq_fresh]; omega)
      · rw [restoreSeq_fresh]
        omega

/-! ### The index-eviction loop -/

theorem findData_some_memT {t : Tree} {x : Nat} {d : NodeData}
    (h : findDataT t x = some d) : x ∈ nidsOfT t := by
  by_contra hc
  rw [findData_none_of_not_memT t x hc] at h
  cases h

theorem findData_some_memF {l : List Tree} {x : Nat} {d : NodeData}
    (h : findDataF l x = some d) : x ∈ nidsOfF l := by
  by_contra hc
  rw [findData_none_of_not_memF l x hc] at h
  cases h

mutual

/-- Data found after a placeholder eviction is either data of the original
tree at the same node, or the placeholder data. -/
theorem findData_evictT (t : Tree) (e p m : Nat) (d : NodeData)
    (hnd : (nidsOfT t).Nodup)
    (h : findDataT (replaceT t e (leafP p)) m = some d) :
    findDataT t m = some d ∨ d = placeholderData := by
  cases t with
  | node n dn cs =>
    simp only [nidsOfT_node, List.nodup_cons] at hnd
    simp only [replaceT, findDataT] at h ⊢
    by_cases hm : n = m
    · rw [if_pos hm] at h ⊢
      exact Or.inl h
    · rw [if_neg hm] at h ⊢
      exact findData_evictF cs e p m d hnd.2 h

theorem findData_evictF (ts : List Tree) (e p m : Nat) (d : NodeData)
    (hnd : (nidsOfF ts).Nodup)
    (h : findDataF (replaceF ts e (leafP p)) m = some d) :
    findDataF ts m = some d ∨ d = placeholderData := by
  cases ts with
  | nil => cases h
  | cons t rest =>
    cases t with
    | node n dn cs =>
      rw [nidsOfF_cons] at hnd
      have hndT : (nidsOfT (.node n dn cs)).Nodup := hnd.of_append_left
      have hndR : (nidsOfF rest).Nodup := hnd.of_append_right
      have hdisj := List.disjoint_of_nodup_append hnd
      simp only [replaceF] at h
      by_cases hne : n = e
      · rw [if_pos hne] at h
        simp only [findDataF, leafP, findDataT] at h
        by_cases hpm : p = m
        · rw [if_pos hpm] at h
          exact Or.inr (by cases h; rfl)
        · rw [if_neg hpm] at h
          rcases findData_evictF rest e p m d hndR h with hl | hr
          · have hnotin : m ∉ nidsOfT (.node n dn cs) := fun hc =>
              hdisj hc (findData_some_memF hl)
            rw [findDataF, findData_none_of_not_memT _ m hnotin]
            exact Or.inl hl
          · exact Or.inr hr
      · rw [if_neg hne] at h
        rw [show Tree.node n dn (replaceF cs e (leafP p)) =
          replaceT (.node n dn cs) e (leafP p) from rfl] at h
        simp only [findDataF] at h ⊢
        cases hh : findDataT (replaceT (.node n dn cs) e (leafP p)) m with
        | some d2 =>
          rw [hh] at h
          cases h
          rcases findData_evictT (.node n dn cs) e p m d hndT hh with hl | hr
          · rw [hl]
            exact Or.inl rfl
          · exact Or.inr hr
        | none =>
          rw [hh] at h
          rcases findData_evictF rest e p m d hndR h with hl | hr
          · have hnotin : m ∉ nidsOfT (.node n dn cs) := fun hc =>
              hdisj hc (findData_some_memF hl)
            rw [findData_none_of_not_memT _ m hnotin]
            exact Or.inl hl
          · exact Or.inr hr

end

theorem ctlImgBound_of_wf (st : St) (h : WfSt st) :
    ctlImgBound st.fresh st.world :=
  fun m _ hm _ => h.2.1 m (findData_some_memT hm)

theorem ctlImgBound_evict (fresh0 : Nat) (st : St) (e : Nat)
    (hnd : (nidsOfT st.world).Nodup) (h : ctlImgBound fresh0 st.world) :
    ctlImgBound fresh0 (evictStep st e).1.world := by
  intro m d hm hk
  rw [evictStep_world] at hm
  rcases findData_evictT st.world e st.fresh m d hnd hm with hl | hr
  · exact h m d hl hk
  · rw [hr] at hk
    rcases hk with hk | hk <;> simp [placeholderData] at hk

/-- A member of the live `form.elements` collection is a control-kinded
node of the current tree. -/
theorem elementsOf_control (w : World) (f c : Nat)
    (hnd : (nidsOfT w).Nodup) (hc : c ∈ elementsOf w f) :
    ∃ d, findDataT w c = some d ∧ d.kind = .control := by
  simp only [elementsOf] at hc
  split at hc
  · rename_i df hdf
    split at hc
    · obtain ⟨d, e0, hd, hpick⟩ := walk_mem_dataT _ _ _ w c hnd hc
      refine ⟨d, hd, ?_⟩
      simp only [controlPick, Bool.and_eq_true, beq_iff_eq] at hpick
      exact hpick.1
    · simp at hc
  · simp at hc

/-- The `while` loop of `sanitizeIndices` run on the real controls
collection: it produces an eviction chain whose snapshots are leaves of
pre-existing nodes. -/
theorem indicesLoop_spec (f k fresh0 : Nat) :
    ∀ (n : Nat) (st : St) (entries : List (Nat × Nat × Tree)) (st1 : St),
      WfSt st → ctlImgBound fresh0 st.world →
      indicesLoop (.controlsCollection f) k n st = (.ok entries, st1) →
      EvChain st entries st1 ∧
        ∀ x ∈ entries, (∃ dd, x.2.2 = Tree.node x.1 dd []) ∧ x.1 < fresh0
  | 0, st, entries, st1, _, _, h => by simp [indicesLoop] at h
  | n + 1, st, entries, st1, hwf, hbd, h => by
    simp only [indicesLoop] at h
    split at h
    · split at h
      · rename_i hlen e hv
        split at h
        · rename_i rest st2 hrec
          cases h
          have hwf' := evictStep_wf st e hwf
          have hbd' := ctlImgBound_evict fresh0 st e hwf.1 hbd
          obtain ⟨hchain, hfacts⟩ :=
            indicesLoop_spec f k fresh0 n _ rest st1 hwf' hbd' hrec
          have hemem : e ∈ elementsOf st.world f := by
            simp only [collIndexV, collIndex] at hv
            split at hv
            · rename_i c hc
              cases hv
              exact List.getElem?_mem hc
            · cases hv
          obtain ⟨d, hd, hdk⟩ := elementsOf_control st.world f e hwf.1 hemem
          have hsub : subtreeT st.world e = some (.node e d []) :=
            flat_subtree_leafT st.world e d hwf.2.2 hd (Or.inl hdk)
          refine ⟨EvChain.cons st e rest st1 hchain, ?_⟩
          intro x hx
          rcases List.mem_cons.1 hx with hx | hx
          · subst hx
            refine ⟨⟨d, ?_⟩, hbd e d hd (Or.inl hdk)⟩
            rw [evictStep_sub, hsub]
            rfl
          · exact hfacts x hx
        · simp at h
      · simp at h
    · cases h
      exact ⟨EvChain.nil st, by intro x hx; cases hx⟩

/-- With an unshadowed `elements` slot the sanitized fetch of
`form.elements` reduces to the raw read (one traced invocation, no tree
change). -/
theorem elements_fetch (fuel : Nat) (st : St) (form : Value)
    (helems : isFormElementsCollectionV (valGet st.world form "elements") =
      true) :
    formSanitizedMethod (fuel + 3) getProperty st form "elements" .undef =
      (.ok (valGet st.world form "elements"),
        { st with trace := st.trace ++ [.invoke form "elements"] }) := by
  have hd : isDigits "elements" = false := by decide
  simp only [formSanitizedMethod, formSanitizedInner, formIsOverridden, hd,
    Bool.false_eq_true, if_false, if_pos rfl, helems, Bool.not_true]
  rfl

/-- `sanitizeIndices` preserves the frame when the `elements` slot is not
itself shadowed: the suffix of controls is evicted, the operation is
invoked once, and the forward restoration reinstalls the original tree
exactly. -/
theorem sanitizeIndices_frameG (g : World → World) (hg : GProto g)
    (cb : Cb) (hcbS : CbWorld stripT cb) (hcbG : CbWorld g cb)
    (fuel : Nat) (st : St) (form : Value) (property : String) (arg v : Value)
    (st' : St) (hwf : WfSt st)
    (helems : isFormElementsCollectionV (valGet st.world form "elements") =
      true)
    (heq : sanitizeIndices (fuel + 4) cb st form property arg = (.ok v, st')) :
    stripT st'.world = stripT st.world ∧ g st'.world = g st.world ∧
      WfSt st' ∧ st.fresh ≤ st'.fresh := by
  have hex : ∃ f, valGet st.world form "elements" = .controlsCollection f := by
    revert helems
    cases valGet st.world form "elements" <;> intro h <;>
      simp [isFormElementsCollectionV] at h
    exact ⟨_, rfl⟩
  obtain ⟨f, hfe⟩ := hex
  have hstep : sanitizeIndices (fuel + 4) cb st form property arg =
      (match indicesLoop (.controlsCollection f) (toNatKey property)
          (fuel + 4) { st with trace := st.trace ++ [.invoke form "elements"] }
        with
       | (.error ex, st2) => (.error ex, st2)
       | (.ok entries, st2) =>
         match invokeCb cb st2 form property arg with
         | (.error ex, st3) => (.error ex, st3)
         | (.ok v2, st3) => (.ok v2, restoreSeq st3 entries)) := by
    simp only [sanitizeIndices]
    rw [elements_fetch fuel st form helems, hfe]
  rw [hstep] at heq
  split at heq
  · simp at heq
  · rename_i entries st2 hloop
    split at heq
    · simp at heq
    · rename_i v2 st3 hinv
      cases heq
      have hwf1 : WfSt { st with trace := st.trace ++
          [Ev.invoke form "elements"] } := hwf
      have hbd1 : ctlImgBound st.fresh
          ({ st with trace := st.trace ++
            [Ev.invoke form "elements"] } : St).world :=
        ctlImgBound_of_wf st hwf
      obtain ⟨hchain, hfacts⟩ := indicesLoop_spec f (toNatKey property)
        st.fresh (fuel + 4) _ entries st2 hwf1 hbd1 hloop
      have hwf2 := evchain_wf hchain hwf1
      obtain ⟨hS3, hG3, hwf3, hfr3⟩ :=
        invokeCb_frame g cb hcbS hcbG st2 form property arg hwf2
      rw [hinv] at hS3 hG3 hwf3 hfr3
      have hpw := evchain_pairwise hchain hfacts
      have hS3' : stripT st3.world = stripT st2.world := hS3
      have hG3' : g st3.world = g st2.world := hG3
      have hfr3' : st2.fresh ≤ st3.fresh := hfr3
      have hSfin : stripT (restoreSeq st3 entries).world = stripT st.world := by
        rw [restoreSeq_world, restoreFold_reverse entries st3.world hpw]
        exact evchain_unwind stripT gproto_strip hchain hwf1 st3.world hS3'
      have hGfin : g (restoreSeq st3 entries).world = g st.world := by
        rw [restoreSeq_world, restoreFold_reverse entries st3.world hpw]
        exact evchain_unwind g hg hchain hwf1 st3.world hG3'
      have hfr2pre := evchain_fresh hchain
      have hfr2 : st2.fresh = st.fresh + entries.length := hfr2pre
      refine ⟨hSfin, hGfin, ?_, ?_⟩
      · exact wf_of_strip _ st.world st.fresh hSfin hwf.1 hwf.2.1 hwf.2.2
          (by rw [restoreSeq_fresh]; show st.fresh ≤ st3.fresh; omega)
      · rw [restoreSeq_fresh]
        show st.fresh ≤ st3.fresh
        omega

/-! ### The master frame induction over the sanitizer pipeline -/

theorem frames_refl (g : World → World) (st : St) (hwf : WfSt st) :
    Frames g st st :=
  ⟨rfl, rfl, hwf, le_refl _⟩

theorem frames_trans (g : World → World) {st1 st2 st3 : St}
    (h1 : Frames g st1 st2) (h2 : Frames g st2 st3) : Frames g st1 st3 :=
  ⟨h2.1.trans h1.1, h2.2.1.trans h1.2.1, h2.2.2.1,
    le_trans h1.2.2.2 h2.2.2.2⟩

theorem frames_wf (g : World → World) {st1 st2 : St} (h : Frames g st1 st2) :
    WfSt st2 := h.2.2.1

/-- Every wrapper of the detection-and-substitution pipeline (apart from
the digit-key `sanitizeIndices` route, handled separately) preserves the
frame at any abstraction `g` on every normal return. -/
theorem master_frame (g : World → World) (hg : GProto g) :
    ∀ fuel : Nat, ∀ cb : Cb, CbWorld stripT cb → CbWorld g cb →
      ((∀ st form property arg v st', WfSt st → isDigits property = false →
        formSanitizedMethod fuel cb st form property arg = (.ok v, st') →
        Frames g st st') ∧
       (∀ st form property arg v st', WfSt st →
        formSanitizedInner fuel cb st form property arg = (.ok v, st') →
        Frames g st st') ∧
       (∀ st form property b st', WfSt st →
        formIsOverridden fuel st form property = (.ok b, st') →
        Frames g st st') ∧
       (∀ st document property arg v st', WfSt st →
        docSanitizedMethod fuel cb st document property arg = (.ok v, st') →
        Frames g st st') ∧
       (∀ st document property arg v st', WfSt st →
        docSanitizedInner fuel cb st document property arg = (.ok v, st') →
        Frames g st st') ∧
       (∀ st document property value b st', WfSt st →
        isNamedElementOverride fuel st document property value =
          (.ok b, st') →
        Frames g st st') ∧
       (∀ st document property b st', WfSt st →
        docIsOverridden fuel st document property = (.ok b, st') →
        Frames g st st') ∧
       (∀ st obj key v st', WfSt st → isDigits key = false →
        safeGetProperty fuel st obj key = (.ok v, st') →
        Frames g st st'))
  | 0, cb, _, _ => by
    refine ⟨?_, ?_, ?_, ?_, ?_, ?_, ?_, ?_⟩
    · intro st form property arg v st' _ _ heq
      simp [formSanitizedMethod] at heq
    · intro st form property arg v st' _ heq
      simp [formSanitizedInner] at heq
    · intro st form property b st' _ heq
      simp [formIsOverridden] at heq
    · intro st document property arg v st' _ heq
      simp [docSanitizedMethod] at heq
    · intro st document property arg v st' _ heq
      simp [docSanitizedInner] at heq
    · intro st document property value b st' _ heq
      simp [isNamedElementOverride] at heq
    · intro st document property b st' _ heq
      simp [docIsOverridden] at heq
    · intro st obj key v st' _ _ heq
      simp [safeGetProperty] at heq
  | fuel + 1, cb, hcbS, hcbG => by
    have IHcb := master_frame g hg fuel cb hcbS hcbG
    have IHget := master_frame g hg fuel getProperty (cbWorld_getProperty _)
      (cbWorld_getProperty _)
    refine ⟨?_, ?_, ?_, ?_, ?_, ?_, ?_, ?_⟩
    · intro st form property arg v st' hwf hdig heq
      simp only [formSanitizedMethod, hdig, Bool.false_eq_true, if_false]
        at heq
      exact IHcb.2.1 st form property arg v st' hwf heq
    · intro st form property arg v st' hwf heq
      simp only [formSanitizedInner] at heq
      split at heq
      · simp at heq
      · rename_i st1 hdet
        have hd := IHcb.2.2.1 st form property false st1 hwf hdet
        have hi := invokeCb_frame g cb hcbS hcbG st1 form property arg
          (frames_wf g hd)
        rw [heq] at hi
        exact frames_trans g hd hi
      · rename_i st1 hdet
        have hd := IHcb.2.2.1 st form property true st1 hwf hdet
        split at heq
        · have hc := sanitizeCollection_frameG g hg cb hcbS hcbG st1 form
            property arg v st' (frames_wf g hd) heq
          exact frames_trans g hd hc
        · have hs := sanitizeSingle_frameG g hg (formSanitizedInner fuel cb)
            _ form property arg
            (fun st2 v2 st2' hw2 he2 =>
              IHcb.2.1 st2 form property arg v2 st2' hw2 he2)
            st1 v st' (frames_wf g hd) heq
          exact frames_trans g hd hs
    · intro st form property b st' hwf heq
      simp only [formIsOverridden] at heq
      split at heq
      · cases heq
        exact frames_refl g st hwf
      · split at heq
        · simp at heq
        · rename_i formElements st1 hfetch
          have hf := IHget.1 st form "elements" .undef formElements st1 hwf
            (by decide) hfetch
          split at heq
          · split at heq
            · split at heq
              · cases heq
                exact hf
              · split at heq
                · cases heq
                  exact hf
                · cases heq
                  exact hf
            · cases heq
              exact hf
          · simp at heq
    · intro st document property arg v st' hwf heq
      simp only [docSanitizedMethod] at heq
      split at heq
      · rename_i iframe hwin
        split at heq
        · simp at heq
        · rename_i st1 hno
          have hn := IHcb.2.2.2.2.2.1 st document property (.node iframe)
            false st1 hwf hno
          have hi := invokeCb_frame g cb hcbS hcbG st1 document property arg
            (frames_wf g hn)
          rw [heq] at hi
          exact frames_trans g hn hi
        · rename_i st1 hyes
          have hn := IHcb.2.2.2.2.2.1 st document property (.node iframe)
            true st1 hwf hyes
          have hs := sanitizeSingle_frameG g hg (docSanitizedMethod fuel cb)
            (.node iframe) document property arg
            (fun st2 v2 st2' hw2 he2 =>
              IHcb.2.2.2.1 st2 document property arg v2 st2' hw2 he2)
            st1 v st' (frames_wf g hn) heq
          exact frames_trans g hn hs
      · exact IHcb.2.2.2.2.1 st document property arg v st' hwf heq
    · intro st document property arg v st' hwf heq
      simp only [docSanitizedInner] at heq
      split at heq
      · simp at heq
      · rename_i st1 hdet
        have hd := IHcb.2.2.2.2.2.2.1 st document property false st1 hwf hdet
        have hi := invokeCb_frame g cb hcbS hcbG st1 document property arg
          (frames_wf g hd)
        rw [heq] at hi
        exact frames_trans g hd hi
      · rename_i st1 hdet
        have hd := IHcb.2.2.2.2.2.2.1 st document property true st1 hwf hdet
        split at heq
        · have hc := sanitizeCollection_frameG g hg cb hcbS hcbG st1 document
            property arg v st' (frames_wf g hd) heq
          exact frames_trans g hd hc
        · have hs := sanitizeSingle_frameG g hg (docSanitizedInner fuel cb)
            _ document property arg
            (fun st2 v2 st2' hw2 he2 =>
              IHcb.2.2.2.2.1 st2 document property arg v2 st2' hw2 he2)
            st1 v st' (frames_wf g hd) heq
          exact frames_trans g hd hs
    · intro st document property value b st' hwf heq
      simp only [isNamedElementOverride] at heq
      split at heq
      · simp at heq
      · rename_i nm st1 hget
        have hf := IHget.2.2.2.2.2.2.2 st value "name" nm st1 hwf (by decide)
          hget
        cases heq
        exact hf
    · intro st document property b st' hwf heq
      simp only [docIsOverridden] at heq
      split at heq
      · cases heq
        exact frames_refl g st hwf
      · split at heq
        · exact IHcb.2.2.2.2.2.1 st document property _ b st' hwf heq
        · split at heq
          · split at heq
            · simp at heq
            · rename_i nm st1 hname
              have h1 := IHget.2.2.2.2.2.2.2 st _ "name" nm st1 hwf
                (by decide) hname
              split at heq
              · cases heq
                exact h1
              · split at heq
                · simp at heq
                · rename_i idv st2 hid
                  have h2 := IHget.2.2.2.2.2.2.2 st1 _ "id" idv st2
                    (frames_wf g h1) (by decide) hid
                  cases heq
                  exact frames_trans g h1 h2
          · split at heq
            · split at heq
              · cases heq
                exact frames_refl g st hwf
              · split at heq
                · simp at heq
                · rename_i nm st1 hname
                  have h1 := IHget.2.2.2.2.2.2.2 st _ "name" nm st1 hwf
                    (by decide) hname
                  split at heq
                  · cases heq
                    exact h1
                  · split at heq
                    · cases heq
                      exact h1
                    · split at heq
                      · simp at heq
                      · rename_i idv st2 hid
                        have h2 := IHget.2.2.2.2.2.2.2 st1 _ "id" idv st2
                          (frames_wf g h1) (by decide) hid
                        cases heq
                        exact frames_trans g h1 h2
            · split at heq
              · cases heq
                exact frames_refl g st hwf
              · split at heq
                · rename_i frameEl hval
                  exact IHcb.2.2.2.2.2.1 st document property (.node frameEl)
                    b st' hwf heq
                · cases heq
                  exact frames_refl g st hwf
    · intro st obj key v st' hwf hk heq
      simp only [safeGetProperty] at heq
      split at heq
      · exact IHget.1 st obj key .undef v st' hwf hk heq
      · split at heq
        · exact IHget.2.2.2.1 st obj key .undef v st' hwf heq
        · cases heq
          exact frames_refl g st hwf

/-- The `ownKeys` filter for documents preserves the frame: detection may
recurse through the dispatcher but always restores. -/
theorem docOwnKeysFilter_frame (g : World → World) (hg : GProto g)
    (fuel : Nat) :
    ∀ (keys : List String) (st : St) (docV : Value) (ks : List String)
      (st' : St), WfSt st →
      docOwnKeysFilter fuel st docV keys = (.ok ks, st') →
      Frames g st st'
  | [], st, docV, ks, st', hwf, h => by
    simp only [docOwnKeysFilter] at h
    cases h
    exact frames_refl g st hwf
  | k :: rest, st, docV, ks, st', hwf, h => by
    simp only [docOwnKeysFilter] at h
    split at h
    · simp at h
    · rename_i ov st1 hdet
      have h1 := (master_frame g hg fuel getProperty (cbWorld_getProperty _)
        (cbWorld_getProperty _)).2.2.2.2.2.2.1 st docV k ov st1 hwf hdet
      split at h
      · rename_i ks2 st2 hrec
        have h2 := docOwnKeysFilter_frame g hg fuel rest st1 docV ks2 st2
          (frames_wf g h1) hrec
        cases h
        exact frames_trans g h1 h2
      · simp at h

/-- The raw callback of every operation tag leaves the structural tree
unchanged. -/
theorem cbWorld_opCb (op : OpTag) : CbWorld stripT (opCb op) := by
  cases op
  · exact cbWorld_getProperty _
  · exact cbWorld_setProperty
  · exact cbWorld_hasProperty _
  · exact cbWorld_getOwnPropertyDescriptor _
  · exact cbWorld_defineProperty
  · exact cbWorld_deleteProperty
  · exact cbWorld_getProperty _

/-- C3: if the wrapped operation throws during a single-node eviction,
`sanitizeSingle` re-throws that exception unchanged, and the result state
is exactly the state the wrapped operation left — the restoration step is
skipped on the exception path, leaving the interfering node evicted. -/
theorem C3_error_path (m : Method) (e : Nat) (st : St) (recv : Value)
    (key : String) (arg : Value) (ex : Exn) (st2 : St)
    (hm : m (evictStep st e).1 recv key arg = (.error ex, st2)) :
    sanitizeSingle m (.node e) st recv key arg = (.error ex, st2) := by
  simp only [sanitizeSingle]
  rw [hm]

/-- Witness for C3: a throwing operation on a concrete form; the error
surfaces unchanged and the control (node 2) is still out of the tree in the
final state. -/
theorem C3_error_path_witness :
    sanitizeSingle (fun s _ _ _ => (.error "boom", s)) (.node 2)
        (initSt wCls) (.node 1) "className" .undef =
      (.error "boom", (evictStep (initSt wCls) 2).1) ∧
    2 ∉ nidsOfT (sanitizeSingle (fun s _ _ _ => (.error "boom", s)) (.node 2)
        (initSt wCls) (.node 1) "className" .undef).2.world :=
  ⟨C3_error_path (fun s _ _ _ => (.error "boom", s)) 2 (initSt wCls)
      (.node 1) "className" Value.undef "boom" (evictStep (initSt wCls) 2).1 rfl,
   by decide⟩

/-! ### Evolution of live collections under one eviction -/

mutual

/-- A walk's output is a sublist of the node-id list. -/
theorem walk_sublistT {E : Type} (upd : E → Nat → NodeData → E)
    (pick : E → Nat → NodeData → Bool) (e : E) (t : Tree) :
    List.Sublist (walkT upd pick e t) (nidsOfT t) := by
  cases t with
  | node n d cs =>
    simp only [walkT, gwalkT_node, nidsOfT_node]
    by_cases hp : pick e n d = true
    · rw [if_pos hp]
      exact (walk_sublistF upd pick (upd e n d) cs).cons₂ n
    · rw [if_neg hp]
      exact (walk_sublistF upd pick (upd e n d) cs).cons n

theorem walk_sublistF {E : Type} (upd : E → Nat → NodeData → E)
    (pick : E → Nat → NodeData → Bool) (e : E) (l : List Tree) :
    List.Sublist (walkF upd pick e l) (nidsOfF l) := by
  cases l with
  | nil => exact List.Sublist.refl _
  | cons t ts =>
    simp only [walkF, gwalkF_cons, nidsOfF_cons]
    exact List.Sublist.append (walk_sublistT upd pick e t)
      (walk_sublistF upd pick e ts)

end

/-- Evicting a leaf node deletes exactly its entry from any walk (picks of
the other nodes are unaffected, and a placeholder is never picked). -/
theorem walk_evict {E : Type} (upd : E → Nat → NodeData → E)
    (pick : E → Nat → NodeData → Bool) (e : E) (w : World) (m p : Nat)
    (d : NodeData) (hnd : (nidsOfT w).Nodup) (hroot : w.rootNat ≠ m)
    (hsub : subtreeT w m = some (.node m d []))
    (hpm : m ≠ p)
    (hp : ∀ e', pick e' p placeholderData = false) :
    walkT upd pick e (replaceT w m (leafP p)) =
      (walkT upd pick e w).filter (fun x => x != m) := by
  obtain ⟨pre, post, eA, h1, h2⟩ := gwalk_segT upd
    (fun e n d => if pick e n d then [n] else []) w e m (.node m d []) hnd
    hsub hroot
  have hw' : walkT upd pick e (replaceT w m (leafP p)) = pre ++ post := by
    have h2' := h2 (leafP p)
    simp only [walkT] at h2' ⊢
    rw [h2']
    simp [leafP, hp]
  have hmout : m ∉ pre ++ post := by
    intro hmem
    have hmw : m ∈ walkT upd pick e (replaceT w m (leafP p)) := by
      rw [hw']
      exact hmem
    have hmnids := walk_mem_nidsT upd pick e _ m hmw
    obtain ⟨npre, npost, hn1, hn2⟩ := nids_seg w m (.node m d []) hnd hsub
      hroot
    rw [hn2 (leafP p)] at hmnids
    rw [hn1] at hnd
    simp only [nids_leafP, nidsOfT_node, nidsOfF_nil] at hmnids hnd
    have hmnpre : m ∉ npre := by
      intro hc
      rcases List.nodup_append.1 hnd with ⟨h1', _, _⟩
      rcases List.nodup_append.1 h1' with ⟨_, _, hdisj⟩
      exact hdisj hc (List.mem_singleton_self m)
    have hmnpost : m ∉ npost := by
      rcases List.nodup_append.1 hnd with ⟨_, _, hdisj⟩
      exact fun hc =>
        hdisj (List.mem_append.2 (Or.inr (List.mem_singleton_self m))) hc
    rcases List.mem_append.1 hmnids with hx | hx
    · rcases List.mem_append.1 hx with hx | hx
      · exact hmnpre hx
      · exact hpm (List.mem_singleton.1 hx)
    · exact hmnpost hx
  rw [hw']
  simp only [walkT] at h1 ⊢
  rw [h1, List.filter_append, List.filter_append]
  have hpre : pre.filter (fun x => x != m) = pre :=
    List.filter_eq_self.2 (fun a ha => by
      simp only [bne_iff_ne, ne_eq, decide_eq_true_eq]
      exact fun hc => hmout (List.mem_append.2 (Or.inl (hc ▸ ha))))
  have hpost : post.filter (fun x => x != m) = post :=
    List.filter_eq_self.2 (fun a ha => by
      simp only [bne_iff_ne, ne_eq, decide_eq_true_eq]
      exact fun hc => hmout (List.mem_append.2 (Or.inr (hc ▸ ha))))
  have hmid : (gwalkT upd (fun e n d => if pick e n d then [n] else []) eA
      (.node m d [])).filter (fun x => x != m) = [] := by
    simp only [gwalkT_node, gwalkF_nil, List.append_nil]
    by_cases hp2 : pick eA m d = true
    · rw [if_pos hp2]
      simp
    · rw [if_neg hp2]
      rfl
  rw [hpre, hpost, hmid, List.append_nil]

/-! ### Paired walks: positions of picked nodes inside the full pre-order -/

@[simp] theorem pwalkT_node {E : Type} (upd : E → Nat → NodeData → E)
    (pick : E → Nat → NodeData → Bool) (e : E) (n : Nat) (d : NodeData)
    (cs : List Tree) :
    pwalkT upd pick e (.node n d cs) =
      (n, pick e n d) :: pwalkF upd pick (upd e n d) cs := rfl

@[simp] theorem picksOf_nil : picksOf [] = [] := rfl

theorem picksOf_cons (x : Nat × Bool) (l : List (Nat × Bool)) :
    picksOf (x :: l) = if x.2 then x.1 :: picksOf l else picksOf l := by
  simp only [picksOf, List.filter_cons]
  by_cases hx : x.2 = true
  · simp [hx]
  · simp only [Bool.not_eq_true] at hx
    simp [hx]

theorem picksOf_append (a b : List (Nat × Bool)) :
    picksOf (a ++ b) = picksOf a ++ picksOf b := by
  simp [picksOf, List.filter_append]

theorem picksOf_mem_ids (l : List (Nat × Bool)) (a : Nat)
    (h : a ∈ picksOf l) : a ∈ l.map Prod.fst :=
  ((List.filter_sublist l).map Prod.fst).subset h

mutual

theorem walk_as_picksT {E : Type} (upd : E → Nat → NodeData → E)
    (pick : E → Nat → NodeData → Bool) (e : E) (t : Tree) :
    walkT upd pick e t = picksOf (pwalkT upd pick e t) := by
  cases t with
  | node n d cs =>
    simp only [walkT, gwalkT_node, pwalkT_node, picksOf_cons]
    rw [show gwalkF upd (fun e n d => if pick e n d then [n] else [])
        (upd e n d) cs = walkF upd pick (upd e n d) cs from rfl,
      walk_as_picksF upd pick (upd e n d) cs]
    by_cases hp : pick e n d = true
    · simp [hp]
    · simp only [Bool.not_eq_true] at hp
      simp [hp]

theorem walk_as_picksF {E : Type} (upd : E → Nat → NodeData → E)
    (pick : E → Nat → NodeData → Bool) (e : E) (l : List Tree) :
    walkF upd pick e l = picksOf (pwalkF upd pick e l) := by
  cases l with
  | nil => rfl
  | cons t ts =>
    simp only [walkF, gwalkF_cons]
    rw [show pwalkF upd pick e (t :: ts) =
        pwalkT upd pick e t ++ pwalkF upd pick e ts from rfl,
      picksOf_append,
      show gwalkT upd (fun e n d => if pick e n d then [n] else []) e t =
        walkT upd pick e t from rfl,
      show gwalkF upd (fun e n d => if pick e n d then [n] else []) e ts =
        walkF upd pick e ts from rfl,
      walk_as_picksT upd pick e t, walk_as_picksF upd pick e ts]

end

mutual

theorem nids_as_pidsT {E : Type} (upd : E → Nat → NodeData → E)
    (pick : E → Nat → NodeData → Bool) (e : E) (t : Tree) :
    nidsOfT t = (pwalkT upd pick e t).map Prod.fst := by
  cases t with
  | node n d cs =>
    simp only [nidsOfT_node, pwalkT_node, List.map_cons]
    rw [nids_as_pidsF upd pick (upd e n d) cs]

theorem nids_as_pidsF {E : Type} (upd : E → Nat → NodeData → E)
    (pick : E → Nat → NodeData → Bool) (e : E) (l : List Tree) :
    nidsOfF l = (pwalkF upd pick e l).map Prod.fst := by
  cases l with
  | nil => rfl
  | cons t ts =>
    simp only [nidsOfF_cons]
    rw [show pwalkF upd pick e (t :: ts) =
        pwalkT upd pick e t ++ pwalkF upd pick e ts from rfl, List.map_append,
      nids_as_pidsT upd pick e t, nids_as_pidsF upd pick e ts]

end

/-- Positions inside appended blocks: the element opening the middle block. -/
theorem getElem_block_head {α : Type} (P : List α) (x : α) (R : List α) :
    (P ++ x :: R)[P.length]? = some x := by
  rw [List.getElem?_append_right (le_refl _)]
  simp

/-- Positions inside appended blocks: an element of the last block. -/
theorem getElem_block_last {α : Type} (P S Q : List α) (x y : α) (i : Nat)
    (hi : Q[i]? = some y) :
    (P ++ x :: (S ++ Q))[P.length + 1 + S.length + i]? = some y := by
  rw [List.getElem?_append_right (by omega)]
  have h2 : P.length + 1 + S.length + i - P.length = S.length + i + 1 := by
    omega
  rw [h2, List.getElem?_cons_succ, List.getElem?_append_right (by omega)]
  simpa using hi

/-- In a duplicate-free list split both around `m`'s block and around `y`'s
block, `y` lying after `m`'s block, the element `m` cannot lie inside `y`'s
block: a pre-order ancestor never follows its descendant's segment. -/
theorem nested_block_absurd {L P S Q A T B : List Nat} {m y : Nat}
    (hnd : L.Nodup) (h1 : L = P ++ m :: (S ++ Q))
    (h2 : L = A ++ y :: (T ++ B)) (hyQ : y ∈ Q) (hmT : m ∈ T) : False := by
  obtain ⟨i, hi⟩ : ∃ i : Nat, Q[i]? = some y := List.getElem?_of_mem hyQ
  obtain ⟨j, hj⟩ : ∃ j : Nat, T[j]? = some m := List.getElem?_of_mem hmT
  have hm1 : L[P.length]? = some m := by rw [h1]; exact getElem_block_head P m _
  have hy1 : L[P.length + 1 + S.length + i]? = some y := by
    rw [h1]; exact getElem_block_last P S Q m y i hi
  have hy2 : L[A.length]? = some y := by rw [h2]; exact getElem_block_head A y _
  have hm2 : L[A.length + 1 + j]? = some m := by
    rw [h2]
    have hj' : j < T.length := by
      by_contra hc
      rw [List.getElem?_eq_none (by omega)] at hj
      cases hj
    rw [List.getElem?_append_right (by omega)]
    have h3 : A.length + 1 + j - A.length = j + 1 := by omega
    rw [h3, List.getElem?_cons_succ, List.getElem?_append_left hj']
    exact hj
  have hblen : P.length < L.length := by
    by_contra hc
    rw [List.getElem?_eq_none (by omega)] at hm1
    cases hm1
  have halen : A.length < L.length := by
    by_contra hc
    rw [List.getElem?_eq_none (by omega)] at hy2
    cases hy2
  have he1 : P.length = A.length + 1 + j :=
    List.getElem?_inj hblen hnd (hm1.trans hm2.symm)
  have he2 : A.length = P.length + 1 + S.length + i :=
    List.getElem?_inj halen hnd (hy2.trans hy1.symm)
  omega

mutual

/-- Replacing the subtree at `a` does not change the subtree found at `y`
when the two subtrees are disjoint and `y` does not occur in the
replacement. -/
theorem subtree_replaceT_out (t : Tree) (a y : Nat) (r subA subY : Tree)
    (hnd : (nidsOfT t).Nodup)
    (hsubA : subtreeT t a = some subA) (hsubY : subtreeT t y = some subY)
    (hyA : y ∉ nidsOfT subA) (haY : a ∉ nidsOfT subY)
    (hyr : y ∉ nidsOfT r) :
    subtreeT (replaceT t a r) y = some subY := by
  cases t with
  | node n d cs =>
    have hndcs : (nidsOfF cs).Nodup := by
      simp only [nidsOfT_node, List.nodup_cons] at hnd
      exact hnd.2
    have hna : n ≠ a := by
      intro hc
      rw [subtreeT_node, if_pos hc] at hsubA
      cases hsubA
      exact hyA ((subtreeT_facts _ y subY hsubY).2.1)
    have hny : n ≠ y := by
      intro hc
      rw [subtreeT_node, if_pos hc] at hsubY
      cases hsubY
      exact haY ((subtreeT_facts _ a subA hsubA).2.1)
    rw [subtreeT_node, if_neg hna] at hsubA
    rw [subtreeT_node, if_neg hny] at hsubY
    rw [replaceT_node, subtreeT_node, if_neg hny]
    exact subtree_replaceF_out cs a y r subA subY hndcs hsubA hsubY hyA haY
      hyr

theorem subtree_replaceF_out (l : List Tree) (a y : Nat) (r subA subY : Tree)
    (hnd : (nidsOfF l).Nodup)
    (hsubA : subtreeF l a = some subA) (hsubY : subtreeF l y = some subY)
    (hyA : y ∉ nidsOfT subA) (haY : a ∉ nidsOfT subY)
    (hyr : y ∉ nidsOfT r) :
    subtreeF (replaceF l a r) y = some subY := by
  cases l with
  | nil => cases hsubA
  | cons t ts =>
    rw [nidsOfF_cons] at hnd
    obtain ⟨hndT, hndR, hdisj⟩ := List.nodup_append.1 hnd
    rw [subtreeF_cons'] at hsubA hsubY
    rw [replaceF_cons']
    cases hA : subtreeT t a with
    | some sA =>
      rw [hA] at hsubA
      simp only [Option.or] at hsubA
      cases hsubA
      have hats : a ∉ nidsOfF ts := fun hc =>
        hdisj ((subtreeT_facts t a subA hA).2.1) hc
      cases hY : subtreeT t y with
      | some sY =>
        rw [hY] at hsubY
        simp only [Option.or] at hsubY
        cases hsubY
        by_cases hra : t.rootNat = a
        · exfalso
          have hteq : subA = t := by
            cases t with
            | node n2 d2 cs2 =>
              rw [subtreeT_node, if_pos (by simpa using hra)] at hA
              exact (Option.some_inj.mp hA).symm
          exact hyA (hteq ▸ (subtreeT_facts t y subY hY).2.1)
        · rw [if_neg hra, replaceF_not_mem ts a r hats, subtreeF_cons',
            subtree_replaceT_out t a y r subA subY hndT hA hY hyA haY hyr]
          simp [Option.or]
      | none =>
        rw [hY] at hsubY
        simp only [Option.or] at hsubY
        have hyts : y ∉ nidsOfT t := fun hyt =>
          hdisj hyt ((subtreeF_facts ts y subY hsubY).2.1)
        by_cases hra : t.rootNat = a
        · rw [if_pos hra, replaceF_not_mem ts a r hats, subtreeF_cons',
            subtreeT_eq_none r y hyr, hsubY]
          simp [Option.or]
        · rw [if_neg hra, replaceF_not_mem ts a r hats, subtreeF_cons',
            subtreeT_eq_none (replaceT t a r) y ?hyn, hsubY]
          · simp [Option.or]
          case hyn =>
            intro hc
            obtain ⟨npre, npost, hn1, hn2⟩ :=
              nids_seg t a subA hndT hA hra
            rw [hn2 r] at hc
            rcases List.mem_append.1 hc with hc1 | hc1
            · rcases List.mem_append.1 hc1 with hc2 | hc2
              · exact hyts (hn1 ▸ List.mem_append.2 (Or.inl
                  (List.mem_append.2 (Or.inl hc2))))
              · exact hyr hc2
            · exact hyts (hn1 ▸ List.mem_append.2 (Or.inr hc1))
    | none =>
      rw [hA] at hsubA
      simp only [Option.or] at hsubA
      have hat : a ∉ nidsOfT t := subtreeT_mem_of_none hA
      have hrne : t.rootNat ≠ a := fun hc => hat (hc ▸ rootNat_mem t)
      rw [if_neg hrne, replaceT_not_mem t a r hat, subtreeF_cons']
      cases hY : subtreeT t y with
      | some sY =>
        rw [hY] at hsubY
        simp only [Option.or] at hsubY
        cases hsubY
        simp [Option.or]
      | none =>
        rw [hY] at hsubY
        simp only [Option.or] at hsubY
        simp only [Option.or]
        exact subtree_replaceF_out ts a y r subA subY hndR hsubA hsubY hyA
          haY hyr

end

/-- Placeholder data never matches a document named-access key. -/
theorem docMatchData_placeholder (key : String) :
    docMatchData placeholderData key = false := by
  simp [docMatchData, placeholderData]

/-- A document named match is never the tree root (matching needs a strict
ancestor equal to the document node). -/
theorem docMatches_ne_root (w : World) (dn : Nat) (key : String) (m : Nat)
    (hnd : (nidsOfT w).Nodup) (hm : m ∈ docNamedMatches w dn key) :
    w.rootNat ≠ m := by
  cases w with
  | node n d cs =>
    simp only [docNamedMatches, walkT, gwalkT_node, Bool.false_and,
      Bool.false_eq_true, if_false, List.nil_append] at hm
    have hmn : m ∈ nidsOfF cs :=
      walk_mem_nidsF _ _ _ cs m hm
    simp only [nidsOfT_node, List.nodup_cons] at hnd
    intro hc
    have hc' : n = m := by simpa using hc
    exact hnd.1 (by rw [hc']; exact hmn)

/-- Segment decomposition of a paired walk around a present subtree. -/
theorem pwalk_segT {E : Type} (upd : E → Nat → NodeData → E)
    (pick : E → Nat → NodeData → Bool) (t : Tree) (e : E) (a : Nat)
    (sub : Tree) (hnd : (nidsOfT t).Nodup) (hsub : subtreeT t a = some sub)
    (hroot : t.rootNat ≠ a) :
    ∃ pre post eA,
      pwalkT upd pick e t = pre ++ pwalkT upd pick eA sub ++ post ∧
      ∀ r : Tree, pwalkT upd pick e (replaceT t a r) =
        pre ++ pwalkT upd pick eA r ++ post :=
  gwalk_segT upd (fun e n d => [(n, pick e n d)]) t e a sub hnd hsub hroot

/-- Evicting the document named match at index `k` keeps the earlier
matches in place and every later match's subtree intact: the snapshot taken
is placeholder-free, and the loop invariant survives the eviction. -/
theorem docMatches_evict_at (dn : Nat) (key : String) (fresh0 k : Nat)
    (st : St) (m : Nat) (hwf : WfSt st)
    (hclean : PhClean fresh0 dn key k st.world)
    (hm : (docNamedMatches st.world dn key)[k]? = some m) :
    (∀ q ∈ nidsOfT (evictStep st m).2.2, q < fresh0) ∧
      m < fresh0 ∧
      PhClean fresh0 dn key k (evictStep st m).1.world := by
  have hnd : (nidsOfT st.world).Nodup := hwf.1
  have hmM : m ∈ docNamedMatches st.world dn key := List.getElem?_mem hm
  have hroot : st.world.rootNat ≠ m :=
    docMatches_ne_root st.world dn key m hnd hmM
  have hmw : m ∈ nidsOfT st.world := by
    simp only [docNamedMatches] at hmM
    exact walk_mem_nidsT _ _ _ _ _ hmM
  obtain ⟨subm, hsub⟩ : ∃ subm, subtreeT st.world m = some subm := by
    have hs := subtreeT_isSome st.world m hmw
    cases hs2 : subtreeT st.world m with
    | some s => exact ⟨s, rfl⟩
    | none => rw [hs2] at hs; cases hs
  obtain ⟨dm, css, hsubm⟩ : ∃ dm css, subm = .node m dm css := by
    have hr := (subtreeT_facts st.world m subm hsub).1
    cases subm with
    | node m2 d2 c2 => exact ⟨d2, c2, by rw [show m2 = m from hr]⟩
  obtain ⟨pre, post, eA, hP1, hP2⟩ := pwalk_segT (insideUpd dn)
    (fun e _ d => e && docMatchData d key) st.world false m subm hnd hsub
    hroot
  have hMdef : docNamedMatches st.world dn key =
      picksOf pre ++ picksOf (pwalkT (insideUpd dn)
        (fun e _ d => e && docMatchData d key) eA subm) ++ picksOf post := by
    simp only [docNamedMatches]
    rw [walk_as_picksT, hP1, picksOf_append, picksOf_append]
  have hNdef : nidsOfT st.world =
      pre.map Prod.fst ++ nidsOfT subm ++ post.map Prod.fst := by
    rw [nids_as_pidsT (insideUpd dn)
        (fun e _ d => e && docMatchData d key) false st.world, hP1,
      List.map_append, List.map_append,
      ← nids_as_pidsT (insideUpd dn)
        (fun e _ d => e && docMatchData d key) eA subm]
  have hnd2 : ((pre.map Prod.fst ++ nidsOfT subm) ++
      post.map Prod.fst).Nodup := by rw [← hNdef]; exact hnd
  obtain ⟨hndAB, hndC, hdisjC⟩ := List.nodup_append.1 hnd2
  obtain ⟨hndA, hndB, hdisjAB⟩ := List.nodup_append.1 hndAB
  have hmsubm : m ∈ nidsOfT subm := by rw [hsubm]; simp
  have hmnotpre : m ∉ pre.map Prod.fst := fun hc => hdisjAB hc hmsubm
  have hmnotpost : m ∉ post.map Prod.fst := fun hc =>
    hdisjC (List.mem_append.2 (Or.inr hmsubm)) hc
  have hSdef : pwalkT (insideUpd dn) (fun e _ d => e && docMatchData d key)
      eA subm = (m, eA && docMatchData dm key) :: pwalkF (insideUpd dn)
        (fun e _ d => e && docMatchData d key) (insideUpd dn eA m dm) css :=
    by rw [hsubm]; rfl
  have hmpick : (eA && docMatchData dm key) = true := by
    by_contra hc
    rw [Bool.not_eq_true] at hc
    have hmS : m ∈ picksOf (pwalkT (insideUpd dn)
        (fun e _ d => e && docMatchData d key) eA subm) := by
      rw [hMdef] at hmM
      rcases List.mem_append.1 hmM with h1 | h1
      · rcases List.mem_append.1 h1 with h2 | h2
        · exact absurd (picksOf_mem_ids pre m h2) hmnotpre
        · exact h2
      · exact absurd (picksOf_mem_ids post m h1) hmnotpost
    rw [hSdef, picksOf_cons] at hmS
    simp only [hc, Bool.false_eq_true, if_false] at hmS
    have hmids := picksOf_mem_ids _ m hmS
    rw [← nids_as_pidsF (insideUpd dn)
      (fun e _ d => e && docMatchData d key) (insideUpd dn eA m dm) css]
      at hmids
    rw [hsubm, nidsOfT_node, List.nodup_cons] at hndB
    exact hndB.1 hmids
  have hMcons : docNamedMatches st.world dn key =
      picksOf pre ++ m :: (picksOf (pwalkF (insideUpd dn)
        (fun e _ d => e && docMatchData d key) (insideUpd dn eA m dm) css) ++
        picksOf post) := by
    rw [hMdef, hSdef, picksOf_cons]
    simp only [hmpick, if_true]
    simp [List.append_assoc]
  have hMnodup : (docNamedMatches st.world dn key).Nodup := by
    simp only [docNamedMatches]
    exact hnd.sublist (walk_sublistT _ _ _ _)
  have hkM : (docNamedMatches st.world dn key)[(picksOf pre).length]? =
      some m := by
    rw [hMcons]
    exact getElem_block_head _ m _
  have hkbound : k < (docNamedMatches st.world dn key).length := by
    by_contra hc
    rw [List.getElem?_eq_none (by omega)] at hm
    cases hm
  have hkeq : k = (picksOf pre).length :=
    List.getElem?_inj hkbound hMnodup (hm.trans hkM.symm)
  have hsnap : ∀ q ∈ nidsOfT (evictStep st m).2.2, q < fresh0 := by
    intro q hq
    rw [evictStep_sub, hsub] at hq
    exact hclean k m (le_refl k) hm subm hsub q hq
  have hmlt : m < fresh0 := hsnap m (by rw [evictStep_sub, hsub]; exact hmsubm)
  have hM' : docNamedMatches (evictStep st m).1.world dn key =
      picksOf pre ++ picksOf post := by
    rw [evictStep_world]
    simp only [docNamedMatches]
    rw [walk_as_picksT, hP2 (leafP st.fresh), picksOf_append, picksOf_append]
    have hmid : picksOf (pwalkT (insideUpd dn)
        (fun e _ d => e && docMatchData d key) eA (leafP st.fresh)) = [] := by
      show picksOf [(st.fresh, eA && docMatchData placeholderData key)] = []
      rw [docMatchData_placeholder]
      simp [picksOf]
    rw [hmid]
    simp
  refine ⟨hsnap, hmlt, ?_⟩
  intro j y hkj hget suby' hsub' q hq
  rw [hM'] at hget
  have hjk : (picksOf pre).length ≤ j := by omega
  have hyget : (picksOf post)[j - (picksOf pre).length]? = some y := by
    rw [List.getElem?_append_right hjk] at hget
    exact hget
  have hyP : y ∈ picksOf post := List.getElem?_mem hyget
  have hyIds : y ∈ post.map Prod.fst := picksOf_mem_ids post y hyP
  have hyw : y ∈ nidsOfT st.world := by
    rw [hNdef]
    exact List.mem_append.2 (Or.inr hyIds)
  have hysubm : y ∉ nidsOfT subm := fun hc =>
    hdisjC (List.mem_append.2 (Or.inr hc)) hyIds
  have hym : y ≠ m := fun hc => hysubm (by rw [hc]; exact hmsubm)
  obtain ⟨suby, hsuby⟩ : ∃ suby, subtreeT st.world y = some suby := by
    have hs := subtreeT_isSome st.world y hyw
    cases hs2 : subtreeT st.world y with
    | some s => exact ⟨s, rfl⟩
    | none => rw [hs2] at hs; cases hs
  have hyM : y ∈ docNamedMatches st.world dn key := by
    rw [hMcons]
    exact List.mem_append.2 (Or.inr (List.mem_cons.2 (Or.inr
      (List.mem_append.2 (Or.inr hyP)))))
  have hrooty : st.world.rootNat ≠ y :=
    docMatches_ne_root st.world dn key y hnd hyM
  have hmy : m ∉ nidsOfT suby := by
    intro hmem
    obtain ⟨preY, postY, eB, hQ1, _⟩ := pwalk_segT (insideUpd dn)
      (fun e _ d => e && docMatchData d key) st.world false y suby hnd hsuby
      hrooty
    obtain ⟨dy, cys, hsubysh⟩ : ∃ dy cys, suby = .node y dy cys := by
      have hr := (subtreeT_facts st.world y suby hsuby).1
      cases suby with
      | node y2 d2 c2 => exact ⟨d2, c2, by rw [show y2 = y from hr]⟩
    have hNdefY : nidsOfT st.world =
        preY.map Prod.fst ++ nidsOfT suby ++ postY.map Prod.fst := by
      rw [nids_as_pidsT (insideUpd dn)
          (fun e _ d => e && docMatchData d key) false st.world, hQ1,
        List.map_append, List.map_append,
        ← nids_as_pidsT (insideUpd dn)
          (fun e _ d => e && docMatchData d key) eB suby]
    have hmincy : m ∈ nidsOfF cys := by
      rw [hsubysh, nidsOfT_node] at hmem
      rcases List.mem_cons.1 hmem with hc | hc
      · exact absurd hc.symm hym
      · exact hc
    have hb1 : nidsOfT st.world = pre.map Prod.fst ++ m ::
        (nidsOfF css ++ post.map Prod.fst) := by
      rw [hNdef, hsubm, nidsOfT_node]
      simp [List.append_assoc]
    have hb2 : nidsOfT st.world = preY.map Prod.fst ++ y ::
        (nidsOfF cys ++ postY.map Prod.fst) := by
      rw [hNdefY, hsubysh, nidsOfT_node]
      simp [List.append_assoc]
    exact nested_block_absurd hnd hb1 hb2 hyIds hmincy
  have hyph : y ∉ nidsOfT (leafP st.fresh) := by
    simp only [nids_leafP, List.mem_singleton]
    intro hc
    have := hwf.2.1 y hyw
    omega
  have hsubnew : subtreeT (evictStep st m).1.world y = some suby := by
    rw [evictStep_world]
    exact subtree_replaceT_out st.world m y (leafP st.fresh) subm suby hnd
      hsub hsuby hysubm hmy hyph
  have hsame : suby' = suby := by
    rw [hsubnew] at hsub'
    exact (Option.some_inj.mp hsub').symm
  obtain ⟨iy, hiy⟩ : ∃ i : Nat, (picksOf post)[i]? = some y :=
    List.getElem?_of_mem hyP
  have horig : (docNamedMatches st.world dn key)[(picksOf pre).length + 1 +
      (picksOf (pwalkF (insideUpd dn)
        (fun e _ d => e && docMatchData d key) (insideUpd dn eA m dm)
        css)).length + iy]? = some y := by
    rw [hMcons]
    exact getElem_block_last _ _ _ m y iy hiy
  exact hclean _ y (by omega) horig suby hsuby q (by rw [← hsame]; exact hq)

theorem elementsOf_mem_nids (w : World) (f c : Nat)
    (hc : c ∈ elementsOf w f) : c ∈ nidsOfT w := by
  simp only [elementsOf] at hc
  split at hc
  · split at hc
    · exact walk_mem_nidsT _ _ _ _ _ hc
    · simp at hc
  · simp at hc

theorem imagesOf_mem_nids (w : World) (f c : Nat)
    (hc : c ∈ imagesOf w f) : c ∈ nidsOfT w :=
  walk_mem_nidsT _ _ _ _ _ hc

/-- A member of the live image collection is an image-kinded node. -/
theorem imagesOf_image (w : World) (f c : Nat)
    (hnd : (nidsOfT w).Nodup) (hc : c ∈ imagesOf w f) :
    ∃ d, findDataT w c = some d ∧ d.kind = .image := by
  obtain ⟨d, e0, hd, hpick⟩ := walk_mem_dataT _ _ _ w c hnd hc
  refine ⟨d, hd, ?_⟩
  simp only [Bool.and_eq_true, beq_iff_eq] at hpick
  exact hpick.2

/-- In a flat world that holds a form, a control- or image-kinded node is
never the root. -/
theorem member_ne_root (w : World) (f m : Nat) (dm df : NodeData)
    (hflat : flatKindsT w = true) (hdm : findDataT w m = some dm)
    (hk : dm.kind = .control ∨ dm.kind = .image)
    (hdf : findDataT w f = some df) (hkf : df.kind = .form) :
    w.rootNat ≠ m := by
  cases w with
  | node n dn cs =>
    intro hc
    have hc' : n = m := hc
    subst hc'
    simp only [findDataT, if_pos rfl] at hdm
    have hdm' : dn = dm := by injection hdm
    subst hdm'
    simp only [flatKindsT, Bool.and_eq_true] at hflat
    have hkind : (dn.kind == Kind.control || dn.kind == Kind.image) = true := by
      rcases hk with hk | hk <;> rw [hk] <;> simp
    have hcs : cs.isEmpty = true := by
      rcases Bool.or_eq_true_iff.1 hflat.1 with h | h
      · rw [Bool.not_eq_true'] at h
        rw [hkind] at h
        cases h
      · exact h
    rw [List.isEmpty_iff] at hcs
    subst hcs
    have hfm : f ∈ nidsOfT (.node n dn []) := findData_some_memT hdf
    simp only [nidsOfT_node, nidsOfF_nil] at hfm
    have hfn : f = n := by simpa using hfm
    subst hfn
    simp only [findDataT, if_pos rfl] at hdf
    cases hdf
    rcases hk with hk | hk <;> rw [hkf] at hk <;> cases hk

/-- Evicting a leaf control or image deletes exactly its entry from the
live `elements` collection. -/
theorem elementsOf_evict (w : World) (f m p : Nat) (d : NodeData)
    (hnd : (nidsOfT w).Nodup) (hroot : w.rootNat ≠ m)
    (hsub : subtreeT w m = some (.node m d []))
    (hmf : m ≠ f) (hpf : p ≠ f) (hpm : m ≠ p) :
    elementsOf (replaceT w m (leafP p)) f =
      (elementsOf w f).filter (fun x => x != m) := by
  have hff : findDataT (replaceT w m (leafP p)) f = findDataT w f :=
    findData_replaceT w m (leafP p) (.node m d []) f hnd hsub
      (by simp; exact fun hc => hmf hc.symm)
      (by simp [leafP]; exact fun hc => hpf hc.symm)
  simp only [elementsOf, hff]
  cases hdf : findDataT w f with
  | none => rfl
  | some df =>
    show (if (df.kind == Kind.form) = true then
        walkT nearestFormUpd (controlPick f df.idAttr) none
          (replaceT w m (leafP p)) else []) =
      List.filter (fun x => x != m)
        (if (df.kind == Kind.form) = true then
          walkT nearestFormUpd (controlPick f df.idAttr) none w else [])
    by_cases hk : (df.kind == Kind.form) = true
    · rw [if_pos hk, if_pos hk]
      exact walk_evict _ _ none w m p d hnd hroot hsub hpm (fun e' => rfl)
    · rw [if_neg hk, if_neg hk]
      rfl

/-- Evicting a leaf node deletes exactly its entry from the live image
collection. -/
theorem imagesOf_evict (w : World) (f m p : Nat) (d : NodeData)
    (hnd : (nidsOfT w).Nodup) (hroot : w.rootNat ≠ m)
    (hsub : subtreeT w m = some (.node m d []))
    (hpm : m ≠ p) :
    imagesOf (replaceT w m (leafP p)) f =
      (imagesOf w f).filter (fun x => x != m) :=
  walk_evict _ _ false w m p d hnd hroot hsub hpm
    (fun e' => by simp [placeholderData])

/-- Evicting a leaf control or image deletes exactly its entry from the
named-controls list. -/
theorem namedControls_evict (w : World) (f m p : Nat) (key : String)
    (d : NodeData) (hnd : (nidsOfT w).Nodup) (hroot : w.rootNat ≠ m)
    (hsub : subtreeT w m = some (.node m d []))
    (hmf : m ≠ f) (hpf : p ≠ f) (hpm : m ≠ p) (hpmem : p ∉ nidsOfT w) :
    namedControls (replaceT w m (leafP p)) f key =
      (namedControls w f key).filter (fun x => x != m) := by
  simp only [namedControls]
  rw [elementsOf_evict w f m p d hnd hroot hsub hmf hpf hpm,
    List.filter_filter, List.filter_filter]
  refine List.filter_congr ?_
  intro c hc
  by_cases hcm : c = m
  · subst hcm
    simp
  · have hcp : c ≠ p := fun hc2 =>
      hpmem (hc2 ▸ elementsOf_mem_nids w f c hc)
    have hcn : findDataT (replaceT w m (leafP p)) c = findDataT w c :=
      findData_replaceT w m (leafP p) (.node m d []) c hnd hsub
        (by simp [fun hc2 : c = m => hcm hc2])
        (by simp [leafP, fun hc2 : c = p => hcp hc2])
    rw [hcn]
    cases findDataT w c <;> simp [Bool.and_comm]

/-- Evicting a leaf node deletes exactly its entry from the named-images
list. -/
theorem namedImages_evict (w : World) (f m p : Nat) (key : String)
    (d : NodeData) (hnd : (nidsOfT w).Nodup) (hroot : w.rootNat ≠ m)
    (hsub : subtreeT w m = some (.node m d []))
    (hpm : m ≠ p) (hpmem : p ∉ nidsOfT w) :
    namedImages (replaceT w m (leafP p)) f key =
      (namedImages w f key).filter (fun x => x != m) := by
  simp only [namedImages]
  rw [imagesOf_evict w f m p d hnd hroot hsub hpm,
    List.filter_filter, List.filter_filter]
  refine List.filter_congr ?_
  intro c hc
  by_cases hcm : c = m
  · subst hcm
    simp
  · have hcp : c ≠ p := fun hc2 =>
      hpmem (hc2 ▸ imagesOf_mem_nids w f c hc)
    have hcn : findDataT (replaceT w m (leafP p)) c = findDataT w c :=
      findData_replaceT w m (leafP p) (.node m d []) c hnd hsub
        (by simp [fun hc2 : c = m => hcm hc2])
        (by simp [leafP, fun hc2 : c = p => hcp hc2])
    rw [hcn]
    cases findDataT w c <;> simp [Bool.and_comm]

theorem elementsOf_nodup (w : World) (f : Nat)
    (hnd : (nidsOfT w).Nodup) : (elementsOf w f).Nodup := by
  simp only [elementsOf]
  split
  · split
    · exact hnd.sublist (walk_sublistT _ _ _ _)
    · exact List.Pairwise.nil
  · exact List.Pairwise.nil

theorem imagesOf_nodup (w : World) (f : Nat)
    (hnd : (nidsOfT w).Nodup) : (imagesOf w f).Nodup :=
  hnd.sublist (walk_sublistT _ _ _ _)

theorem formGroupMembers_nodup (w : World) (f : Nat) (key : String)
    (hnd : (nidsOfT w).Nodup) : (formGroupMembers w f key).Nodup := by
  simp only [formGroupMembers]
  cases hnc : namedControls w f key with
  | nil =>
    show (namedImages w f key).Nodup
    exact (imagesOf_nodup w f hnd).sublist (List.filter_sublist _)
  | cons c cs =>
    show (c :: cs).Nodup
    rw [← hnc]
    exact (elementsOf_nodup w f hnd).sublist (List.filter_sublist _)

/-- Removing the last element of a duplicate-free list by value. -/
theorem filter_ne_last (ms : List Nat) (i : Nat) (m : Nat)
    (h : ms.length = i + 1) (hnd : ms.Nodup) (hm : ms[i]? = some m) :
    ms.filter (fun x => x != m) = ms.take i := by
  have hsplit : ms = ms.take i ++ [m] := by
    have h2 : ms.take (i + 1) = ms.take i ++ ms[i]?.toList := List.take_succ
    rw [List.take_of_length_le (by omega), hm] at h2
    simpa using h2
  have hnotin : m ∉ ms.take i := by
    intro hc
    rw [hsplit] at hnd
    rcases List.nodup_append.1 hnd with ⟨_, _, hdisj⟩
    exact hdisj hc (List.mem_singleton_self m)
  rw [hsplit, List.filter_append]
  have h1 : (ms.take i).filter (fun x => x != m) = ms.take i :=
    List.filter_eq_self.2 (fun a ha => by
      simp only [bne_iff_ne, ne_eq, decide_eq_true_eq]
      exact fun hc => hnotin (hc ▸ ha))
  rw [h1]
  have hlen2 : i ≤ (List.take i ms).length := by
    simp only [List.length_take]
    omega
  rw [List.take_append_of_le_length hlen2, List.take_take]
  simp

/-- A member of a live form named group is a control- or image-kinded node
of the current tree. -/
theorem formGroupMembers_kind (w : World) (f m : Nat) (key : String)
    (hnd : (nidsOfT w).Nodup) (hm : m ∈ formGroupMembers w f key) :
    ∃ d, findDataT w m = some d ∧ (d.kind = .control ∨ d.kind = .image) := by
  revert hm
  simp only [formGroupMembers]
  cases hnc : namedControls w f key with
  | nil =>
    intro hm
    have hmi : m ∈ imagesOf w f := (List.mem_filter.1 hm).1
    obtain ⟨dm, hdm, hk⟩ := imagesOf_image w f m hnd hmi
    exact ⟨dm, hdm, Or.inr hk⟩
  | cons c cs =>
    intro hm
    have hm' : m ∈ c :: cs := hm
    rw [← hnc] at hm'
    have hmc : m ∈ elementsOf w f := (List.mem_filter.1 hm').1
    obtain ⟨dm, hdm, hk⟩ := elementsOf_control w f m hnd hmc
    exact ⟨dm, hdm, Or.inl hk⟩

/-- With every id of the tree below the fresh source, snapshots below any
match are trivially placeholder-free. -/
theorem phClean_init (st : St) (hwf : WfSt st) (dn : Nat) (key : String)
    (k : Nat) : PhClean st.fresh dn key k st.world := by
  intro j y hkj hget suby hsub q hq
  exact hwf.2.1 q ((subtreeT_facts st.world y suby hsub).2.2 q hq)

/-- The `while` loop of `sanitizeIndices` on an arbitrary live value
produces an eviction chain whose snapshots are placeholder-free: members of
a controls collection or of a form named group are childless controls or
images, members of a document named group are governed by the pre-order
invariant, and any other value has live length zero so the loop exits at
once. -/
theorem indicesLoop_bound_spec (live : Value) (k fresh0 : Nat) :
    ∀ (n : Nat) (st : St) (entries : List (Nat × Nat × Tree)) (st1 : St),
      WfSt st → fresh0 ≤ st.fresh → ctlImgBound fresh0 st.world →
      (∀ dn gk, live = .docNamedGroup dn gk →
        PhClean fresh0 dn gk k st.world) →
      indicesLoop live k n st = (.ok entries, st1) →
      EvChain st entries st1 ∧
        ∀ x ∈ entries, (∀ q ∈ nidsOfT x.2.2, q < fresh0) ∧ x.1 < fresh0
  | 0, st, entries, st1, _, _, _, _, h => by simp [indicesLoop] at h
  | n + 1, st, entries, st1, hwf, hfr, hbd, hph, h => by
    simp only [indicesLoop] at h
    split at h
    · rename_i hlen
      split at h
      · rename_i e hv
        split at h
        · rename_i rest st2 hrec
          cases h
          have hstep : (∀ q ∈ nidsOfT (evictStep st e).2.2, q < fresh0) ∧
              e < fresh0 ∧
              (∀ dn gk, live = .docNamedGroup dn gk →
                PhClean fresh0 dn gk k (evictStep st e).1.world) := by
            cases live with
            | controlsCollection f =>
              have hget : (elementsOf st.world f)[k]? = some e := by
                simp only [collIndexV, collIndex] at hv
                split at hv
                · rename_i c hc
                  cases hv
                  exact hc
                · cases hv
              have hemem : e ∈ elementsOf st.world f :=
                List.getElem?_mem hget
              obtain ⟨d, hd, hdk⟩ := elementsOf_control st.world f e hwf.1
                hemem
              have hsub : subtreeT st.world e = some (.node e d []) :=
                flat_subtree_leafT st.world e d hwf.2.2 hd (Or.inl hdk)
              have hbde : e < fresh0 := hbd e d hd (Or.inl hdk)
              refine ⟨?_, hbde, ?_⟩
              · intro q hq
                rw [evictStep_sub, hsub] at hq
                simp only [Option.getD_some, nidsOfT_node, nidsOfF_nil,
                  List.mem_singleton] at hq
                omega
              · intro dn2 gk2 hcc
                cases hcc
            | formNamedGroup f gk =>
              have hget : (formGroupMembers st.world f gk)[k]? = some e := by
                simp only [collIndexV, groupMembers] at hv
                split at hv
                · rename_i c hc
                  cases hv
                  exact hc
                · cases hv
              have hemem : e ∈ formGroupMembers st.world f gk :=
                List.getElem?_mem hget
              obtain ⟨d, hd, hdk⟩ := formGroupMembers_kind st.world f e gk
                hwf.1 hemem
              have hsub : subtreeT st.world e = some (.node e d []) :=
                flat_subtree_leafT st.world e d hwf.2.2 hd hdk
              have hbde : e < fresh0 := hbd e d hd hdk
              refine ⟨?_, hbde, ?_⟩
              · intro q hq
                rw [evictStep_sub, hsub] at hq
                simp only [Option.getD_some, nidsOfT_node, nidsOfF_nil,
                  List.mem_singleton] at hq
                omega
              · intro dn2 gk2 hcc
                cases hcc
            | docNamedGroup dn gk =>
              have hget : (docNamedMatches st.world dn gk)[k]? = some e := by
                simp only [collIndexV, groupMembers] at hv
                split at hv
                · rename_i c hc
                  cases hv
                  exact hc
                · cases hv
              obtain ⟨h1, h2, h3⟩ := docMatches_evict_at dn gk fresh0 k st e
                hwf (hph dn gk rfl) hget
              refine ⟨h1, h2, ?_⟩
              intro dn2 gk2 hcc
              cases hcc
              exact h3
            | undef => exact absurd hlen (by simp [collLength])
            | vnull => exact absurd hlen (by simp [collLength])
            | str s => exact absurd hlen (by simp [collLength])
            | bool b => exact absurd hlen (by simp [collLength])
            | node nid => exact absurd hlen (by simp [collLength])
            | window fr => exact absurd hlen (by simp [collLength])
            | strList ks => exact absurd hlen (by simp [collLength])
          obtain ⟨hq1, hq2, hq3⟩ := hstep
          obtain ⟨hchain, hfacts⟩ := indicesLoop_bound_spec live k fresh0 n
            (evictStep st e).1 rest st1 (evictStep_wf st e hwf)
            (by rw [evictStep_fresh]; omega)
            (ctlImgBound_evict fresh0 st e hwf.1 hbd) hq3 hrec
          refine ⟨EvChain.cons st e rest st1 hchain, ?_⟩
          intro x hx
          rcases List.mem_cons.1 hx with hx | hx
          · subst hx
            exact ⟨hq1, hq2⟩
          · exact hfacts x hx
        · simp at h
      · simp at h
    · cases h
      exact ⟨EvChain.nil st, by intro x hx; cases hx⟩

/-- On normal exit of the `while` loop the live length no longer exceeds
the requested index. -/
theorem indicesLoop_exit (live : Value) (k : Nat) :
    ∀ (n : Nat) (st : St) (entries : List (Nat × Nat × Tree)) (st1 : St),
      indicesLoop live k n st = (.ok entries, st1) →
      collLength st1.world live ≤ k
  | 0, st, entries, st1, h => by simp [indicesLoop] at h
  | n + 1, st, entries, st1, h => by
    simp only [indicesLoop] at h
    split at h
    · split at h
      · split at h
        · rename_i rest st2 hrec
          cases h
          exact indicesLoop_exit live k n _ rest st1 hrec
        · simp at h
      · simp at h
    · rename_i hlen
      cases h
      omega

/-- `sanitizeIndices` preserves the frame at any abstraction on every
normal return, whatever value the sanitized `elements` fetch produced: the
loop's snapshots are placeholder-free, so the forward restoration commutes
to the reverse one and reinstalls the original tree exactly. -/
theorem sanitizeIndices_frame_any (g : World → World) (hg : GProto g)
    (cb : Cb) (hcbS : CbWorld stripT cb) (hcbG : CbWorld g cb)
    (fuel : Nat) (st : St) (form : Value) (property : String) (arg v : Value)
    (st' : St) (hwf : WfSt st)
    (heq : sanitizeIndices (fuel + 1) cb st form property arg =
      (.ok v, st')) :
    Frames g st st' := by
  simp only [sanitizeIndices] at heq
  split at heq
  · simp at heq
  · rename_i fe st1 hfetch
    have hfr1 : Frames g st st1 :=
      (master_frame g hg fuel getProperty (cbWorld_getProperty _)
        (cbWorld_getProperty _)).1 st form "elements" .undef fe st1 hwf
        (by decide) hfetch
    have hwf1 : WfSt st1 := hfr1.2.2.1
    split at heq
    · simp at heq
    · rename_i entries st2 hloop
      split at heq
      · simp at heq
      · rename_i v2 st3 hinv
        cases heq
        obtain ⟨hchain, hfacts⟩ := indicesLoop_bound_spec fe
          (toNatKey property) st1.fresh (fuel + 1) st1 entries st2 hwf1
          (le_refl _) (ctlImgBound_of_wf st1 hwf1)
          (fun dn gk _ => phClean_init st1 hwf1 dn gk (toNatKey property))
          hloop
        have hwf2 := evchain_wf hchain hwf1
        obtain ⟨hS3, hG3, hwf3, hfr3⟩ :=
          invokeCb_frame g cb hcbS hcbG st2 form property arg hwf2
        rw [hinv] at hS3 hG3 hwf3 hfr3
        have hpw := evchain_pairwise_bound hchain
          (fun x hx => (hfacts x hx).1)
        have hS3' : stripT st3.world = stripT st2.world := hS3
        have hG3' : g st3.world = g st2.world := hG3
        have hfr3' : st2.fresh ≤ st3.fresh := hfr3
        have hS1 : stripT (restoreSeq st3 entries).world =
            stripT st1.world := by
          rw [restoreSeq_world, restoreFold_reverse entries st3.world hpw]
          exact evchain_unwind stripT gproto_strip hchain hwf1 st3.world hS3'
        have hG1 : g (restoreSeq st3 entries).world = g st1.world := by
          rw [restoreSeq_world, restoreFold_reverse entries st3.world hpw]
          exact evchain_unwind g hg hchain hwf1 st3.world hG3'
        have hfr2pre := evchain_fresh hchain
        have hfr2 : st2.fresh = st1.fresh + entries.length := hfr2pre
        have hfr1' : st.fresh ≤ st1.fresh := hfr1.2.2.2
        have hSfin : stripT (restoreSeq st3 entries).world =
            stripT st.world := hS1.trans hfr1.1
        have hGfin : g (restoreSeq st3 entries).world = g st.world :=
          hG1.trans hfr1.2.1
        refine ⟨hSfin, hGfin, ?_, ?_⟩
        · exact wf_of_strip _ st.world st.fresh hSfin hwf.1 hwf.2.1 hwf.2.2
            (by rw [restoreSeq_fresh]
                show st.fresh ≤ st3.fresh
                omega)
        · rw [restoreSeq_fresh]
          show st.fresh ≤ st3.fresh
          omega

/-- Every route of the sanitized form method — including the numeric-key
`sanitizeIndices` route — preserves the frame at any abstraction on every
normal return. -/
theorem formSanitizedMethod_frame_all (g : World → World) (hg : GProto g)
    (cb : Cb) (hcbS : CbWorld stripT cb) (hcbG : CbWorld g cb) (fuel : Nat)
    (st : St) (form : Value) (property : String) (arg v : Value) (st' : St)
    (hwf : WfSt st)
    (heq : formSanitizedMethod (fuel + 1) cb st form property arg =
      (.ok v, st')) :
    Frames g st st' := by
  simp only [formSanitizedMethod] at heq
  by_cases hdig : isDigits property = true
  · rw [if_pos hdig] at heq
    cases fuel with
    | zero => simp [sanitizeIndices] at heq
    | succ fuel2 =>
      exact sanitizeIndices_frame_any g hg cb hcbS hcbG fuel2 st form
        property arg v st' hwf heq
  · rw [if_neg (by simpa using hdig)] at heq
    exact (master_frame g hg fuel cb hcbS hcbG).2.1 st form property arg v
      st' hwf heq

/-- `delegate(callback)` for the six keyed operations preserves the
structural tree on every normal return, for every receiver and key. -/
theorem delegateOp_frame (cb : Cb) (hcb : CbWorld stripT cb) (fuel : Nat)
    (st : St) (obj : Value) (key : String) (arg v : Value) (st' : St)
    (hwf : WfSt st)
    (heq : delegateOp (fuel + 5) cb st obj key arg = (.ok v, st')) :
    stripT st'.world = stripT st.world := by
  simp only [delegateOp] at heq
  split at heq
  · exact (formSanitizedMethod_frame_all stripT gproto_strip cb hcb hcb
      (fuel + 4) st obj key arg v st' hwf heq).1
  · split at heq
    · exact ((master_frame stripT gproto_strip (fuel + 5) cb hcb
        hcb).2.2.2.1 st obj key arg v st' hwf heq).1
    · have hst : st'.world = (cb st.world obj key arg).2 :=
        (congrArg (fun p => p.2.world) heq).symm
      rw [hst]
      exact hcb st.world obj key arg

/-- C2: for every container node, key, and reflective operation (read,
write, has, getDescriptor, defineDescriptor, delete, ownKeys) of the
facade, if the operation returns normally then the structural tree — the
child lists, their order, and every node's identity and tag data — is
exactly what it was before the call (`stripT` forgets only the property
tables: fields and expandos). -/
theorem C2_frame_effect (op : OpTag) (fuel : Nat) (st : St) (obj : Value)
    (key : String) (arg v : Value) (st' : St) (hwf : WfSt st)
    (heq : facadeOp op (fuel + 5) st obj key arg = (.ok v, st')) :
    stripT st'.world = stripT st.world := by
  cases hop : op with
  | ownKeys =>
    rw [hop] at heq
    simp only [facadeOp, delegateOwnKeys] at heq
    split at heq
    · simp only [getFormOwnKeys] at heq
      exact (sanitizeIndices_frame_any stripT gproto_strip
        getFormOwnKeysCallback (cbWorld_getFormOwnKeysCallback _)
        (cbWorld_getFormOwnKeysCallback _) (fuel + 4) st obj "0" .undef v
        st' hwf heq).1
    · split at heq
      · simp only [getDocOwnKeys] at heq
        split at heq
        · split at heq
          · rename_i hfil
            cases heq
            exact (docOwnKeysFilter_frame stripT gproto_strip (fuel + 5) _
              st _ _ _ hwf hfil).1
          · simp at heq
        · simp at heq
      · simp at heq
  | read =>
    rw [hop] at heq
    exact delegateOp_frame (opCb .read) (cbWorld_opCb .read) fuel st obj key
      arg v st' hwf heq
  | write =>
    rw [hop] at heq
    exact delegateOp_frame (opCb .write) (cbWorld_opCb .write) fuel st obj
      key arg v st' hwf heq
  | has =>
    rw [hop] at heq
    exact delegateOp_frame (opCb .has) (cbWorld_opCb .has) fuel st obj key
      arg v st' hwf heq
  | getDesc =>
    rw [hop] at heq
    exact delegateOp_frame (opCb .getDesc) (cbWorld_opCb .getDesc) fuel st
      obj key arg v st' hwf heq
  | defineDesc =>
    rw [hop] at heq
    exact delegateOp_frame (opCb .defineDesc) (cbWorld_opCb .defineDesc)
      fuel st obj key arg v st' hwf heq
  | del =>
    rw [hop] at heq
    exact delegateOp_frame (opCb .del) (cbWorld_opCb .del) fuel st obj key
      arg v st' hwf heq

/-- Witness for C2: a concrete shadowed form read returns normally and the
structural tree is unchanged. -/
theorem C2_frame_effect_witness :
    stripT (facadeOp .read 20 (initSt wCls) (.node 1) "className"
      .undef).2.world = stripT (initSt wCls).world :=
  C2_frame_effect .read 15 (initSt wCls) (.node 1) "className" .undef
    (.str "hello") (facadeOp .read 20 (initSt wCls) (.node 1) "className"
      .undef).2 ⟨by decide, by decide, by decide⟩ rfl

/-- The eviction loop of `sanitizeCollection` on a form named group: it
walks the live members from the last index down, so it evicts exactly the
members in reverse structural order. -/
theorem sanCollEvict_members (f : Nat) (key : String) :
    ∀ (i : Nat) (st : St), WfSt st →
      (∃ df, findDataT st.world f = some df ∧ df.kind = .form) →
      (1 ≤ i → (formGroupMembers st.world f key).length = i) →
      ∃ entries st1,
        sanCollEvict (.formNamedGroup f key) i st = (.ok entries, st1) ∧
        entries.map Prod.fst =
          ((formGroupMembers st.world f key).take i).reverse
  | 0, st, _, _, _ => ⟨[], st, rfl, by simp⟩
  | i + 1, st, hwf, hf, hlen => by
    obtain ⟨df, hdf, hdfk⟩ := hf
    have hL : (formGroupMembers st.world f key).length = i + 1 :=
      hlen (by omega)
    have hiL : i < (formGroupMembers st.world f key).length := by omega
    obtain ⟨m, hmget⟩ : ∃ m, (formGroupMembers st.world f key)[i]? = some m :=
      ⟨_, List.getElem?_eq_getElem hiL⟩
    have hkind : ∃ dm, findDataT st.world m = some dm ∧
        (dm.kind = .control ∨ dm.kind = .image) := by
      have hmem : m ∈ formGroupMembers st.world f key :=
        List.getElem?_mem hmget
      revert hmem
      simp only [formGroupMembers]
      cases hnc : namedControls st.world f key with
      | nil =>
        intro hmem
        have hmem' : m ∈ namedImages st.world f key := hmem
        have hmi : m ∈ imagesOf st.world f := (List.mem_filter.1 hmem').1
        obtain ⟨dm, hdm, hk⟩ := imagesOf_image st.world f m hwf.1 hmi
        exact ⟨dm, hdm, Or.inr hk⟩
      | cons c cs =>
        intro hmem
        have hmem' : m ∈ c :: cs := hmem
        rw [← hnc] at hmem'
        have hmc : m ∈ elementsOf st.world f := (List.mem_filter.1 hmem').1
        obtain ⟨dm, hdm, hk⟩ := elementsOf_control st.world f m hwf.1 hmc
        exact ⟨dm, hdm, Or.inl hk⟩
    obtain ⟨dm, hdm, hk⟩ := hkind
    have hsub : subtreeT st.world m = some (.node m dm []) :=
      flat_subtree_leafT st.world m dm hwf.2.2 hdm hk
    have hroot := member_ne_root st.world f m dm df hwf.2.2 hdm hk hdf hdfk
    have hmmem : m ∈ nidsOfT st.world := findData_some_memT hdm
    have hmlt : m < st.fresh := hwf.2.1 m hmmem
    have hfmem : f ∈ nidsOfT st.world := findData_some_memT hdf
    have hflt : f < st.fresh := hwf.2.1 f hfmem
    have hpmem : st.fresh ∉ nidsOfT st.world := fresh_not_mem st hwf
    have hpm : m ≠ st.fresh := fun hc => lt_irrefl _ (hc ▸ hmlt)
    have hpf : st.fresh ≠ f := fun hc => lt_irrefl _ (hc ▸ hflt)
    have hmf : m ≠ f := by
      intro hc
      rw [hc, hdf] at hdm
      have hdd : dm = df := by
        injection hdm with hdd2
        exact hdd2.symm
      rw [hdd, hdfk] at hk
      rcases hk with hk | hk <;> cases hk
    have hcoll : collIndexV st.world (.formNamedGroup f key) i = .node m := by
      simp only [collIndexV, groupMembers, hmget]
    have hnc_evict : namedControls (evictStep st m).1.world f key =
        (namedControls st.world f key).filter (fun x => x != m) := by
      rw [evictStep_world]
      exact namedControls_evict st.world f m st.fresh key dm hwf.1 hroot hsub
        hmf hpf hpm hpmem
    have hni_evict : namedImages (evictStep st m).1.world f key =
        (namedImages st.world f key).filter (fun x => x != m) := by
      rw [evictStep_world]
      exact namedImages_evict st.world f m st.fresh key dm hwf.1 hroot hsub
        hpm hpmem
    have hf' : findDataT (evictStep st m).1.world f = some df := by
      rw [evictStep_world,
        findData_replaceT st.world m (leafP st.fresh) (.node m dm []) f hwf.1
          hsub (by simp; exact fun hc => hmf hc.symm)
          (by simp [leafP]; exact fun hc => hpf hc.symm)]
      exact hdf
    have hnodup := formGroupMembers_nodup st.world f key hwf.1
    have hmembers : 1 ≤ i →
        formGroupMembers (evictStep st m).1.world f key =
          (formGroupMembers st.world f key).take i := by
      intro hpos
      cases hnc : namedControls st.world f key with
      | nil =>
        have hgm : formGroupMembers st.world f key =
            namedImages st.world f key := by
          simp only [formGroupMembers, hnc]
        have h1 : namedControls (evictStep st m).1.world f key = [] := by
          rw [hnc_evict, hnc]
          rfl
        have h2 : formGroupMembers (evictStep st m).1.world f key =
            namedImages (evictStep st m).1.world f key := by
          simp only [formGroupMembers, h1]
        rw [h2, hni_evict, ← hgm]
        exact filter_ne_last _ i m hL hnodup hmget
      | cons c cs =>
        have hgm : formGroupMembers st.world f key =
            namedControls st.world f key := by
          simp only [formGroupMembers, hnc]
        have h1 : namedControls (evictStep st m).1.world f key =
            (formGroupMembers st.world f key).take i := by
          rw [hnc_evict, ← hgm]
          exact filter_ne_last _ i m hL hnodup hmget
        have hne : (formGroupMembers st.world f key).take i ≠ [] := by
          intro hc
          have hc0 : ((formGroupMembers st.world f key).take i).length = 0 :=
            by rw [hc]; rfl
          rw [List.length_take] at hc0
          omega
        cases h2 : namedControls (evictStep st m).1.world f key with
        | nil =>
          rw [h2] at h1
          exact absurd h1.symm hne
        | cons c' cs' =>
          have h3 : formGroupMembers (evictStep st m).1.world f key =
              c' :: cs' := by
            simp only [formGroupMembers, h2]
          rw [h3, ← h2, h1]
    have htake : (formGroupMembers (evictStep st m).1.world f key).take i =
        (formGroupMembers st.world f key).take i := by
      rcases Nat.eq_zero_or_pos i with hz | hpos
      · subst hz
        rfl
      · rw [hmembers hpos, List.take_take]
        simp
    obtain ⟨entries2, st1, hrec, hmap⟩ := sanCollEvict_members f key i
      (evictStep st m).1 (evictStep_wf st m hwf) ⟨df, hf', hdfk⟩
      (fun hpos => by
        rw [hmembers hpos, List.length_take]
        omega)
    refine ⟨(m, (evictStep st m).2.1, (evictStep st m).2.2) :: entries2, st1,
      ?_, ?_⟩
    · simp only [sanCollEvict, hcoll, hrec]
    · simp only [List.map_cons, hmap, htake]
      rw [List.take_succ, hmget]
      simp

/-- C4: on a form key whose observed value is a live group, the engine
evicts every member of the group in reverse structural order, each member
replaced by its own distinct placeholder, invokes the wrapped operation
exactly once in between — mutating operations included — restores the
members in forward structural order (the pushed entries walked from the
end), and the structural tree ends exactly as it began. -/
theorem C4_group_case (cb : Cb) (hcbS : CbWorld stripT cb) (st : St)
    (form : Value) (key : String)
    (arg v : Value) (st' : St) (hwf : WfSt st) (f : Nat)
    (hf : ∃ df, findDataT st.world f = some df ∧ df.kind = .form)
    (hlive : valGet st.world form key = .formNamedGroup f key)
    (heq : sanitizeCollection cb st form key arg = (.ok v, st')) :
    stripT st'.world = stripT st.world ∧
    ∃ entries st1 st2,
      sanCollEvict (.formNamedGroup f key)
        (formGroupMembers st.world f key).length st = (.ok entries, st1) ∧
      entries.map Prod.fst = (formGroupMembers st.world f key).reverse ∧
      entries.map (fun x => x.2.1) = List.range' st.fresh entries.length ∧
      invokeCb cb st1 form key arg = (.ok v, st2) ∧
      st' = restoreSeq st2 entries.reverse ∧
      st'.trace = st.trace ++ evictEvsOf entries ++ [.invoke form key] ++
        restoreEvsOf entries.reverse := by
  have hworld : stripT st'.world = stripT st.world :=
    (sanitizeCollection_frameG stripT gproto_strip cb hcbS hcbS st form key
      arg v st' hwf heq).1
  obtain ⟨entries, st1, hev, hmap⟩ := sanCollEvict_members f key
    (formGroupMembers st.world f key).length st hwf hf (fun _ => rfl)
  rw [List.take_length] at hmap
  have hlen : collLength st.world (Value.formNamedGroup f key) =
      (formGroupMembers st.world f key).length := rfl
  simp only [sanitizeCollection, hlive, hlen, hev] at heq
  split at heq
  · simp at heq
  · rename_i v2 st2 hinv
    cases heq
    have hchain := sanCollEvict_chain _ _ _ _ _ hev
    refine ⟨hworld, entries, st1, st2, hev, hmap, evchain_phs hchain, hinv,
      rfl, ?_⟩
    have ht2 : st2.trace = st1.trace ++ [Ev.invoke form key] := by
      have h := congrArg (fun p => p.2.trace) hinv
      simp only at h
      rw [← h]
      exact invokeCb_trace cb st1 form key arg
    rw [restoreSeq_trace, ht2, evchain_trace hchain]

/-- Witness for C4: two controls sharing the name `className`, under the
mutating `setProperty` operation; the group case runs and the structural
tree is restored bit for bit. -/
theorem C4_group_case_witness :
    stripT (sanitizeCollection setProperty (initSt wGrp) (.node 1)
      "className" (.str "x")).2.world = stripT (initSt wGrp).world :=
  (C4_group_case setProperty cbWorld_setProperty
    (initSt wGrp) (.node 1) "className" (.str "x") .undef
    (sanitizeCollection setProperty (initSt wGrp) (.node 1) "className"
      (.str "x")).2 ⟨by decide, by decide, by decide⟩ 1
    ⟨mkND .form "location" "" "" [("className", .str "hello")] [], rfl, rfl⟩
    rfl rfl).1

/-- An unshadowed `elements` slot holds a live controls collection. -/
theorem elements_cc (w : World) (form : Value)
    (helems : isFormElementsCollectionV (valGet w form "elements") = true) :
    ∃ f, valGet w form "elements" = .controlsCollection f := by
  revert helems
  cases valGet w form "elements" <;> intro h <;>
    simp [isFormElementsCollectionV] at h
  exact ⟨_, rfl⟩

/-- C5: for a form key other than `elements` that is among the reflective
own keys of the controls collection the detector's sanitized fetch of
`form.elements` produced — the fetch restores the tree, whether or not the
`elements` slot itself was shadowed — the form detector judges the key
shadowed exactly when the form's observable value under the key equals the
collection's lookup-by-name-or-id (`namedItem`) result or its
lookup-by-index (`item`) result. -/
theorem C5_detector_rule (fuel : Nat) (st : St) (form : Value)
    (property : String) (fE : Nat) (stF : St) (hwf : WfSt st)
    (hne : ¬property = "elements")
    (hfetch : formSanitizedMethod fuel getProperty st form "elements"
      .undef = (.ok (.controlsCollection fE), stF))
    (hown : hasOwnPropertyV st.world (.controlsCollection fE) property =
      true) :
    stF.world = st.world ∧
    formIsOverridden (fuel + 1) st form property =
      (.ok (valGet st.world form property ==
          namedItemV st.world (.controlsCollection fE) property ||
        valGet st.world form property ==
          itemMethodV st.world (.controlsCollection fE) property),
       stF) := by
  have hW : stF.world = st.world :=
    ((master_frame id gproto_id fuel getProperty (cbWorld_getProperty _)
      (cbWorld_getProperty _)).1 st form "elements" .undef _ stF hwf
      (by decide) hfetch).2.1
  refine ⟨hW, ?_⟩
  simp only [formIsOverridden, if_neg hne, hfetch]
  rw [hW, hown]
  simp only [Bool.not_true, Bool.false_eq_true, if_false]

/-- Witness for C5: the control named `className` is judged shadowing on a
concrete form, the observable value being the collection's `namedItem`. -/
theorem C5_detector_rule_witness :
    formIsOverridden 9 (initSt wCls) (.node 1) "className" =
      (.ok true,
       { initSt wCls with trace := [.invoke (.node 1) "elements"] }) := by
  have h := (C5_detector_rule 8 (initSt wCls) (.node 1) "className" 1
    { initSt wCls with trace := [.invoke (.node 1) "elements"] }
    ⟨by decide, by decide, by decide⟩ (by decide) rfl (by decide)).2
  rw [h]
  rfl

/-- C6: for a reflectively-own document key whose observed value is an
image-kind node, the document detector judges it shadowed exactly when the
image is rooted at the document and either its `name` equals the key, or
its `name` is non-empty (truthy) and its `id` equals the key.  An image
with an empty name never shadows via its `id`. -/
theorem C6_doc_image_rule (fuel : Nat) (st : St) (document : Value)
    (property : String) (i : Nat)
    (hown : hasOwnPropertyV st.world document property = true)
    (hv : valGet st.world document property = .node i)
    (hki : kindOf st.world i = some .image) :
    docIsOverridden (fuel + 2) st document property =
      (.ok (isRootV st.world document (.node i) &&
        (valGet st.world (.node i) "name" == .str property ||
         (truthy (valGet st.world (.node i) "name") &&
          valGet st.world (.node i) "id" == .str property))), st) := by
  have hform : isHtmlFormV st.world (.node i) = false := by
    simp [isHtmlFormV, kindOfV, hki]
  have hembed : (kindOfV st.world (.node i) == some Kind.embed) = false := by
    simp [kindOfV, hki]
  have hobj : (kindOfV st.world (.node i) == some Kind.objectEl) = false := by
    simp [kindOfV, hki]
  have himg : (kindOfV st.world (.node i) == some Kind.image) = true := by
    simp [kindOfV, hki]
  have hdoc : isDocumentV st.world (.node i) = false := by
    simp [isDocumentV, kindOfV, hki]
  have hsafe : ∀ k : String, safeGetProperty (fuel + 1) st (.node i) k =
      (.ok (valGet st.world (.node i) k), st) := by
    intro k
    simp only [safeGetProperty, hform, hdoc, Bool.false_eq_true, if_false]
  simp only [docIsOverridden, hown, Bool.not_true, Bool.false_eq_true,
    if_false, hv, hform, hembed, hobj, himg, Bool.false_or, if_true, hsafe]
  cases hr : isRootV st.world document (.node i) <;>
    cases hn : (valGet st.world (.node i) "name" == .str property) <;>
      cases ht : truthy (valGet st.world (.node i) "name") <;>
        simp [hr, hn, ht, hsafe]

/-- Witness for C6: a document image named `pic` with id `pid`; the key
`pic` is judged shadowed, and so is `pid` because the name is non-empty. -/
theorem C6_doc_image_rule_witness :
    docIsOverridden 9 (initSt wDocImg) (.node 0) "pic" = (.ok true,
      initSt wDocImg) ∧
    docIsOverridden 9 (initSt wDocImg) (.node 0) "pid" = (.ok true,
      initSt wDocImg) := by
  constructor
  · have h := C6_doc_image_rule 7 (initSt wDocImg) (.node 0) "pic" 1
      (by decide) (by decide) (by decide)
    rw [h]
    rfl
  · have h := C6_doc_image_rule 7 (initSt wDocImg) (.node 0) "pid" 1
      (by decide) (by decide) (by decide)
    rw [h]
    rfl

/-- Removing one element of a duplicate-free list by value. -/
theorem filter_ne_getElem (ms : List Nat) (k : Nat) (m : Nat)
    (hnd : ms.Nodup) (hm : ms[k]? = some m) :
    ms.filter (fun x => x != m) = ms.take k ++ ms.drop (k + 1) := by
  have hk : k < ms.length := by
    by_contra hc
    rw [List.getElem?_eq_none (by omega)] at hm
    cases hm
  have hsplit : ms = ms.take k ++ m :: ms.drop (k + 1) := by
    have h1 : ms = ms.take k ++ ms.drop k := (List.take_append_drop k ms).symm
    have h2 : ms.drop k = m :: ms.drop (k + 1) := by
      rw [List.drop_eq_getElem_cons hk]
      have : ms[k] = m := by
        have := List.getElem?_eq_getElem hk
        rw [hm] at this
        exact (Option.some.inj this).symm
      rw [this]
    rw [← h2]
    exact h1
  have hnotin1 : m ∉ ms.take k := by
    intro hc
    rw [hsplit] at hnd
    rcases List.nodup_append.1 hnd with ⟨_, _, hdisj⟩
    exact hdisj hc (List.mem_cons_self m _)
  have hnotin2 : m ∉ ms.drop (k + 1) := by
    intro hc
    rw [hsplit] at hnd
    rcases List.nodup_append.1 hnd with ⟨_, hnd2, _⟩
    exact (List.nodup_cons.1 hnd2).1 hc
  conv_lhs => rw [hsplit]
  rw [List.filter_append]
  have h1 : (ms.take k).filter (fun x => x != m) = ms.take k :=
    List.filter_eq_self.2 (fun a ha => by
      simp only [bne_iff_ne, ne_eq, decide_eq_true_eq]
      exact fun hc => hnotin1 (hc ▸ ha))
  have h2 : (m :: ms.drop (k + 1)).filter (fun x => x != m) =
      ms.drop (k + 1) := by
    rw [List.filter_cons]
    simp only [bne_self_eq_false, Bool.false_eq_true, if_false]
    exact List.filter_eq_self.2 (fun a ha => by
      simp only [bne_iff_ne, ne_eq, decide_eq_true_eq]
      exact fun hc => hnotin2 (hc ▸ ha))
  rw [h1, h2]

/-- One iteration of the `sanitizeIndices` loop when the live length still
exceeds the requested index. -/
theorem indicesLoop_step (live : Value) (k fuel : Nat) (st : St) (e : Nat)
    (hcond : collLength st.world live > k)
    (hidx : collIndexV st.world live k = .node e) :
    indicesLoop live k (fuel + 1) st =
      (match indicesLoop live k fuel (evictStep st e).1 with
       | (.ok rest, st2) => (.ok ((e, (evictStep st e).2.1,
           (evictStep st e).2.2) :: rest), st2)
       | (.error ex, st2) => (.error ex, st2)) := by
  simp only [indicesLoop, if_pos hcond, hidx]

/-- The `while` loop of `sanitizeIndices` on the real controls collection:
it re-reads the item at `requestedIndex` after each removal, so it evicts
exactly the controls from `requestedIndex` to the end, in ascending
original index order. -/
theorem indicesLoop_members (f k : Nat) :
    ∀ (fuel : Nat) (st : St), WfSt st →
      (∃ df, findDataT st.world f = some df ∧ df.kind = .form) →
      (elementsOf st.world f).length ≤ k + fuel →
      ∃ entries st1,
        indicesLoop (.controlsCollection f) k (fuel + 1) st =
          (.ok entries, st1) ∧
        entries.map Prod.fst = (elementsOf st.world f).drop k
  | 0, st, hwf, hf, hfuel => by
    refine ⟨[], st, ?_, ?_⟩
    · simp only [indicesLoop]
      rw [if_neg ?_]
      show ¬collLength st.world (.controlsCollection f) > k
      show ¬(elementsOf st.world f).length > k
      omega
    · rw [List.drop_eq_nil_of_le (by omega)]
      rfl
  | fuel + 1, st, hwf, hf, hfuel => by
    obtain ⟨df, hdf, hdfk⟩ := hf
    by_cases hlen : (elementsOf st.world f).length > k
    · obtain ⟨m, hmget⟩ : ∃ m, (elementsOf st.world f)[k]? = some m :=
        ⟨_, List.getElem?_eq_getElem hlen⟩
      have hmem : m ∈ elementsOf st.world f := List.getElem?_mem hmget
      obtain ⟨dm, hdm, hdk⟩ := elementsOf_control st.world f m hwf.1 hmem
      have hsub : subtreeT st.world m = some (.node m dm []) :=
        flat_subtree_leafT st.world m dm hwf.2.2 hdm (Or.inl hdk)
      have hroot := member_ne_root st.world f m dm df hwf.2.2 hdm
        (Or.inl hdk) hdf hdfk
      have hmmem : m ∈ nidsOfT st.world := findData_some_memT hdm
      have hmlt : m < st.fresh := hwf.2.1 m hmmem
      have hfmem : f ∈ nidsOfT st.world := findData_some_memT hdf
      have hflt : f < st.fresh := hwf.2.1 f hfmem
      have hpm : m ≠ st.fresh := fun hc => lt_irrefl _ (hc ▸ hmlt)
      have hpf : st.fresh ≠ f := fun hc => lt_irrefl _ (hc ▸ hflt)
      have hmf : m ≠ f := by
        intro hc
        rw [hc, hdf] at hdm
        have hdd : df = dm := by injection hdm
        rw [← hdd, hdfk] at hdk
        cases hdk
      have hcoll : collIndexV st.world (.controlsCollection f) k = .node m :=
        by simp only [collIndexV, collIndex, hmget]
      have hels : elementsOf (evictStep st m).1.world f =
          (elementsOf st.world f).take k ++
            (elementsOf st.world f).drop (k + 1) := by
        rw [evictStep_world,
          elementsOf_evict st.world f m st.fresh dm hwf.1 hroot hsub hmf hpf
            hpm,
          filter_ne_getElem _ k m (elementsOf_nodup st.world f hwf.1) hmget]
      have hf' : findDataT (evictStep st m).1.world f = some df := by
        rw [evictStep_world,
          findData_replaceT st.world m (leafP st.fresh) (.node m dm []) f
            hwf.1 hsub (by simp; exact fun hc => hmf hc.symm)
            (by simp [leafP]; exact fun hc => hpf hc.symm)]
        exact hdf
      obtain ⟨entries2, st1, hrec, hmap⟩ := indicesLoop_members f k fuel
        (evictStep st m).1 (evictStep_wf st m hwf) ⟨df, hf', hdfk⟩
        (by
          rw [hels, List.length_append, List.length_take, List.length_drop]
          omega)
      refine ⟨(m, (evictStep st m).2.1, (evictStep st m).2.2) :: entries2,
        st1, ?_, ?_⟩
      · rw [indicesLoop_step (.controlsCollection f) k (fuel + 1) st m hlen
          hcoll, hrec]
      · simp only [List.map_cons, hmap, hels]
        rw [List.drop_append_of_le_length (by
          rw [List.length_take]
          omega)]
        have htk : ((elementsOf st.world f).take k).drop k = [] :=
          List.drop_eq_nil_of_le (by rw [List.length_take]; omega)
        rw [htk, List.nil_append,
          List.drop_eq_getElem_cons hlen]
        have hgm : (elementsOf st.world f)[k] = m := by
          have h := List.getElem?_eq_getElem hlen
          rw [hmget] at h
          exact (Option.some.inj h).symm
        rw [hgm]
    · refine ⟨[], st, ?_, ?_⟩
      · simp only [indicesLoop]
        rw [if_neg ?_]
        show ¬collLength st.world (.controlsCollection f) > k
        show ¬(elementsOf st.world f).length > k
        omega
      · rw [List.drop_eq_nil_of_le (by omega)]
        rfl

/-- A successful run of the `while` loop on the real controls collection
evicts exactly the control suffix from the requested index, whatever fuel
made it succeed. -/
theorem indicesLoop_members_of_ok (f k : Nat) :
    ∀ (n : Nat) (st : St) (entries : List (Nat × Nat × Tree)) (st1 : St),
      WfSt st → (∃ df, findDataT st.world f = some df ∧ df.kind = .form) →
      indicesLoop (.controlsCollection f) k n st = (.ok entries, st1) →
      entries.map Prod.fst = (elementsOf st.world f).drop k
  | 0, st, entries, st1, _, _, h => by simp [indicesLoop] at h
  | n + 1, st, entries, st1, hwf, hf, h => by
    obtain ⟨df, hdf, hdfk⟩ := hf
    simp only [indicesLoop] at h
    split at h
    · rename_i hlen0
      have hlen : (elementsOf st.world f).length > k := hlen0
      split at h
      · rename_i e hv
        split at h
        · rename_i rest st2 hrec
          cases h
          have hmget : (elementsOf st.world f)[k]? = some e := by
            simp only [collIndexV, collIndex] at hv
            split at hv
            · rename_i c hc
              cases hv
              exact hc
            · cases hv
          have hmem : e ∈ elementsOf st.world f := List.getElem?_mem hmget
          obtain ⟨dm, hdm, hdk⟩ := elementsOf_control st.world f e hwf.1
            hmem
          have hsub : subtreeT st.world e = some (.node e dm []) :=
            flat_subtree_leafT st.world e dm hwf.2.2 hdm (Or.inl hdk)
          have hroot := member_ne_root st.world f e dm df hwf.2.2 hdm
            (Or.inl hdk) hdf hdfk
          have hmmem : e ∈ nidsOfT st.world := findData_some_memT hdm
          have hmlt : e < st.fresh := hwf.2.1 e hmmem
          have hfmem : f ∈ nidsOfT st.world := findData_some_memT hdf
          have hflt : f < st.fresh := hwf.2.1 f hfmem
          have hpm : e ≠ st.fresh := fun hc => lt_irrefl _ (hc ▸ hmlt)
          have hpf : st.fresh ≠ f := fun hc => lt_irrefl _ (hc ▸ hflt)
          have hmf : e ≠ f := by
            intro hc
            rw [hc, hdf] at hdm
            have hdd : df = dm := by injection hdm
            rw [← hdd, hdfk] at hdk
            cases hdk
          have hels : elementsOf (evictStep st e).1.world f =
              (elementsOf st.world f).take k ++
                (elementsOf st.world f).drop (k + 1) := by
            rw [evictStep_world,
              elementsOf_evict st.world f e st.fresh dm hwf.1 hroot hsub hmf
                hpf hpm,
              filter_ne_getElem _ k e (elementsOf_nodup st.world f hwf.1)
                hmget]
          have hf' : findDataT (evictStep st e).1.world f = some df := by
            rw [evictStep_world,
              findData_replaceT st.world e (leafP st.fresh) (.node e dm [])
                f hwf.1 hsub (by simp; exact fun hc => hmf hc.symm)
                (by simp [leafP]; exact fun hc => hpf hc.symm)]
            exact hdf
          have hmap := indicesLoop_members_of_ok f k n (evictStep st e).1
            rest st1 (evictStep_wf st e hwf) ⟨df, hf', hdfk⟩ hrec
          simp only [List.map_cons, hmap, hels]
          rw [List.drop_append_of_le_length (by
            rw [List.length_take]
            omega)]
          have htk : ((elementsOf st.world f).take k).drop k = [] :=
            List.drop_eq_nil_of_le (by rw [List.length_take]; omega)
          rw [htk, List.nil_append, List.drop_eq_getElem_cons hlen]
          have hgm : (elementsOf st.world f)[k] = e := by
            have h2 := List.getElem?_eq_getElem hlen
            rw [hmget] at h2
            exact (Option.some.inj h2).symm
          rw [hgm]
        · simp at h
      · simp at h
    · rename_i hlen0
      cases h
      have hle : ¬(elementsOf st.world f).length > k := hlen0
      rw [List.drop_eq_nil_of_le (by omega)]
      rfl

/-- The world after an eviction chain is the pure eviction fold. -/
theorem evchain_world {st : St} {entries : List (Nat × Nat × Tree)}
    {st1 : St} (h : EvChain st entries st1) :
    st1.world = evictList st.world entries := by
  induction h with
  | nil st => rfl
  | cons st e rest stEnd hrest ih =>
    simp only [evictList, evictStep_ph]
    rw [ih, evictStep_world]

theorem evictedNats_append (a b : List Ev) :
    evictedNats (a ++ b) = evictedNats a ++ evictedNats b :=
  List.filterMap_append a b _

theorem restoredNats_append (a b : List Ev) :
    restoredNats (a ++ b) = restoredNats a ++ restoredNats b :=
  List.filterMap_append a b _

theorem evictedNats_evictEvs (entries : List (Nat × Nat × Tree)) :
    evictedNats (evictEvsOf entries) = entries.map Prod.fst := by
  induction entries with
  | nil => rfl
  | cons x xs ih =>
    simp only [evictEvsOf, evictedNats, List.map_cons, List.filterMap_cons]
      at ih ⊢
    rw [← ih]

theorem evictedNats_restoreEvs (entries : List (Nat × Nat × Tree)) :
    evictedNats (restoreEvsOf entries) = [] := by
  induction entries with
  | nil => rfl
  | cons x xs ih =>
    simp only [restoreEvsOf, evictedNats, List.map_cons, List.filterMap_cons]
      at ih ⊢
    exact ih

theorem restoredNats_evictEvs (entries : List (Nat × Nat × Tree)) :
    restoredNats (evictEvsOf entries) = [] := by
  induction entries with
  | nil => rfl
  | cons x xs ih =>
    simp only [evictEvsOf, restoredNats, List.map_cons, List.filterMap_cons]
      at ih ⊢
    exact ih

theorem restoredNats_restoreEvs (entries : List (Nat × Nat × Tree)) :
    restoredNats (restoreEvsOf entries) = entries.map Prod.fst := by
  induction entries with
  | nil => rfl
  | cons x xs ih =>
    simp only [restoreEvsOf, restoredNats, List.map_cons, List.filterMap_cons]
      at ih ⊢
    rw [← ih]

theorem invokesOf_append (a b : List Ev) (recv : Value) (key : String) :
    invokesOf (a ++ b) recv key = invokesOf a recv key + invokesOf b recv key
  := by
  simp [invokesOf, List.filter_append]

theorem invokesOf_evictEvs (entries : List (Nat × Nat × Tree)) (recv : Value)
    (key : String) : invokesOf (evictEvsOf entries) recv key = 0 := by
  induction entries with
  | nil => rfl
  | cons x xs ih =>
    simp only [evictEvsOf, invokesOf, List.map_cons, List.filter_cons] at ih ⊢
    rw [show ((Ev.evict x.1 x.2.1 == Ev.invoke recv key)) = false from rfl]
    exact ih

theorem invokesOf_restoreEvs (entries : List (Nat × Nat × Tree))
    (recv : Value) (key : String) :
    invokesOf (restoreEvsOf entries) recv key = 0 := by
  induction entries with
  | nil => rfl
  | cons x xs ih =>
    simp only [restoreEvsOf, invokesOf, List.map_cons, List.filter_cons]
      at ih ⊢
    rw [show ((Ev.restore x.2.1 x.1 == Ev.invoke recv key)) = false from rfl]
    exact ih

/-- A full run of `sanitizeIndices` on a form with an unshadowed `elements`
slot: the fetch invokes once, the loop evicts exactly the control suffix
from the requested index, and the final restoration (when the callback
returns) undoes every eviction. -/
theorem sanitizeIndices_run (fuel : Nat) (cb : Cb) (st : St) (f : Nat)
    (key : String) (arg : Value) (hwf : WfSt st)
    (hfe : valGet st.world (.node f) "elements" = .controlsCollection f)
    (hfd : ∃ df, findDataT st.world f = some df ∧ df.kind = .form)
    (hfuel : (elementsOf st.world f).length ≤ toNatKey key + (fuel + 3)) :
    ∃ entries st2,
      indicesLoop (.controlsCollection f) (toNatKey key) (fuel + 4)
        { st with trace := st.trace ++ [.invoke (.node f) "elements"] } =
        (.ok entries, st2) ∧
      entries.map Prod.fst = (elementsOf st.world f).drop (toNatKey key) ∧
      EvChain { st with trace := st.trace ++ [.invoke (.node f) "elements"] }
        entries st2 ∧
      st2.world = evictList st.world entries ∧
      st2.trace = st.trace ++ [.invoke (.node f) "elements"] ++
        evictEvsOf entries ∧
      st2.fresh = st.fresh + entries.length ∧
      restoreFold st2.world entries = st.world ∧
      sanitizeIndices (fuel + 4) cb st (.node f) key arg =
        (match invokeCb cb st2 (.node f) key arg with
         | (.error ex, st3) => (.error ex, st3)
         | (.ok v, st3) => (.ok v, restoreSeq st3 entries)) := by
  have helems : isFormElementsCollectionV
      (valGet st.world (.node f) "elements") = true := by
    rw [hfe]
    rfl
  have hwf1 : WfSt { st with trace := st.trace ++
      [Ev.invoke (.node f) "elements"] } := hwf
  obtain ⟨entries, st2, hloop, hmap⟩ := indicesLoop_members f (toNatKey key)
    (fuel + 3)
    { st with trace := st.trace ++ [Ev.invoke (.node f) "elements"] } hwf1
    hfd hfuel
  obtain ⟨hchain, hleaf⟩ := indicesLoop_spec f (toNatKey key) st.fresh
    (fuel + 4) _ entries st2 hwf1 (ctlImgBound_of_wf st hwf) hloop
  have hworld := evchain_world hchain
  have hrestore : restoreFold st2.world entries = st.world := by
    have hpw := evchain_pairwise hchain hleaf
    rw [restoreFold_reverse entries st2.world hpw]
    exact evchain_unwind id gproto_id hchain hwf1 st2.world rfl
  have htr2 : st2.trace = st.trace ++ [Ev.invoke (.node f) "elements"] ++
      evictEvsOf entries := by
    have h := evchain_trace hchain
    exact h
  have hfr2pre := evchain_fresh hchain
  have hfr2 : st2.fresh = st.fresh + entries.length := hfr2pre
  refine ⟨entries, st2, hloop, hmap, hchain, hworld, htr2, hfr2, hrestore,
    ?_⟩
  have hstep : sanitizeIndices (fuel + 4) cb st (.node f) key arg =
      (match indicesLoop (.controlsCollection f) (toNatKey key) (fuel + 4)
          { st with trace := st.trace ++ [.invoke (.node f) "elements"] }
        with
       | (.error ex, st2) => (.error ex, st2)
       | (.ok entries2, st2) =>
         match invokeCb cb st2 (.node f) key arg with
         | (.error ex, st3) => (.error ex, st3)
         | (.ok v2, st3) => (.ok v2, restoreSeq st3 entries2)) := by
    simp only [sanitizeIndices]
    rw [elements_fetch fuel st (.node f) helems, hfe]
  rw [hstep, hloop]

theorem evictedNats_invoke (r : Value) (k : String) :
    evictedNats [Ev.invoke r k] = [] := rfl

theorem restoredNats_invoke (r : Value) (k : String) :
    restoredNats [Ev.invoke r k] = [] := rfl

/-- Counterexample to C1 as stated: on a form with three controls (indices
0, 1, 2), `read(form, "1")` does not evict indices 0 up to 1 — it evicts
the suffix from index 1 to the end, and restores in eviction order, not
reverse. -/
theorem C1_index_eviction_counterexample :
    ¬ C1claimAt (initSt wIdx) 20 1 "1" := by
  simp only [C1claimAt]
  decide

/-- C1 (amended): for a numeric key on a form whose `elements` slot is
unshadowed, the engine evicts exactly the controls from the requested
index to the end of the collection, in ascending index order (re-reading
the live item at the requested index each time), invokes the wrapped
operation exactly once, restores the evicted controls in their eviction
(forward) order, and the tree ends exactly as it began. -/
theorem C1_index_eviction (fuel : Nat) (st : St) (f : Nat) (key : String)
    (hwf : WfSt st) (htr : st.trace = []) (hdig : isDigits key = true)
    (hform : isHtmlFormV st.world (.node f) = true)
    (hfe : valGet st.world (.node f) "elements" = .controlsCollection f)
    (hfuel : (elementsOf st.world f).length ≤ toNatKey key + (fuel + 3)) :
    evictedNats (delegateOp (fuel + 5) getProperty st (.node f) key
        .undef).2.trace = (elementsOf st.world f).drop (toNatKey key) ∧
    restoredNats (delegateOp (fuel + 5) getProperty st (.node f) key
        .undef).2.trace = (elementsOf st.world f).drop (toNatKey key) ∧
    invokesOf (delegateOp (fuel + 5) getProperty st (.node f) key
        .undef).2.trace (.node f) key = 1 ∧
    (delegateOp (fuel + 5) getProperty st (.node f) key .undef).2.world =
      st.world := by
  have hfd : ∃ df, findDataT st.world f = some df ∧ df.kind = .form := by
    have h : (kindOfV st.world (.node f) == some Kind.form) = true := hform
    simp only [kindOfV, kindOf] at h
    cases hdf : findDataT st.world f with
    | none =>
      rw [hdf] at h
      simp at h
    | some d =>
      rw [hdf] at h
      simp at h
      exact ⟨d, rfl, h⟩
  obtain ⟨entries, st2, hloop, hmap, hchain, hworld, htr2, hfr2, hrestore,
    hrun⟩ := sanitizeIndices_run fuel getProperty st f key .undef hwf hfe
    hfd hfuel
  have hne : ¬(Ev.invoke (Value.node f) "elements" ==
      Ev.invoke (Value.node f) key) = true := by
    intro hc
    rw [beq_iff_eq] at hc
    have hkey : key = "elements" := by
      injection hc with h1 h2
      exact h2.symm
    rw [hkey] at hdig
    cases hdig
  have hred : delegateOp (fuel + 5) getProperty st (.node f) key .undef =
      sanitizeIndices (fuel + 4) getProperty st (.node f) key .undef := by
    simp only [delegateOp]
    rw [if_pos hform]
    simp only [formSanitizedMethod]
    rw [if_pos hdig]
  have hfinal : (match invokeCb getProperty st2 (.node f) key .undef with
       | (.error ex, st3) => (.error ex, st3)
       | (.ok v, st3) => (.ok v, restoreSeq st3 entries)) =
      ((.ok (valGet st2.world (.node f) key) : Res),
       restoreSeq { st2 with trace := st2.trace ++ [.invoke (.node f) key] }
         entries) := rfl
  rw [hred, hrun, hfinal]
  have htrF : (restoreSeq { st2 with trace := st2.trace ++
        [Ev.invoke (.node f) key] } entries).trace =
      [Ev.invoke (Value.node f) "elements"] ++ evictEvsOf entries ++
        [Ev.invoke (Value.node f) key] ++ restoreEvsOf entries := by
    rw [restoreSeq_trace]
    show st2.trace ++ [Ev.invoke (Value.node f) key] ++
        restoreEvsOf entries = _
    rw [htr2, htr]
    simp [List.append_assoc]
  refine ⟨?_, ?_, ?_, ?_⟩
  · show evictedNats (restoreSeq { st2 with trace := st2.trace ++
        [Ev.invoke (.node f) key] } entries).trace = _
    rw [htrF]
    simp only [evictedNats_append, evictedNats_evictEvs,
      evictedNats_restoreEvs, evictedNats_invoke, hmap]
    simp
  · show restoredNats (restoreSeq { st2 with trace := st2.trace ++
        [Ev.invoke (.node f) key] } entries).trace = _
    rw [htrF]
    simp only [restoredNats_append, restoredNats_evictEvs,
      restoredNats_restoreEvs, restoredNats_invoke, hmap]
    simp
  · show invokesOf (restoreSeq { st2 with trace := st2.trace ++
        [Ev.invoke (.node f) key] } entries).trace (.node f) key = 1
    rw [htrF]
    simp only [invokesOf_append, invokesOf_evictEvs, invokesOf_restoreEvs]
    have h1 : invokesOf [Ev.invoke (Value.node f) "elements"] (.node f) key
        = 0 := by
      simp [invokesOf, List.filter, hne]
    have h2 : invokesOf [Ev.invoke (Value.node f) key] (.node f) key = 1 :=
      by simp [invokesOf, List.filter]
    rw [h1, h2]
  · show (restoreSeq { st2 with trace := st2.trace ++
        [Ev.invoke (.node f) key] } entries).world = st.world
    rw [restoreSeq_world]
    exact hrestore

/-- Witness for the amended C1: `read(form, "1")` on three controls evicts
nodes 3 and 4 (indices 1 and 2), restores them in the same order, invokes
once, and restores the world. -/
theorem C1_index_eviction_witness :
    evictedNats (delegateOp 20 getProperty (initSt wIdx) (.node 1) "1"
        .undef).2.trace = [3, 4] ∧
    restoredNats (delegateOp 20 getProperty (initSt wIdx) (.node 1) "1"
        .undef).2.trace = [3, 4] ∧
    invokesOf (delegateOp 20 getProperty (initSt wIdx) (.node 1) "1"
        .undef).2.trace (.node 1) "1" = 1 ∧
    (delegateOp 20 getProperty (initSt wIdx) (.node 1) "1" .undef).2.world =
      (initSt wIdx).world := by
  have h := C1_index_eviction 15 (initSt wIdx) 1 "1"
    ⟨by decide, by decide, by decide⟩ rfl (by decide) (by decide) (by decide)
    (by decide)
  have hds : List.drop (toNatKey "1") (elementsOf (initSt wIdx).world 1) =
      [3, 4] := by decide
  rw [hds] at h
  exact h

/-- C10: `ownKeys(form)` runs the index-eviction routine with requested
index 0 on whatever value the sanitized `elements` fetch produced: the
loop evicts until the live collection is exhausted, the raw key
enumeration runs inside the eviction window, every evicted node is
restored (in eviction order) before the call returns, and the tree ends
exactly as it began; when the fetch yields the form's own controls
collection, the evicted nodes are exactly its controls, so no key induced
by control exposure survives in the result. -/
theorem C10_form_ownkeys (fuel : Nat) (st : St) (f : Nat) (v : Value)
    (st' : St) (hwf : WfSt st)
    (hform : isHtmlFormV st.world (.node f) = true)
    (heq : delegateOwnKeys (fuel + 1) st (.node f) = (.ok v, st')) :
    ∃ E st1 entries st2,
      formSanitizedMethod fuel getProperty st (.node f) "elements" .undef =
        (.ok E, st1) ∧
      st1.world = st.world ∧
      indicesLoop E 0 (fuel + 1) st1 = (.ok entries, st2) ∧
      collLength st2.world E = 0 ∧
      v = .strList (formOwnKeysFn st2.world f) ∧
      st'.world = st.world ∧
      st'.trace = st2.trace ++ [.invoke (.node f) "0"] ++
        restoreEvsOf entries ∧
      restoredNats (restoreEvsOf entries) = entries.map Prod.fst ∧
      (E = .controlsCollection f →
        entries.map Prod.fst = elementsOf st.world f) := by
  rw [show delegateOwnKeys (fuel + 1) st (.node f) =
      getFormOwnKeys (fuel + 1) st (.node f) from by
    simp only [delegateOwnKeys]
    rw [if_pos hform]] at heq
  simp only [getFormOwnKeys, sanitizeIndices] at heq
  rw [show toNatKey "0" = 0 from by decide] at heq
  split at heq
  · simp at heq
  · rename_i E st1 hfetch
    have hfr1 := (master_frame id gproto_id fuel getProperty
      (cbWorld_getProperty _) (cbWorld_getProperty _)).1 st (.node f)
      "elements" .undef E st1 hwf (by decide) hfetch
    have hw1 : st1.world = st.world := hfr1.2.1
    have hwf1 : WfSt st1 := hfr1.2.2.1
    split at heq
    · simp at heq
    · rename_i entries st2 hloop
      have hcomp : invokeCb getFormOwnKeysCallback st2 (.node f) "0"
          .undef = (.ok (.strList (formOwnKeysFn st2.world f)),
            { st2 with
              trace := st2.trace ++ [.invoke (.node f) "0"] }) := rfl
      split at heq
      · rename_i ex st3 hinv
        exfalso
        rw [hcomp] at hinv
        have h2 := congrArg Prod.fst hinv
        simp at h2
      · rename_i v2 st3 hinv
        rw [hcomp] at hinv
        have hv2 : (.ok (.strList (formOwnKeysFn st2.world f)) : Res) =
            .ok v2 := congrArg Prod.fst hinv
        have hst3 : ({ st2 with
            trace := st2.trace ++ [.invoke (.node f) "0"] } : St) = st3 :=
          congrArg Prod.snd hinv
        have hv2' : v2 = .strList (formOwnKeysFn st2.world f) :=
          (Except.ok.inj hv2).symm
        cases heq
        obtain ⟨hchain, hfacts⟩ := indicesLoop_bound_spec E 0 st1.fresh
          (fuel + 1) st1 entries st2 hwf1 (le_refl _)
          (ctlImgBound_of_wf st1 hwf1)
          (fun dn gk _ => phClean_init st1 hwf1 dn gk 0) hloop
        have hpw := evchain_pairwise_bound hchain
          (fun x hx => (hfacts x hx).1)
        have hrestore : restoreFold st2.world entries = st1.world := by
          rw [restoreFold_reverse entries st2.world hpw]
          exact evchain_unwind id gproto_id hchain hwf1 st2.world rfl
        refine ⟨E, st1, entries, st2, hfetch, hw1, hloop,
          Nat.le_zero.mp (indicesLoop_exit E 0 (fuel + 1) st1 entries st2
            hloop), hv2', ?_, ?_, restoredNats_restoreEvs entries, ?_⟩
        · show (restoreSeq st3 entries).world = st.world
          rw [restoreSeq_world, ← hst3]
          show restoreFold st2.world entries = st.world
          rw [hrestore, hw1]
        · show (restoreSeq st3 entries).trace = st2.trace ++
            [.invoke (.node f) "0"] ++ restoreEvsOf entries
          rw [restoreSeq_trace, ← hst3]
        · intro hE
          subst hE
          have hfd : ∃ df, findDataT st1.world f = some df ∧
              df.kind = .form := by
            rw [hw1]
            have h2 : (kindOfV st.world (.node f) == some Kind.form) = true :=
              hform
            simp only [kindOfV, kindOf] at h2
            cases hdf : findDataT st.world f with
            | none =>
              rw [hdf] at h2
              simp at h2
            | some d =>
              rw [hdf] at h2
              simp at h2
              exact ⟨d, rfl, h2⟩
          have hmm := indicesLoop_members_of_ok f 0 (fuel + 1) st1 entries
            st2 hwf1 hfd hloop
          rw [List.drop_zero, hw1] at hmm
          exact hmm

/-- Witness for C10: `ownKeys` on a form with three controls: the fetch
yields the form's own collection, the loop exhausts it (evicting controls
2, 3, 4), the enumeration inside the window is empty, and the world is
restored. -/
theorem C10_form_ownkeys_witness :
    ∃ E st1 entries st2,
      formSanitizedMethod 18 getProperty (initSt wIdx) (.node 1) "elements"
        .undef = (.ok E, st1) ∧
      st1.world = (initSt wIdx).world ∧
      indicesLoop E 0 (18 + 1) st1 = (.ok entries, st2) ∧
      collLength st2.world E = 0 ∧
      Value.strList [] = .strList (formOwnKeysFn st2.world 1) ∧
      (delegateOwnKeys (18 + 1) (initSt wIdx) (.node 1)).2.world =
        (initSt wIdx).world ∧
      (delegateOwnKeys (18 + 1) (initSt wIdx) (.node 1)).2.trace =
        st2.trace ++ [.invoke (.node 1) "0"] ++ restoreEvsOf entries ∧
      restoredNats (restoreEvsOf entries) = entries.map Prod.fst ∧
      (E = .controlsCollection 1 →
        entries.map Prod.fst = elementsOf (initSt wIdx).world 1) :=
  C10_form_ownkeys 18 (initSt wIdx) 1 (.strList [])
    (delegateOwnKeys (18 + 1) (initSt wIdx) (.node 1)).2
    ⟨by decide, by decide, by decide⟩ (by decide) rfl

/-- The `ownKeys` filter for documents returns a subsequence of the
reflective key list. -/
theorem docOwnKeysFilter_sublist (fuel : Nat) :
    ∀ (keys : List String) (st : St) (docV : Value) (ks : List String)
      (st' : St),
      docOwnKeysFilter fuel st docV keys = (.ok ks, st') →
      List.Sublist ks keys
  | [], st, docV, ks, st', h => by
    simp only [docOwnKeysFilter] at h
    cases h
    exact List.Sublist.refl _
  | k :: rest, st, docV, ks, st', h => by
    simp only [docOwnKeysFilter] at h
    split at h
    · simp at h
    · rename_i ov st1 hdet
      split at h
      · rename_i ks2 st2 hrec
        have hs := docOwnKeysFilter_sublist fuel rest st1 docV ks2 st2 hrec
        cases h
        cases ov with
        | true => exact hs.cons k
        | false => exact hs.cons₂ k
      · simp at h

/-- Counterexample to C7 as stated: `ownKeys(document)` is not computed
without eviction — on a document holding a form whose control shadows the
form's `name`, detection transiently evicts the control. -/
theorem C7_doc_ownkeys_counterexample :
    ¬ C7claimAt (initSt wDocF) 20 0 := by
  simp only [C7claimAt]
  decide

/-- C7 (amended): `ownKeys(document)` filters the document's reflective
own keys through the detector; detection may transiently evict interfering
nodes but restores them, so the result is a subsequence of the reflective
keys and the tree ends exactly as it began. -/
theorem C7_doc_ownkeys (fuel : Nat) (st : St) (dn : Nat) (ks : List String)
    (st' : St) (hwf : WfSt st)
    (heq : getDocOwnKeys fuel st (.node dn) = (.ok (.strList ks), st')) :
    st'.world = st.world ∧ WfSt st' ∧
      List.Sublist ks (docOwnKeysFn st.world dn) := by
  simp only [getDocOwnKeys] at heq
  split at heq
  · rename_i ks2 st1 hfil
    cases heq
    have hfr := docOwnKeysFilter_frame id gproto_id fuel _ st (.node dn) ks
      st' hwf hfil
    exact ⟨hfr.2.1, hfr.2.2.1,
      docOwnKeysFilter_sublist fuel _ st (.node dn) ks st' hfil⟩
  · simp at heq

/-- Witness for the amended C7: on a document holding a form whose control
shadows `name`, `ownKeys` returns the filtered keys with the world
restored — and the run does record a transient eviction, refuting the
eviction-free reading. -/
theorem C7_doc_ownkeys_witness :
    (getDocOwnKeys 20 (initSt wDocF) (.node 0)).2.world =
      (initSt wDocF).world ∧
    List.Sublist [] (docOwnKeysFn (initSt wDocF).world 0) ∧
    trEvicts (getDocOwnKeys 20 (initSt wDocF) (.node 0)).2.trace ≠ [] := by
  have h := C7_doc_ownkeys 20 (initSt wDocF) 0 []
    (getDocOwnKeys 20 (initSt wDocF) (.node 0)).2
    ⟨by decide, by decide, by decide⟩ rfl
  exact ⟨h.1, h.2.2, by decide⟩

/-- C8: in the single-node substitution case the operation is re-entered
through the same full detection-and-substitution method: the one
interfering node is evicted and `formSanitizedInner` itself re-runs, so a
second shadow of the same key (such as a form-owned image behind a
control) is detected and evicted in turn before the operation finally
runs. -/
theorem C8_recursive_reentry (fuel : Nat) (cb : Cb) (st st1 : St)
    (form : Value) (property : String) (arg : Value) (e : Nat)
    (hdet : formIsOverridden fuel st form property = (.ok true, st1))
    (hval : valGet st1.world form property = .node e) :
    formSanitizedInner (fuel + 1) cb st form property arg =
      sanitizeSingle (formSanitizedInner fuel cb) (.node e) st1 form
        property arg := by
  simp only [formSanitizedInner, hdet, hval]
  simp [isHtmlCollectionV, isRadioNodeListV]

/-- Witness for C8: a form holding a control and an image both named
`foo`.  The single case re-enters the pipeline, the trace shows the
control (node 2) and then the image (node 3) evicted, the operation
resolves the form's own `foo` field, and the tree is restored. -/
theorem C8_recursive_reentry_witness :
    formSanitizedInner 10 getProperty (initSt wImg) (.node 1) "foo"
        .undef =
      sanitizeSingle (formSanitizedInner 9 getProperty) (.node 2)
        { initSt wImg with trace := [.invoke (.node 1) "elements"] }
        (.node 1) "foo" .undef ∧
    evictedNats (formSanitizedInner 10 getProperty (initSt wImg) (.node 1)
      "foo" .undef).2.trace = [2, 3] ∧
    (formSanitizedInner 10 getProperty (initSt wImg) (.node 1) "foo"
      .undef).1 = .ok (.str "bar") ∧
    (formSanitizedInner 10 getProperty (initSt wImg) (.node 1) "foo"
      .undef).2.world = (initSt wImg).world :=
  ⟨C8_recursive_reentry 9 getProperty (initSt wImg)
    { initSt wImg with trace := [.invoke (.node 1) "elements"] } (.node 1)
    "foo" .undef 2 rfl rfl, rfl, rfl, rfl⟩

/-! ### Facts supporting the unshadowed-equivalence analysis -/

@[simp] theorem mapDataF_cons (t : Tree) (ts : List Tree) (x : Nat)
    (g : NodeData → NodeData) :
    mapDataF (t :: ts) x g = mapDataT t x g :: mapDataF ts x g := rfl

@[simp] theorem rootNat_mapDataT (t : Tree) (x : Nat)
    (g : NodeData → NodeData) : (mapDataT t x g).rootNat = t.rootNat := by
  cases t with
  | node n d cs => rfl

mutual

theorem mapDataT_not_mem (t : Tree) (x : Nat) (g : NodeData → NodeData)
    (h : x ∉ nidsOfT t) : mapDataT t x g = t := by
  cases t with
  | node n d cs =>
    simp only [nidsOfT_node, List.mem_cons, not_or] at h
    simp only [mapDataT]
    rw [if_neg (fun hc => h.1 hc.symm), mapDataF_not_mem cs x g h.2]

theorem mapDataF_not_mem (l : List Tree) (x : Nat) (g : NodeData → NodeData)
    (h : x ∉ nidsOfF l) : mapDataF l x g = l := by
  cases l with
  | nil => rfl
  | cons t ts =>
    simp only [nidsOfF_cons, List.mem_append, not_or] at h
    simp only [mapDataF_cons]
    rw [mapDataT_not_mem t x g h.1, mapDataF_not_mem ts x g h.2]

end

mutual

/-- Mutating the data of a node that does not occur in the inserted
subtree commutes with the replacement. -/
theorem replace_mapDataT (t : Tree) (a : Nat) (r : Tree) (x : Nat)
    (g : NodeData → NodeData) (hxr : x ∉ nidsOfT r) :
    replaceT (mapDataT t x g) a r = mapDataT (replaceT t a r) x g := by
  cases t with
  | node n d cs =>
    simp only [mapDataT, replaceT_node]
    rw [replace_mapDataF cs a r x g hxr]

theorem replace_mapDataF (l : List Tree) (a : Nat) (r : Tree) (x : Nat)
    (g : NodeData → NodeData) (hxr : x ∉ nidsOfT r) :
    replaceF (mapDataF l x g) a r = mapDataF (replaceF l a r) x g := by
  cases l with
  | nil => rfl
  | cons t ts =>
    simp only [mapDataF_cons]
    rw [replaceF_cons', replaceF_cons', rootNat_mapDataT]
    by_cases hra : t.rootNat = a
    · rw [if_pos hra, if_pos hra, mapDataF_cons,
        mapDataT_not_mem r x g hxr, replace_mapDataF ts a r x g hxr]
    · rw [if_neg hra, if_neg hra, mapDataF_cons,
        replace_mapDataT t a r x g hxr,
        replace_mapDataF ts a r x g hxr]

end

end DomU
